import Mathlib

/-!
# Verification of the document-structure extraction core

A shallow embedding, in Lean, of the table-of-contents extraction and
hierarchy-building subsystem of the `pdf-to-docs` repository
(`internal/convert/toc.go`, `internal/convert/util.go`,
`internal/convert/types.go` and the `convert` part of `internal/ai/ai.go`),
together with proofs and refutations of the specification's claims about it.

Go strings are modelled as `List Char` (`Str`), Go `int` as `Int`
(no arithmetic in the modelled code can overflow a 64-bit integer on the
inputs the theorems quantify over; `strconv.Atoi` is modelled exactly on
in-range digit strings and the theorems that depend on it restrict the
digit-token length to 18, within `int64` range).  The Go regular
expressions used by the code are anchored patterns of a very simple shape;
they are embedded as deterministic parsers implementing Go's
leftmost-first (Perl-style) submatch semantics, which for these patterns
is characterised exactly by the greedy/lazy analysis documented at each
definition.
-/

set_option maxRecDepth 10000
set_option maxHeartbeats 1600000

/-- Go strings, modelled as lists of characters. -/
abbrev Str := List Char

/-- Convert a Lean string literal to the model type. -/
def str (s : String) : Str := s.data

/-- The character class of Go's regexp `\s`, which is `[\t\n\f\r ]`. -/
def reSpace (c : Char) : Bool :=
  c.toNat = 9 || c.toNat = 10 || c.toNat = 12 || c.toNat = 13 || c.toNat = 32

/-- Go's `unicode.IsSpace` (used by `strings.Fields` and
`strings.TrimSpace`): the Unicode White_Space property. -/
def goSpace (c : Char) : Bool :=
  c.toNat = 9 || c.toNat = 10 || c.toNat = 11 || c.toNat = 12 || c.toNat = 13 ||
  c.toNat = 32 || c.toNat = 133 || c.toNat = 160 || c.toNat = 0x1680 ||
  (0x2000 ≤ c.toNat && c.toNat ≤ 0x200A) || c.toNat = 0x2028 || c.toNat = 0x2029 ||
  c.toNat = 0x202F || c.toNat = 0x205F || c.toNat = 0x3000

/-- Regexp `\d` / `[0-9]`. -/
def isDigitC (c : Char) : Bool := 48 ≤ c.toNat && c.toNat ≤ 57

/-- Regexp `[A-Z]`. -/
def isUpperC (c : Char) : Bool := 65 ≤ c.toNat && c.toNat ≤ 90

/-- ASCII letters. -/
def isAlphaC (c : Char) : Bool :=
  (65 ≤ c.toNat && c.toNat ≤ 90) || (97 ≤ c.toNat && c.toNat ≤ 122)

/-- Regexp word-class `\w = [0-9A-Za-z_]`, used by the `\b` boundary. -/
def isWordC (c : Char) : Bool := isAlphaC c || isDigitC c || c == '_'

/-- ASCII lowering; models `strings.ToLower` (non-ASCII letters are left
unchanged by the model; none of the verified inputs contain any). -/
def lowerAscii (c : Char) : Char :=
  if 65 ≤ c.toNat ∧ c.toNat ≤ 90 then Char.ofNat (c.toNat + 32) else c

/-- `leadsWith p s` holds when `p` is a leading segment of `s`
(the model of `strings.HasPrefix s p`). -/
def leadsWith : Str → Str → Bool
  | [], _ => true
  | _ :: _, [] => false
  | p :: ps, c :: cs => p == c && leadsWith ps cs

/-- `containsSeq s p`: `p` occurs as a contiguous segment of `s`
(the model of `strings.Contains s p`). -/
def containsSeq : Str → Str → Bool
  | s, p =>
    leadsWith p s ||
      match s with
      | [] => false
      | _ :: t => containsSeq t p

/-- One scanning step of `strings.Replace` for a nonempty pattern
`o :: os`: replace non-overlapping occurrences left to right. -/
def replaceAllNE (s : Str) (o : Char) (os new : Str) : Str :=
  match s with
  | [] => []
  | c :: t =>
    if leadsWith (o :: os) (c :: t) then
      new ++ replaceAllNE ((c :: t).drop (o :: os).length) o os new
    else
      c :: replaceAllNE t o os new
termination_by s.length
decreasing_by
  · simp only [List.length_drop, List.length_cons]
    omega
  · simp only [List.length_cons]
    omega

/-- `strings.ReplaceAll s old new`.  For an empty pattern Go inserts
`new` before every character and after the last one. -/
def replaceAll (s old new : Str) : Str :=
  match old with
  | [] => new ++ (s.map (fun c => c :: new)).flatten
  | o :: os => replaceAllNE s o os new

theorem dropWhile_length_le (p : Char → Bool) (l : Str) :
    (l.dropWhile p).length ≤ l.length := by
  induction l with
  | nil => simp [List.dropWhile]
  | cons c t ih =>
    simp only [List.dropWhile]
    split
    · exact Nat.le_trans ih (by simp)
    · simp

/-- `strings.Fields`: the maximal runs of non-`unicode.IsSpace`
characters, in order. -/
def fields (s : Str) : List Str :=
  match s with
  | [] => []
  | c :: t =>
    if goSpace c then fields t
    else (c :: t.takeWhile (fun d => !goSpace d)) :: fields (t.dropWhile (fun d => !goSpace d))
termination_by s.length
decreasing_by
  · simp only [List.length_cons]
    omega
  · have := dropWhile_length_le (fun d => !goSpace d) t
    simp only [List.length_cons]
    omega

/-- `strings.Join ws sep`. -/
def joinWith (sep : Str) : List Str → Str
  | [] => []
  | [w] => w
  | w :: ws => w ++ sep ++ joinWith sep ws

/-- `strings.TrimSpace`: trim `unicode.IsSpace` characters from both ends. -/
def trimSpace (s : Str) : Str :=
  ((s.dropWhile goSpace).reverse.dropWhile goSpace).reverse

/-- `strings.TrimRight s " "`: trim trailing plain spaces. -/
def trimRightSp (s : Str) : Str :=
  (s.reverse.dropWhile (fun c => c == ' ')).reverse

/-- `strings.Split s "\n"`. -/
def splitOnNL (s : Str) : List Str :=
  match s with
  | [] => [[]]
  | c :: t =>
    if c = '\n' then [] :: splitOnNL t
    else
      match splitOnNL t with
      | [] => [[c]]
      | w :: ws => (c :: w) :: ws

/-- `strings.Count s sub` for a single-character `sub`. -/
def countChar (c : Char) (s : Str) : Nat := (s.filter (fun d => d == c)).length

/-- The numeric value of a digit string; models `strconv.Atoi` on
in-range (at most 18 digit) inputs, which is how the matched code uses it. -/
def digitsVal (s : Str) : Nat := s.foldl (fun a c => a * 10 + (c.toNat - 48)) 0

/-!
## The entry-matcher regular expressions (`toc.go`)

All four patterns share the anchored overall shape
`^\s* TOKEN \s+(.+?)\s+(\d+)\s*$`.  The embedding below implements Go's
leftmost-first submatch semantics for that shape:

* the leading `\s*` and the token sub-expressions never backtrack,
  because each is followed by a character class disjoint from the one it
  consumes;
* `\s+(.+?)\s+(\d+)\s*$` is matched by trying the longest feasible run
  for the first `\s+` (backing off down to one character), and for each
  such run the shortest feasible non-empty title, after which the page
  digits and the trailing `\s*` are forced.
-/

/-- Match `\s+(\d+)\s*$` against the whole of `u`; return the digits.
Inside this fragment nothing can backtrack: the space run is followed
by a digit, and giving back a digit would leave a digit for `\s*`. -/
def tailEnd (u : Str) : Option Str :=
  let w := u.takeWhile reSpace
  let r1 := u.dropWhile reSpace
  if w.isEmpty then none
  else
    let d := r1.takeWhile isDigitC
    let r2 := r1.dropWhile isDigitC
    if d.isEmpty then none
    else if r2.all reSpace then some d else none

/-- Lazy `(.+?)\s+(\d+)\s*$`: the shortest non-empty title prefix whose
remainder matches `\s+(\d+)\s*$`; returns the title and page captures. -/
def findMinSplit : Str → Option (Str × Str)
  | [] => none
  | c :: rest =>
    match tailEnd rest with
    | some d => some ([c], d)
    | none =>
      match findMinSplit rest with
      | some (t, d) => some (c :: t, d)
      | none => none

/-- Try `\s+` runs of length `k, k-1, …, 1` before the lazy title. -/
def matchTailK : Nat → Str → Option (Str × Str)
  | 0, _ => none
  | k + 1, r =>
    match findMinSplit (r.drop (k + 1)) with
    | some td => some td
    | none => matchTailK k r

/-- Match `\s+(.+?)\s+(\d+)\s*$` against the whole of `r`. -/
def matchTail (r : Str) : Option (Str × Str) :=
  matchTailK (r.takeWhile reSpace).length r

/-- Greedy `(?:\.\d+)*`: consume dot-digit-run segments while present.
A trailing `.` without digits is left unconsumed. -/
def numSegsGo : Str → (Str × Str)
  | '.' :: rest =>
    let d := rest.takeWhile isDigitC
    if d.isEmpty then ([], '.' :: rest)
    else
      let (s2, r2) := numSegsGo (rest.dropWhile isDigitC)
      ('.' :: (d ++ s2), r2)
  | s => ([], s)
termination_by s => s.length
decreasing_by
  have := dropWhile_length_le isDigitC rest
  simp only [List.length_cons]
  omega

/-- Greedy `\d+(?:\.\d+)*` (the `tocNumRe` number token). -/
def numToken (s : Str) : Option (Str × Str) :=
  let d := s.takeWhile isDigitC
  if d.isEmpty then none
  else
    let (segs, r2) := numSegsGo (s.dropWhile isDigitC)
    some (d ++ segs, r2)

/-- Greedy `[A-Z](?:\.[0-9]+)*` (the `tocAlphaRe`/`tocAppendixRe` token). -/
def alphaToken (s : Str) : Option (Str × Str) :=
  match s with
  | [] => none
  | c :: rest =>
    if isUpperC c then
      let (segs, r2) := numSegsGo rest
      some (c :: segs, r2)
    else none

/-- `tocNumRe.FindStringSubmatch`: captures (number, title, page). -/
def tocNumFind (line : Str) : Option (Str × Str × Str) :=
  match numToken (line.dropWhile reSpace) with
  | none => none
  | some (num, rest) =>
    match matchTail rest with
    | none => none
    | some (t, d) => some (num, t, d)

/-- `tocAlphaRe.FindStringSubmatch`: captures (number, title, page). -/
def tocAlphaFind (line : Str) : Option (Str × Str × Str) :=
  match alphaToken (line.dropWhile reSpace) with
  | none => none
  | some (num, rest) =>
    match matchTail rest with
    | none => none
    | some (t, d) => some (num, t, d)

/-- The literal alternation `(?:Appendix|APPENDIX)` of `tocAppendixRe`. -/
def kwAppendixLower : Str := str "Appendix"

/-- The all-caps branch of the appendix keyword alternation. -/
def kwAppendixUpper : Str := str "APPENDIX"

/-- `tocAppendixRe.FindStringSubmatch`: captures (letter token, title,
page); the `Appendix` keyword itself is not captured. -/
def tocAppendixFind (line : Str) : Option (Str × Str × Str) :=
  let r := line.dropWhile reSpace
  let afterKw : Option Str :=
    if leadsWith kwAppendixLower r then some (r.drop 8)
    else if leadsWith kwAppendixUpper r then some (r.drop 8)
    else none
  match afterKw with
  | none => none
  | some r2 =>
    if (r2.takeWhile reSpace).isEmpty then none
    else
      match alphaToken (r2.dropWhile reSpace) with
      | none => none
      | some (tok, rest) =>
        match matchTail rest with
        | none => none
        | some (t, d) => some (tok, t, d)

/-- Regexp `[IVXLCDM]`. -/
def isRomanC (c : Char) : Bool :=
  c == 'I' || c == 'V' || c == 'X' || c == 'L' || c == 'C' || c == 'D' || c == 'M'

/-- `tocRomanRe.FindStringSubmatch`: captures (roman, optional sub-index,
title, page).  The optional `(?:\.([0-9]+))?` group is forced whenever a
dot follows the roman run: skipping it would leave the dot for `\s+`,
which can never match. -/
def tocRomanFind (line : Str) : Option (Str × Option Str × Str × Str) :=
  let r := line.dropWhile reSpace
  let rom := r.takeWhile isRomanC
  if rom.isEmpty then none
  else
    match r.dropWhile isRomanC with
    | '.' :: r2 =>
      let d := r2.takeWhile isDigitC
      if d.isEmpty then none
      else
        match matchTail (r2.dropWhile isDigitC) with
        | none => none
        | some (t, pg) => some (rom, some d, t, pg)
    | r1 =>
      match matchTail r1 with
      | none => none
      | some (t, pg) => some (rom, none, t, pg)

/-- A parsed ToC line (`tocEntry` in `toc.go`). -/
structure TocEntry where
  number : Str
  title : Str
  page : Int
  depth : Int
deriving DecidableEq, Repr

/-- `matchToC`: classify one line against the four patterns in source
order (appendix, numeric, alphabetic, roman); `none` models `ok=false`. -/
def matchToC (line : Str) : Option TocEntry :=
  match tocAppendixFind line with
  | some (key, t, pg) =>
    some ⟨key, trimSpace t, (digitsVal pg : Int), (countChar '.' key : Int) + 1⟩
  | none =>
    match tocNumFind line with
    | some (num, t, pg) =>
      some ⟨num, trimSpace t, (digitsVal pg : Int), (countChar '.' num : Int) + 1⟩
    | none =>
      match tocAlphaFind line with
      | some (num, t, pg) =>
        some ⟨num, trimSpace t, (digitsVal pg : Int), (countChar '.' num : Int) + 1⟩
      | none =>
        match tocRomanFind line with
        | some (rom, sub, t, pg) =>
          match sub with
          | some d => some ⟨rom ++ '.' :: d, trimSpace t, (digitsVal pg : Int), 2⟩
          | none => some ⟨rom, trimSpace t, (digitsVal pg : Int), 1⟩
        | none => none

/-- The exact 106-dot leader literal replaced by `normalizeDotLeaders`. -/
def dots (n : Nat) : Str := List.replicate n '.'

/-- The literal `" . . . "` pattern replaced by `normalizeDotLeaders`. -/
def spacedDots : Str := [' ', '.', ' ', '.', ' ', '.', ' ']

/-- `normalizeDotLeaders` from `toc.go`: the seven `ReplaceAll` calls in
source order (the fourth and fifth repeat the second and third with the
same literal characters), then `strings.Join(strings.Fields(s), " ")`. -/
def normalizeDotLeaders (s : Str) : Str :=
  let s1 := replaceAll s ['•'] [' ']
  let s2 := replaceAll s1 ['·'] [' ']
  let s3 := replaceAll s2 ['…'] [' ', '.', '.', '.', ' ']
  let s4 := replaceAll s3 ['·'] [' ']
  let s5 := replaceAll s4 ['…'] [' ', '.', '.', '.', ' ']
  let s6 := replaceAll s5 (dots 106) [' ']
  let s7 := replaceAll s6 spacedDots [' ']
  joinWith [' '] (fields s7)

/-- `isToCLine`: normalize, then test the four patterns for a match. -/
def isToCLine (s : Str) : Bool :=
  let n := normalizeDotLeaders s
  (tocAppendixFind n).isSome || (tocNumFind n).isSome ||
    (tocAlphaFind n).isSome || (tocRomanFind n).isSome

/-!
## `slugify` and `buildSections` (`util.go`, `toc.go`)
-/

/-- The complement of the `nonSlug` regexp class `[^a-z0-9\-]`. -/
def slugOkC (c : Char) : Bool :=
  (97 ≤ c.toNat && c.toNat ≤ 122) || (48 ≤ c.toNat && c.toNat ≤ 57) || c == '-'

/-- `nonSlug.ReplaceAllString(s, "-")`: each maximal run of characters
outside `[a-z0-9-]` becomes a single dash. -/
def replaceBadRuns (s : Str) : Str :=
  match s with
  | [] => []
  | c :: t =>
    if slugOkC c then c :: replaceBadRuns t
    else '-' :: replaceBadRuns (t.dropWhile (fun d => !slugOkC d))
termination_by s.length
decreasing_by
  · simp only [List.length_cons]
    omega
  · have := dropWhile_length_le (fun d => !slugOkC d) t
    simp only [List.length_cons]
    omega

/-- `strings.Trim s "-"`. -/
def trimDashes (s : Str) : Str :=
  ((s.dropWhile (fun c => c == '-')).reverse.dropWhile (fun c => c == '-')).reverse

theorem leadsWith_length_le : ∀ (p s : Str), leadsWith p s = true → p.length ≤ s.length
  | [], _, _ => by simp
  | _ :: _, [], h => by simp [leadsWith] at h
  | p :: ps, c :: cs, h => by
    rw [leadsWith, Bool.and_eq_true] at h
    have := leadsWith_length_le ps cs h.2
    simp only [List.length_cons]
    omega

theorem replaceAllNE_length_le (s : Str) (o : Char) (os new : Str) :
    new.length ≤ os.length + 1 → (replaceAllNE s o os new).length ≤ s.length := by
  induction s, o, os, new using replaceAllNE.induct with
  | case1 => simp [replaceAllNE]
  | case2 o os new c t h ih =>
    intro hn
    rw [replaceAllNE, if_pos h]
    have hlen := leadsWith_length_le (o :: os) (c :: t) h
    have := ih hn
    simp only [List.length_append, List.length_drop, List.length_cons] at hlen this ⊢
    omega
  | case3 o os new c t h ih =>
    intro hn
    rw [replaceAllNE, if_neg h]
    have := ih hn
    simp only [List.length_cons]
    omega

theorem replaceAllNE_length_lt (s : Str) (o : Char) (os new : Str) :
    new.length ≤ os.length → containsSeq s (o :: os) = true →
      (replaceAllNE s o os new).length < s.length := by
  induction s, o, os, new using replaceAllNE.induct with
  | case1 o os new =>
    intro _ h
    rw [containsSeq] at h
    simp [leadsWith] at h
  | case2 o os new c t hl ih =>
    intro hn _
    rw [replaceAllNE, if_pos hl]
    have hlen := leadsWith_length_le (o :: os) (c :: t) hl
    have := replaceAllNE_length_le (List.drop (o :: os).length (c :: t)) o os new
      (by omega)
    simp only [List.length_append, List.length_drop, List.length_cons] at hlen this ⊢
    omega
  | case3 o os new c t hl ih =>
    intro hn h
    rw [replaceAllNE, if_neg hl]
    rw [containsSeq] at h
    simp only [Bool.or_eq_true] at h
    rcases h with h | h
    · exact absurd h hl
    · have := ih hn h
      simp only [List.length_cons]
      omega

/-- The `for strings.Contains(s, "--") { s = ReplaceAll(s, "--", "-") }`
loop of `slugify`. -/
def collapseDashes (s : Str) : Str :=
  if h : containsSeq s ['-', '-'] = true then
    collapseDashes (replaceAll s ['-', '-'] ['-'])
  else s
termination_by s.length
decreasing_by
  exact replaceAllNE_length_lt s '-' ['-'] ['-'] (by simp) h

/-- `slugify` from `util.go`; `strings.ToLower` is modelled on ASCII. -/
def slugify (s : Str) : Str :=
  let s1 := s.map lowerAscii
  let s2 := trimSpace s1
  let s3 := replaceAll s2 [' '] ['-']
  let s4 := replaceAll s3 ['/'] ['-']
  let s5 := replaceAll s4 ['.'] ['-']
  let s6 := replaceBadRuns s5
  let s7 := trimDashes s6
  collapseDashes s7

/-- A `Section` record from `types.go`; `children` makes it a rose tree.
The Go field `End` is modelled as `stop` (`end` is reserved in Lean). -/
inductive GoSection where
  | mk (number title : Str) (start stop depth : Int) (slug : Str)
       (children : List GoSection)
deriving Repr

/-- The `Number` field. -/
def GoSection.number : GoSection → Str
  | .mk n _ _ _ _ _ _ => n

/-- The `Title` field. -/
def GoSection.title : GoSection → Str
  | .mk _ t _ _ _ _ _ => t

/-- The `Start` field. -/
def GoSection.start : GoSection → Int
  | .mk _ _ s _ _ _ _ => s

/-- The `End` field. -/
def GoSection.stop : GoSection → Int
  | .mk _ _ _ e _ _ _ => e

/-- The `Depth` field. -/
def GoSection.depth : GoSection → Int
  | .mk _ _ _ _ d _ _ => d

/-- The `Slug` field. -/
def GoSection.slug : GoSection → Str
  | .mk _ _ _ _ _ sl _ => sl

/-- The `Children` field. -/
def GoSection.children : GoSection → List GoSection
  | .mk _ _ _ _ _ _ ch => ch

/-- The section literal built by `buildSections` for entry `e` with the
computed end page. -/
def mkSection (e : TocEntry) (endP : Int) : GoSection :=
  .mk e.number e.title e.page endP e.depth
    (slugify (e.number ++ '-' :: e.title)) []

/-- The loop body of `buildSections`: each retained entry's end page is
`entries[i+1].Page - 1` clamped up to its own page, and the last entry's
end page is its own page. -/
def buildLoop : List TocEntry → Int → List GoSection
  | [], _ => []
  | [e], md => if e.depth > md then [] else [mkSection e e.page]
  | e :: e2 :: rest, md =>
    (if e.depth > md then []
     else [mkSection e (if e2.page - 1 < e.page then e.page else e2.page - 1)]) ++
      buildLoop (e2 :: rest) md

/-- `buildSections` from `toc.go`: a non-positive `maxDepth` is replaced
by 10 before the loop. -/
def buildSections (entries : List TocEntry) (maxDepth : Int) : List GoSection :=
  buildLoop entries (if maxDepth ≤ 0 then 10 else maxDepth)

/-!
## The hierarchy assembler (`ai.go`, package `convert` part)

`buildHierarchy` runs a local stack-based loop whose results (`roots`,
`out`, `stack`) are all discarded, and returns `attachChildren(sections)`;
it is therefore embedded as exactly that call.  `attachChildren` mutates
value copies held in the `nodes` slice; the embedding reproduces the
copy-on-write behaviour of the Go code (`nodes.set`), including the fact
that a child appended to a parent is the child's value *at that moment*.
-/

/-- Append `c` to the `Children` of `p` (a Go struct value update). -/
def GoSection.withChild (p c : GoSection) : GoSection :=
  match p with
  | .mk n t s e d sl ch => .mk n t s e d sl (ch ++ [c])

/-- The backward scan of `attachChildren`: the nearest `j < i` with
`nodes[j].Depth < s.Depth` and `nodes[j].Number + "."` leading
`s.Number`; returns the index and that node's current value. -/
def scanBack (nodes : List GoSection) (s : GoSection) : Nat → Option (Nat × GoSection)
  | 0 => none
  | j + 1 =>
    match nodes.get? j with
    | some p =>
      if p.depth < s.depth && leadsWith (p.number ++ ['.']) s.number then some (j, p)
      else scanBack nodes s j
    | none => scanBack nodes s j

/-- The main loop of `attachChildren` over indices `i`, threading the
mutable `nodes` slice and the accumulating `roots` slice. -/
def attachLoop (nodes roots : List GoSection) (i : Nat) :
    List GoSection × List GoSection :=
  if h : i < nodes.length then
    let s := nodes.get ⟨i, h⟩
    match scanBack nodes s i with
    | none => attachLoop nodes (roots ++ [s]) (i + 1)
    | some (j, p) => attachLoop (nodes.set j (p.withChild s)) roots (i + 1)
  else (nodes, roots)
termination_by nodes.length - i
decreasing_by
  · omega
  · simp only [List.length_set]
    omega

/-- The last binding for `num` in the `byNumber` map built by iterating
over `nodes` in order (later duplicates overwrite earlier ones). -/
def lookupLast (nodes : List GoSection) (num : Str) : Option GoSection :=
  match nodes with
  | [] => none
  | n :: rest =>
    match lookupLast rest num with
    | some v => some v
    | none => if n.number = num then some n else none

/-- `rebuildWithChildrenOrder`: refresh each root from the `byNumber`
map over the final `nodes` values. -/
def rebuildWithChildrenOrder (roots nodes : List GoSection) : List GoSection :=
  roots.map fun r =>
    match lookupLast nodes r.number with
    | some v => v
    | none => r

/-- `attachChildren` from `ai.go`. -/
def attachChildren (flat : List GoSection) : List GoSection :=
  let nr := attachLoop flat [] 0
  rebuildWithChildrenOrder nr.2 nr.1

/-- `buildHierarchy` from `ai.go`: the preliminary stack loop only
builds local state that is discarded, and the function returns
`attachChildren(sections)`. -/
def buildHierarchy (sections : List GoSection) : List GoSection :=
  attachChildren sections

mutual

/-- Depth-first flattening of one section: the node followed by the
flattening of its children, in order. -/
def flattenSec : GoSection → List GoSection
  | .mk n t s e d sl ch => .mk n t s e d sl ch :: flattenMany ch

/-- Depth-first flattening of a forest. -/
def flattenMany : List GoSection → List GoSection
  | [] => []
  | s :: rest => flattenSec s ++ flattenMany rest

end

/-- Whether some node in the forest carries the given section number. -/
def forestHasNum (num : Str) : List GoSection → Bool
  | [] => false
  | .mk n _ _ _ _ _ ch :: rest =>
    (n == num) || forestHasNum num ch || forestHasNum num rest

/-!
## The table heuristic (`util.go`)
-/

/-- Split on runs of two-or-more `\s` characters after `TrimSpace`
(one regexp `\s{2,}` match consumes a whole maximal run, greedily). -/
def splitRuns (s : Str) : List Str :=
  match s with
  | [] => [[]]
  | c :: t =>
    if reSpace c && !(t.takeWhile reSpace).isEmpty then
      [] :: splitRuns (t.dropWhile reSpace)
    else
      match splitRuns t with
      | [] => [[c]]
      | w :: ws => (c :: w) :: ws
termination_by s.length
decreasing_by
  · have := dropWhile_length_le reSpace t
    simp only [List.length_cons]
    omega
  · simp only [List.length_cons]
    omega

/-- `splitBy2Spaces` from `util.go`. -/
def splitBy2Spaces (s : Str) : List Str := splitRuns (trimSpace s)

/-- `trimAll` from `util.go`. -/
def trimAll (a : List Str) : List Str := a.map trimSpace

/-- One Markdown table row, `"| " + Join(trimAll(row), " | ") + " |"`. -/
def renderRow (row : List Str) : Str :=
  str "| " ++ joinWith (str " | ") (trimAll row) ++ str " |"

/-- The Markdown separator row for `cols` columns. -/
def renderSep (cols : Nat) : Str :=
  str "| " ++ joinWith (str " | ") (List.replicate cols (str "---")) ++ str " |"


/-- The inner block-collection loop of `transformTables`: gather
consecutive non-blank lines that split into the same number (at least 2)
of fields; a block reaching 51 rows stops without advancing past its
last line (exactly as the Go `break` after `append` does).  Returns the
block, the established column count, and the number of lines the loop
index advanced over (the Go loop's final `i` equals the entry `i` plus
this count). -/
def collectBlock (lines : List Str) (i colsCount : Nat)
    (block : List (List Str)) : List (List Str) × Nat × Nat :=
  if h : i < lines.length then
    let ln := trimRightSp (lines.get ⟨i, h⟩)
    if ln.isEmpty then (block, colsCount, 0)
    else
      let parts := splitBy2Spaces ln
      if parts.length < 2 then (block, colsCount, 0)
      else
        let cc := if colsCount = 0 then parts.length else colsCount
        if parts.length ≠ cc then (block, cc, 0)
        else
          let block2 := block ++ [parts]
          if block2.length > 50 then (block2, cc, 0)
          else
            let r := collectBlock lines (i + 1) cc block2
            (r.1, r.2.1, r.2.2 + 1)
  else (block, colsCount, 0)
termination_by lines.length - i
decreasing_by
  omega

theorem collectBlock_consumed_pos (lines : List Str) (i cc : Nat)
    (h2 : 2 ≤ (collectBlock lines i cc []).1.length) :
    1 ≤ (collectBlock lines i cc []).2.2 := by
  rw [collectBlock] at h2 ⊢
  split_ifs at h2 ⊢ <;> simp_all <;> split_ifs at h2 ⊢ <;> simp_all

/-- The outer loop of `transformTables` over line index `i`. -/
def ttLoop (lines : List Str) (i : Nat) : List Str :=
  if hi : i < lines.length then
    let r := collectBlock lines i 0 []
    let block := r.1
    let cols := r.2.1
    let i2 := i + r.2.2
    if hb : 2 ≤ block.length ∧ 2 ≤ cols then
      let rendered :=
        renderRow (block.headD []) :: renderSep cols :: (block.drop 1).map renderRow
      have hcp : 1 ≤ (collectBlock lines i 0 []).2.2 :=
        collectBlock_consumed_pos lines i 0 hb.1
      if h2 : i2 < lines.length then
        if (trimSpace (lines.get ⟨i2, h2⟩)).isEmpty then
          rendered ++ [[]] ++ ttLoop lines (i2 + 1)
        else rendered ++ ttLoop lines i2
      else rendered ++ ttLoop lines i2
    else
      List.take (min (i2 + 1) lines.length - i) (lines.drop i) ++ ttLoop lines (i2 + 1)
  else []
termination_by lines.length - i
decreasing_by
  all_goals omega

/-- `transformTables` from `util.go`. -/
def transformTables (text : Str) : Str :=
  joinWith ['\n'] (ttLoop (splitOnNL text) 0)

/-!
## The ToC locator (`types.go`)
-/

/-- `pageNumRe.MatchString`, pattern `\b\d+\s*$`: the string ends (after
optional `\s`) with a digit run whose start sits at a word boundary.
Because `\d` is itself a word character, a boundary exists exactly when
the maximal trailing digit run is at the start of text or preceded by a
non-word character. -/
def pageNumTail (s : Str) : Bool :=
  let rev := s.reverse.dropWhile reSpace
  let d := rev.takeWhile isDigitC
  !d.isEmpty &&
    (match rev.dropWhile isDigitC with
     | [] => true
     | c :: _ => !isWordC c)

/-- The lowered heading keyword of `headerRe` and the `strings.Contains`
check in `findToCBlock`. -/
def kwTOC : Str := str "table of contents"

/-- The lowered keyword of the `^\s*contents\s*$` branch of `headerRe`. -/
def kwContents : Str := str "contents"

/-- `\b` on the left of a match position: start of text or a preceding
non-word character. -/
def boundaryOK : Option Char → Bool
  | none => true
  | some c => !isWordC c

/-- Case-insensitive `table of contents` anchored at this position, with
the right-hand `\b` (the following character, if any, is non-word). -/
def tocWordHere (s : Str) : Bool :=
  ((s.take 17).map lowerAscii == kwTOC) &&
    (match s.drop 17 with
     | [] => true
     | c :: _ => !isWordC c)

/-- Scan for `(?i)\btable of contents\b` anywhere in the text, carrying
the previous character for the left boundary. -/
def scanTOCWord (prev : Option Char) (s : Str) : Bool :=
  (boundaryOK prev && tocWordHere s) ||
    match s with
    | [] => false
    | c :: t => scanTOCWord (some c) t

/-- The `(?i)^\s*contents\s*$` branch of `headerRe` (`^`/`$` are text
anchors: the whole page must be `contents` amid whitespace). -/
def isOnlyContents (p : Str) : Bool :=
  let r := p.dropWhile reSpace
  ((r.take 8).map lowerAscii == kwContents) && (r.drop 8).all reSpace

/-- `headerRe.MatchString`. -/
def headerMatch (p : Str) : Bool := scanTOCWord none p || isOnlyContents p

/-- The page test of `findToCBlock`:
`headerRe.MatchString(p) || strings.Contains(strings.ToLower(p), "table of contents")`. -/
def tocHeaderPage (p : Str) : Bool :=
  headerMatch p || containsSeq (p.map lowerAscii) kwTOC

/-- The lines collected from a heading page by `findToCBlock`: the raw
lines whose trimmed form ends in a page number. -/
def blockLinesOf (p : Str) : List Str :=
  (splitOnNL p).filter fun ln => pageNumTail (trimSpace ln)

/-- `findToCBlock` from `types.go`: heading pages among the first 6, or
the trimmed `isToCLine` fallback over the same window. -/
def findToCBlock (pages : List Str) : List Str :=
  let lines :=
    ((pages.take 6).map fun p => if tocHeaderPage p then blockLinesOf p else []).flatten
  if lines.isEmpty then
    ((pages.take 6).map fun p =>
      (splitOnNL p).filterMap fun ln =>
        let t := trimSpace ln
        if isToCLine t then some t else none).flatten
  else lines

/-- The trimmed, non-blank `isToCLine` lines one page contributes during
the multi-page extension (and the brute-force scan). -/
def pageContrib (p : Str) : List Str :=
  (splitOnNL p).filterMap fun ln =>
    let t := trimSpace ln
    if t.isEmpty then none
    else if isToCLine t then some t else none

/-- `matchToCLines` from `types.go`. -/
def matchToCLines (p : Str) : Bool :=
  (splitOnNL p).any fun ln => isToCLine (trimSpace ln)

/-- The `lastPage` search of `findToCMultiPage`: the first page index
below both bounds whose page matches `headerRe` or `matchToCLines`. -/
def tocStartScan (pages : List Str) (bound i : Nat) : Option Nat :=
  if h : i < pages.length ∧ i < bound then
    if headerMatch (pages.get ⟨i, h.1⟩) || matchToCLines (pages.get ⟨i, h.1⟩) then some i
    else tocStartScan pages bound (i + 1)
  else none
termination_by bound - i
decreasing_by
  omega

/-- The extension loop of `findToCMultiPage`: collect each page's
contribution while pages keep contributing; stop at the first page in
range that contributes nothing. -/
def tocExtend (pages : List Str) (i limit : Nat) : List Str :=
  if h : i < pages.length ∧ i ≤ limit then
    let c := pageContrib (pages.get ⟨i, h.1⟩)
    if c.isEmpty then [] else c ++ tocExtend pages (i + 1) limit
  else []
termination_by limit + 1 - i
decreasing_by
  omega

/-- `findToCMultiPage` from `types.go`.  A non-positive budget becomes
8; when the simple detector finds lines, they are extended from the
first header/ToC-looking page by up to `max 2 (n/2)` further pages;
otherwise the first `n` pages are brute-scanned. -/
def findToCMultiPage (pages : List Str) (n : Int) : List Str :=
  let n2 : Nat := if n ≤ 0 then 8 else n.toNat
  let lines := findToCBlock pages
  if lines.isEmpty then
    ((pages.take n2).map pageContrib).flatten
  else
    let lastPage := (tocStartScan pages n2 0).getD 0
    let ext := max 2 (n2 / 2)
    lines ++ tocExtend pages (lastPage + 1) (lastPage + ext)

/-!
## Specification-side definitions and concrete inputs used by the claims
-/

/-- Pair each entry with its following entry, if any. -/
def withNext : List TocEntry → List (TocEntry × Option TocEntry)
  | [] => []
  | [e] => [(e, none)]
  | e :: e2 :: r => (e, some e2) :: withNext (e2 :: r)

/-- The end page the specification prescribes for an entry: the next
entry's page minus one when that is at least the entry's own page,
otherwise the entry's own page. -/
def specEndPage (e : TocEntry) : Option TocEntry → Int
  | some e2 => if e2.page - 1 ≥ e.page then e2.page - 1 else e.page
  | none => e.page

/-- The Section Builder as the specification words it (for the
refinement claim C4): retained entries only, with `specEndPage`. -/
def buildSectionsSpec (entries : List TocEntry) (md : Int) : List GoSection :=
  (withNext entries).filterMap fun p =>
    if p.1.depth ≤ md then some (mkSection p.1 (specEndPage p.1 p.2)) else none

/-- Pages in (weakly) ascending order. -/
def pagesAsc : List TocEntry → Bool
  | [] => true
  | [_] => true
  | a :: b :: r => (a.page ≤ b.page : Bool) && pagesAsc (b :: r)

/-- Pages in strictly ascending order. -/
def pagesStrictAsc : List TocEntry → Bool
  | [] => true
  | [_] => true
  | a :: b :: r => (a.page < b.page : Bool) && pagesStrictAsc (b :: r)

/-- The effective maximum depth used by `buildSections`. -/
def effDepth (md : Int) : Int := if md ≤ 0 then 10 else md

/-- The effective page budget used by `findToCMultiPage`. -/
def effBudget (n : Int) : Nat := if n ≤ 0 then 8 else n.toNat

/-- The start index (`lastPage`) chosen by `findToCMultiPage`. -/
def tocStartIdx (pages : List Str) (n : Int) : Nat :=
  (tocStartScan pages (effBudget n) 0).getD 0

/-- The last page index the extension loop of `findToCMultiPage` may
visit: `lastPage + max 2 (budget / 2)`. -/
def tocLimit (pages : List Str) (n : Int) : Nat :=
  tocStartIdx pages n + max 2 (effBudget n / 2)

/-- A placeholder section used only to read list elements totally. -/
def dummySec : GoSection := .mk [] [] 0 0 0 [] []

/-- A three-level section chain `1`, `1.1`, `1.1.1` (titles and slugs
play no role in hierarchy assembly). -/
def exH3 : List GoSection :=
  [.mk (str "1") (str "A") 1 9 1 (str "1-a") [],
   .mk (str "1.1") (str "B") 2 9 2 (str "1-1-b") [],
   .mk (str "1.1.1") (str "C") 3 9 3 (str "1-1-1-c") []]

/-- Entries exhibiting both a page tie and a depth-dropped entry. -/
def exE : List TocEntry :=
  [⟨str "1", str "T", 4, 1⟩, ⟨str "1.1", str "T", 4, 1⟩,
   ⟨str "2", str "T", 5, 3⟩, ⟨str "3", str "T", 9, 1⟩]

/-- Concrete entries for the `buildSections` witnesses. -/
def exE2 : List TocEntry :=
  [⟨str "1", str "Safety", 4, 1⟩, ⟨str "1.1", str "General", 4, 2⟩,
   ⟨str "2", str "Install", 9, 1⟩]

/-- Pages for the multi-page locator scenario: a heading page, three
non-ToC pages, and a second heading page within the first-six window. -/
def exPages : List Str :=
  [str "Table of Contents\n1 Intro 5", str "xyz", str "foo", str "bar",
   str "Table of Contents\n2 Setup 9"]

/-- The leader styles the decimal-entry claim quantifies over. -/
inductive LeaderStyle where
  | dotRun (k : Nat)
  | bullet
  | middot
  | ellipsis

/-- The leader text of each style. -/
def leaderStr : LeaderStyle → Str
  | .dotRun k => dots k
  | .bullet => ['•']
  | .middot => ['·']
  | .ellipsis => ['…']

/-- A decimal ToC entry line `N.M title LEADER PAGE` with single spaces
between the number token, the title words, the leader, and the page. -/
def mkDecimalLine (dN dM : Str) (ws : List Str) (ld : LeaderStyle) (pg : Str) : Str :=
  dN ++ '.' :: dM ++ ' ' :: joinWith [' '] ws ++ ' ' :: leaderStr ld ++ ' ' :: pg

/-- The alphabetic token `L(.digits)*` of an appendix line. -/
def appendixTok (L : Char) (groups : List Str) : Str :=
  L :: (groups.map fun g => '.' :: g).flatten

/-- A normalized appendix line `Appendix L title PAGE`. -/
def mkAppendixLine (L : Char) (groups : List Str) (ws : List Str) (pg : Str) : Str :=
  str "Appendix " ++ appendixTok L groups ++ ' ' :: joinWith [' '] ws ++ ' ' :: pg

/-- A line with a 105-dot leader (long, but shorter than the one literal
run `normalizeDotLeaders` knows about). -/
def exDotLine : Str := str "1 Intro " ++ dots 105 ++ str " 4"

/-- The verbatim page text of the table scenario. -/
def exTablePage : Str :=
  str "Name   Qty   Price\nBolt   10    2.50\nNut    20    0.75"

/-- The expected rendering of the table scenario. -/
def exTableOut : Str :=
  str "| Name | Qty | Price |\n| --- | --- | --- |\n| Bolt | 10 | 2.50 |\n| Nut | 20 | 0.75 |"

/-!
## General scanning lemmas
-/

theorem takeWhile_append_stop (p : Char → Bool) (a y : Str)
    (ha : ∀ c ∈ a, p c = true)
    (hy : y = [] ∨ ∃ c t, y = c :: t ∧ p c = false) :
    (a ++ y).takeWhile p = a := by
  induction a with
  | nil =>
    rcases hy with h | ⟨c, t, rfl, hc⟩
    · simp [h]
    · simp [List.takeWhile, hc]
  | cons c a2 ih =>
    have hc := ha c (by simp)
    simp only [List.cons_append, List.takeWhile, hc, List.append_eq]
    rw [ih (fun d hd => ha d (by simp [hd]))]

theorem dropWhile_append_stop (p : Char → Bool) (a y : Str)
    (ha : ∀ c ∈ a, p c = true)
    (hy : y = [] ∨ ∃ c t, y = c :: t ∧ p c = false) :
    (a ++ y).dropWhile p = y := by
  induction a with
  | nil =>
    rcases hy with h | ⟨c, t, rfl, hc⟩
    · simp [h]
    · simp [List.dropWhile, hc]
  | cons c a2 ih =>
    have hc := ha c (by simp)
    simp only [List.cons_append, List.dropWhile, hc, List.append_eq]
    exact ih (fun d hd => ha d (by simp [hd]))

theorem takeWhile_stops_first (p : Char → Bool) (c : Char) (t : Str)
    (hc : p c = false) : (c :: t).takeWhile p = [] := by
  simp [List.takeWhile, hc]

theorem dropWhile_stops_first (p : Char → Bool) (c : Char) (t : Str)
    (hc : p c = false) : (c :: t).dropWhile p = c :: t := by
  simp [List.dropWhile, hc]

theorem leadsWith_append_same : ∀ (a b c : Str),
    leadsWith (a ++ b) (a ++ c) = leadsWith b c
  | [], _, _ => rfl
  | x :: a2, b, c => by
    simp only [List.cons_append, leadsWith, beq_self_eq_true, Bool.true_and]
    exact leadsWith_append_same a2 b c

theorem leadsWith_self_append : ∀ (a b : Str), leadsWith a (a ++ b) = true
  | [], _ => rfl
  | x :: a2, b => by
    simp only [List.cons_append, leadsWith, beq_self_eq_true, Bool.true_and]
    exact leadsWith_self_append a2 b

theorem leadsWith_head_ne (p c : Char) (ps cs : Str) (h : p ≠ c) :
    leadsWith (p :: ps) (c :: cs) = false := by
  simp [leadsWith, h]

theorem leadsWith_cons_nil (p : Char) (ps : Str) : leadsWith (p :: ps) [] = false := rfl

theorem containsSeq_cons_skip (c : Char) (t p : Str)
    (h : leadsWith p (c :: t) = false) :
    containsSeq (c :: t) p = containsSeq t p := by
  rw [containsSeq, h]
  simp

theorem containsSeq_seg_skip (a t : Str) (p : Char) (ps : Str)
    (ha : ∀ c ∈ a, c ≠ p) :
    containsSeq (a ++ t) (p :: ps) = containsSeq t (p :: ps) := by
  induction a with
  | nil => simp
  | cons c a2 ih =>
    have hc : c ≠ p := ha c (by simp)
    rw [List.cons_append,
      containsSeq_cons_skip _ _ _ (leadsWith_head_ne p c _ _ (fun hh => hc hh.symm))]
    exact ih (fun d hd => ha d (by simp [hd]))

theorem containsSeq_nil_cons (p : Char) (ps : Str) :
    containsSeq [] (p :: ps) = false := rfl

theorem replaceAllNE_skip_char (c : Char) (t : Str) (o : Char) (os new : Str)
    (h : leadsWith (o :: os) (c :: t) = false) :
    replaceAllNE (c :: t) o os new = c :: replaceAllNE t o os new := by
  rw [replaceAllNE, h]
  simp

theorem replaceAllNE_seg_skip (a t : Str) (o : Char) (os new : Str)
    (ha : ∀ c ∈ a, c ≠ o) :
    replaceAllNE (a ++ t) o os new = a ++ replaceAllNE t o os new := by
  induction a with
  | nil => simp
  | cons c a2 ih =>
    have hc : c ≠ o := ha c (by simp)
    rw [List.cons_append,
      replaceAllNE_skip_char _ _ _ _ _ (leadsWith_head_ne o c _ _ (fun hh => hc hh.symm))]
    rw [ih (fun d hd => ha d (by simp [hd]))]
    simp

theorem replaceAllNE_of_not_contains (s : Str) (o : Char) (os new : Str)
    (h : containsSeq s (o :: os) = false) :
    replaceAllNE s o os new = s := by
  induction s with
  | nil => rw [replaceAllNE]
  | cons c t ih =>
    rw [containsSeq] at h
    simp only [Bool.or_eq_false_iff] at h
    rw [replaceAllNE_skip_char _ _ _ _ _ h.1, ih h.2]

theorem containsSeq_single_of_not_mem (s : Str) (x : Char) (h : x ∉ s) :
    containsSeq s [x] = false := by
  induction s with
  | nil => rfl
  | cons c t ih =>
    rw [containsSeq_cons_skip c t [x]
      (leadsWith_head_ne x c _ _ (fun hh => h (by simp [hh])))]
    exact ih (fun hm => h (by simp [hm]))

/-!
## Character-class facts
-/

theorem digit_not_reSpace (c : Char) (h : isDigitC c = true) : reSpace c = false := by
  simp only [isDigitC, Bool.and_eq_true, decide_eq_true_eq] at h
  simp only [reSpace, Bool.or_eq_false_iff, decide_eq_false_iff_not]
  omega

theorem digit_not_goSpace (c : Char) (h : isDigitC c = true) : goSpace c = false := by
  simp only [isDigitC, Bool.and_eq_true, decide_eq_true_eq] at h
  simp only [goSpace, Bool.or_eq_false_iff, decide_eq_false_iff_not, Bool.and_eq_false_iff]
  omega

theorem alpha_not_reSpace (c : Char) (h : isAlphaC c = true) : reSpace c = false := by
  simp only [isAlphaC, Bool.or_eq_true, Bool.and_eq_true, decide_eq_true_eq] at h
  simp only [reSpace, Bool.or_eq_false_iff, decide_eq_false_iff_not]
  omega

theorem alpha_not_goSpace (c : Char) (h : isAlphaC c = true) : goSpace c = false := by
  simp only [isAlphaC, Bool.or_eq_true, Bool.and_eq_true, decide_eq_true_eq] at h
  simp only [goSpace, Bool.or_eq_false_iff, decide_eq_false_iff_not, Bool.and_eq_false_iff]
  omega

theorem digit_ne_dot (c : Char) (h : isDigitC c = true) : c ≠ '.' := by
  intro hc
  rw [hc] at h
  exact absurd h (by decide)

theorem digit_ne_space (c : Char) (h : isDigitC c = true) : c ≠ ' ' := by
  intro hc
  rw [hc] at h
  exact absurd h (by decide)

theorem alpha_ne_dot (c : Char) (h : isAlphaC c = true) : c ≠ '.' := by
  intro hc
  rw [hc] at h
  exact absurd h (by decide)

theorem alpha_ne_space (c : Char) (h : isAlphaC c = true) : c ≠ ' ' := by
  intro hc
  rw [hc] at h
  exact absurd h (by decide)

theorem dot_not_reSpace : reSpace '.' = false := by decide

theorem digit_ne_upperA (c : Char) (h : isDigitC c = true) : c ≠ 'A' := by
  intro hc
  rw [hc] at h
  exact absurd h (by decide)


/-!
## Matcher lemmas on canonical token strings
-/

theorem dropWhile_append_keep (p : Char → Bool) (a : Str) (c : Char) (t : Str)
    (hc : p c = false) :
    (a ++ c :: t).dropWhile p = a.dropWhile p ++ c :: t := by
  induction a with
  | nil => simp [List.dropWhile, hc]
  | cons b a2 ih =>
    simp only [List.cons_append, List.dropWhile]
    cases hb : p b
    · simp
    · simpa using ih

theorem tailEnd_nonspace_head (c : Char) (t : Str) (hc : reSpace c = false) :
    tailEnd (c :: t) = none := by
  rw [tailEnd]
  simp [takeWhile_stops_first reSpace c t hc]

theorem tailEnd_digits (pg : Str) (h1 : pg ≠ []) (h2 : ∀ c ∈ pg, isDigitC c = true) :
    tailEnd (' ' :: pg) = some pg := by
  have hhead : pg = [] ∨ ∃ c t, pg = c :: t ∧ reSpace c = false := by
    rcases pg with _ | ⟨d, pg2⟩
    · exact Or.inl rfl
    · exact Or.inr ⟨d, pg2, rfl, digit_not_reSpace d (h2 d (by simp))⟩
  have htw : (' ' :: pg).takeWhile reSpace = [' '] := by
    have := takeWhile_append_stop reSpace [' '] pg (by simp [reSpace]) hhead
    simpa using this
  have hdw : (' ' :: pg).dropWhile reSpace = pg := by
    have := dropWhile_append_stop reSpace [' '] pg (by simp [reSpace]) hhead
    simpa using this
  have htw2 : pg.takeWhile isDigitC = pg := by
    have := takeWhile_append_stop isDigitC pg [] h2 (Or.inl rfl)
    simpa using this
  have hdw2 : pg.dropWhile isDigitC = [] := by
    have := dropWhile_append_stop isDigitC pg [] h2 (Or.inl rfl)
    simpa using this
  rw [tailEnd]
  simp only [htw, hdw, htw2, hdw2]
  simp [h1]

theorem tailEnd_sep_mid (w rest2 : Str) (hw : w ≠ [])
    (hwc : ∀ c ∈ w, reSpace c = false)
    (hr : ∃ c ∈ rest2, reSpace c = false) :
    tailEnd (' ' :: w ++ ' ' :: rest2) = none := by
  rcases w with _ | ⟨a, w2⟩
  · exact absurd rfl hw
  have ha := hwc a (by simp)
  have hshape : (' ' :: (a :: w2) ++ ' ' :: rest2) = [' '] ++ ((a :: w2) ++ ' ' :: rest2) := by
    simp
  have htw : (' ' :: (a :: w2) ++ ' ' :: rest2).takeWhile reSpace = [' '] := by
    rw [hshape]
    have := takeWhile_append_stop reSpace [' '] ((a :: w2) ++ ' ' :: rest2)
      (by simp [reSpace]) (Or.inr ⟨a, w2 ++ ' ' :: rest2, by simp, ha⟩)
    simpa using this
  have hdw : (' ' :: (a :: w2) ++ ' ' :: rest2).dropWhile reSpace = (a :: w2) ++ ' ' :: rest2 := by
    rw [hshape]
    have := dropWhile_append_stop reSpace [' '] ((a :: w2) ++ ' ' :: rest2)
      (by simp [reSpace]) (Or.inr ⟨a, w2 ++ ' ' :: rest2, by simp, ha⟩)
    simpa using this
  have hr2 : ((a :: w2) ++ ' ' :: rest2).dropWhile isDigitC =
      (a :: w2).dropWhile isDigitC ++ ' ' :: rest2 :=
    dropWhile_append_keep isDigitC (a :: w2) ' ' rest2 (by decide)
  have hall : (((a :: w2) ++ ' ' :: rest2).dropWhile isDigitC).all reSpace = false := by
    rw [hr2]
    rcases hr with ⟨x, hx, hxs⟩
    simp only [List.all_append, List.all_cons, Bool.and_eq_false_iff]
    right
    right
    rw [List.all_eq_false]
    exact ⟨x, hx, by simp [hxs]⟩
  rw [tailEnd]
  simp only [htw, hdw, hall]
  simp

theorem joinWith_cons₂ (sep w w2 : Str) (ws : List Str) :
    joinWith sep (w :: w2 :: ws) = w ++ sep ++ joinWith sep (w2 :: ws) := rfl

theorem joinWith_one (sep w : Str) : joinWith sep [w] = w := rfl

theorem findMinSplit_step (c : Char) (rest : Str) (h : tailEnd rest = none) :
    findMinSplit (c :: rest) =
      (findMinSplit rest).map (fun td => (c :: td.1, td.2)) := by
  rw [findMinSplit, h]
  cases findMinSplit rest with
  | none => rfl
  | some td => cases td; rfl

theorem findMinSplit_word (w rest : Str)
    (hwc : ∀ c ∈ w, reSpace c = false) (h : tailEnd rest = none) :
    findMinSplit (w ++ rest) =
      (findMinSplit rest).map (fun td => (w ++ td.1, td.2)) := by
  induction w with
  | nil =>
    cases hm : findMinSplit rest with
    | none => simp [hm]
    | some td => cases td; simp [hm]
  | cons c w2 ih =>
    have hmid : tailEnd (w2 ++ rest) = none := by
      rcases w2 with _ | ⟨b, w3⟩
      · simpa using h
      · exact tailEnd_nonspace_head b (w3 ++ rest) (hwc b (by simp))
    rw [List.cons_append, findMinSplit_step c (w2 ++ rest) hmid,
      ih (fun d hd => hwc d (by simp [hd]))]
    cases findMinSplit rest with
    | none => rfl
    | some td => cases td; rfl

theorem findMinSplit_word_term : ∀ (w rest d : Str), w ≠ [] →
    (∀ c ∈ w, reSpace c = false) → tailEnd rest = some d →
    findMinSplit (w ++ rest) = some (w, d)
  | [], _, _, hw, _, _ => absurd rfl hw
  | [a], rest, d, _, _, ht => by
    rw [List.cons_append, List.nil_append, findMinSplit, ht]
  | a :: b :: w3, rest, d, _, hwc, ht => by
    have hmid : tailEnd ((b :: w3) ++ rest) = none :=
      tailEnd_nonspace_head b (w3 ++ rest) (hwc b (by simp))
    rw [List.cons_append, findMinSplit_step a ((b :: w3) ++ rest) hmid,
      findMinSplit_word_term (b :: w3) rest d (by simp) (fun c hc => hwc c (by simp [hc])) ht]
    rfl

/-- The lazy title for a canonical single-spaced token tail: the title
captures all middle tokens and the page capture is the final digit token. -/
theorem findMinSplit_tokens : ∀ (mid : List Str) (pg : Str), mid ≠ [] →
    (∀ w ∈ mid, w ≠ [] ∧ ∀ c ∈ w, reSpace c = false) →
    pg ≠ [] → (∀ c ∈ pg, isDigitC c = true) →
    findMinSplit (joinWith [' '] mid ++ ' ' :: pg) =
      some (joinWith [' '] mid, pg)
  | [], _, hm, _, _, _ => absurd rfl hm
  | [w], pg, _, hws, h1, h2 => by
    have hw := (hws w (by simp)).1
    have hwc := (hws w (by simp)).2
    show findMinSplit (w ++ ' ' :: pg) = some (w, pg)
    exact findMinSplit_word_term w (' ' :: pg) pg hw hwc (tailEnd_digits pg h1 h2)
  | w :: w2 :: mids, pg, _, hws, h1, h2 => by
    have hw := (hws w (by simp)).1
    have hwc := (hws w (by simp)).2
    have hw2 := (hws w2 (by simp)).1
    have hw2c := (hws w2 (by simp)).2
    have hdig : ∃ c ∈ ' ' :: pg, reSpace c = false := by
      rcases pg with _ | ⟨d, pg2⟩
      · exact absurd rfl h1
      · exact ⟨d, by simp, digit_not_reSpace d (h2 d (by simp))⟩
    have hJshape : ∃ j2, joinWith [' '] (w2 :: mids) = w2 ++ j2 ∧
        (j2 = [] ∨ ∃ t, j2 = ' ' :: t) := by
      rcases mids with _ | ⟨w3, mids2⟩
      · exact ⟨[], by simp [joinWith_one], Or.inl rfl⟩
      · refine ⟨' ' :: joinWith [' '] (w3 :: mids2), ?_, Or.inr ⟨_, rfl⟩⟩
        rw [joinWith_cons₂]
        simp
    rcases hJshape with ⟨j2, hj2, hj2c⟩
    have hsep : tailEnd (' ' :: (joinWith [' '] (w2 :: mids) ++ ' ' :: pg)) = none := by
      rw [hj2]
      have hshape : w2 ++ j2 ++ ' ' :: pg = w2 ++ ' ' :: (j2.drop 1 ++ ' ' :: pg) ∨
          w2 ++ j2 ++ ' ' :: pg = w2 ++ ' ' :: pg := by
        rcases hj2c with rfl | ⟨t, rfl⟩
        · right; simp
        · left; simp
      rcases hshape with hs | hs
      · rw [hs]
        refine tailEnd_sep_mid w2 (j2.drop 1 ++ ' ' :: pg) hw2 hw2c ?_
        rcases pg with _ | ⟨d, pg2⟩
        · exact absurd rfl h1
        · exact ⟨d, by simp, digit_not_reSpace d (h2 d (by simp))⟩
      · rw [hs]
        refine tailEnd_sep_mid w2 pg hw2 hw2c ?_
        rcases pg with _ | ⟨d, pg2⟩
        · exact absurd rfl h1
        · exact ⟨d, by simp, digit_not_reSpace d (h2 d (by simp))⟩
    have hJhead : tailEnd (joinWith [' '] (w2 :: mids) ++ ' ' :: pg) = none := by
      rw [hj2]
      rcases w2 with _ | ⟨b, w4⟩
      · exact absurd rfl hw2
      · exact tailEnd_nonspace_head b _ (hw2c b (by simp))
    have hrec := findMinSplit_tokens (w2 :: mids) pg (by simp)
      (fun x hx => hws x (by simp [hx])) h1 h2
    rw [joinWith_cons₂]
    have hassoc : w ++ [' '] ++ joinWith [' '] (w2 :: mids) ++ ' ' :: pg =
        w ++ (' ' :: (joinWith [' '] (w2 :: mids) ++ ' ' :: pg)) := by
      simp
    rw [hassoc, findMinSplit_word w _ hwc hsep,
      findMinSplit_step ' ' _ hJhead, hrec]
    simp

/-- `\s+(.+?)\s+(\d+)\s*$` on a canonical single-space token tail. -/
theorem matchTail_tokens (mid : List Str) (pg : Str) (hm : mid ≠ [])
    (hws : ∀ w ∈ mid, w ≠ [] ∧ ∀ c ∈ w, reSpace c = false)
    (h1 : pg ≠ []) (h2 : ∀ c ∈ pg, isDigitC c = true) :
    matchTail (' ' :: (joinWith [' '] mid ++ ' ' :: pg)) =
      some (joinWith [' '] mid, pg) := by
  have hhead : ∃ a t, joinWith [' '] mid ++ ' ' :: pg = a :: t ∧ reSpace a = false := by
    rcases mid with _ | ⟨w, mids⟩
    · exact absurd rfl hm
    rcases w with _ | ⟨a, w2⟩
    · exact absurd rfl (hws [] (by simp)).1
    have has : reSpace a = false := (hws (a :: w2) (by simp)).2 a (by simp)
    rcases mids with _ | ⟨w3, mids2⟩
    · exact ⟨a, w2 ++ ' ' :: pg, by rw [joinWith_one]; simp, has⟩
    · exact ⟨a, (w2 ++ ' ' :: joinWith [' '] (w3 :: mids2)) ++ ' ' :: pg,
        by rw [joinWith_cons₂]; simp, has⟩
  rcases hhead with ⟨a, t, hat, has⟩
  have htw : ((' ' :: (joinWith [' '] mid ++ ' ' :: pg)).takeWhile reSpace) = [' '] := by
    rw [hat]
    have := takeWhile_append_stop reSpace [' '] (a :: t) (by simp [reSpace])
      (Or.inr ⟨a, t, rfl, has⟩)
    simpa using this
  rw [matchTail, htw]
  show matchTailK 1 _ = _
  rw [matchTailK]
  have hdrop : (' ' :: (joinWith [' '] mid ++ ' ' :: pg)).drop 1 =
      joinWith [' '] mid ++ ' ' :: pg := by simp
  rw [hdrop, findMinSplit_tokens mid pg hm hws h1 h2]

theorem takeWhile_digits_of (a : Str) (y : Str)
    (ha : ∀ c ∈ a, isDigitC c = true)
    (hy : y = [] ∨ ∃ c t, y = c :: t ∧ isDigitC c = false) :
    (a ++ y).takeWhile isDigitC = a ∧ (a ++ y).dropWhile isDigitC = y :=
  ⟨takeWhile_append_stop isDigitC a y ha hy, dropWhile_append_stop isDigitC a y ha hy⟩

/-- Greedy number-token parsing of `dN.dM` followed by a space. -/
theorem numToken_decimal (dN dM rest : Str)
    (hN : dN ≠ []) (hNc : ∀ c ∈ dN, isDigitC c = true)
    (hM : dM ≠ []) (hMc : ∀ c ∈ dM, isDigitC c = true) :
    numToken (dN ++ '.' :: dM ++ ' ' :: rest) =
      some (dN ++ '.' :: dM, ' ' :: rest) := by
  have hdotstop : ∀ (z : Str), ('.' :: z) = [] ∨
      ∃ c t, ('.' :: z) = c :: t ∧ isDigitC c = false :=
    fun z => Or.inr ⟨'.', z, rfl, by decide⟩
  have h1 := takeWhile_digits_of dN ('.' :: (dM ++ ' ' :: rest)) hNc (hdotstop _)
  have h2 := takeWhile_digits_of dM (' ' :: rest) hMc
    (Or.inr ⟨' ', rest, rfl, by decide⟩)
  rw [numToken]
  have hne : (dN ++ '.' :: dM ++ ' ' :: rest).takeWhile isDigitC = dN := by
    have := h1.1
    simpa using this
  have hdr : (dN ++ '.' :: dM ++ ' ' :: rest).dropWhile isDigitC =
      '.' :: (dM ++ ' ' :: rest) := by
    have := h1.2
    simpa using this
  simp only [hne, hdr]
  rcases dN with _ | ⟨n0, dN2⟩
  · exact absurd rfl hN
  simp only [List.isEmpty_cons]
  rw [numSegsGo]
  simp only [h2.1, h2.2]
  rcases dM with _ | ⟨m0, dM2⟩
  · exact absurd rfl hM
  simp only [List.isEmpty_cons]
  rw [numSegsGo]
  · simp
  · intro r hr
    simp at hr

/-- `tocNumRe` on a canonical decimal line: the number token, the joined
middle tokens as the (lazy) title, and the final digit token as page. -/
theorem tocNumFind_canonical (dN dM : Str) (mid : List Str) (pg : Str)
    (hN : dN ≠ []) (hNc : ∀ c ∈ dN, isDigitC c = true)
    (hM : dM ≠ []) (hMc : ∀ c ∈ dM, isDigitC c = true)
    (hm : mid ≠ [])
    (hws : ∀ w ∈ mid, w ≠ [] ∧ ∀ c ∈ w, reSpace c = false)
    (h1 : pg ≠ []) (h2 : ∀ c ∈ pg, isDigitC c = true) :
    tocNumFind (dN ++ '.' :: dM ++ ' ' :: (joinWith [' '] mid ++ ' ' :: pg)) =
      some (dN ++ '.' :: dM, joinWith [' '] mid, pg) := by
  have hdw : (dN ++ '.' :: dM ++ ' ' :: (joinWith [' '] mid ++ ' ' :: pg)).dropWhile
      reSpace = dN ++ '.' :: dM ++ ' ' :: (joinWith [' '] mid ++ ' ' :: pg) := by
    rcases dN with _ | ⟨n0, dN2⟩
    · exact absurd rfl hN
    exact dropWhile_stops_first reSpace n0 _ (digit_not_reSpace n0 (hNc n0 (by simp)))
  rw [tocNumFind, hdw, numToken_decimal dN dM _ hN hNc hM hMc]
  simp only [matchTail_tokens mid pg hm hws h1 h2]

/-- The appendix pattern never fires on a line that opens with a digit. -/
theorem tocAppendixFind_digit_head (d : Char) (t : Str) (hd : isDigitC d = true) :
    tocAppendixFind (d :: t) = none := by
  have hdw : (d :: t).dropWhile reSpace = d :: t :=
    dropWhile_stops_first reSpace d t (digit_not_reSpace d hd)
  rw [tocAppendixFind]
  simp only [hdw]
  have hlow : leadsWith kwAppendixLower (d :: t) = false := by
    rw [show kwAppendixLower = 'A' :: str "ppendix" from rfl]
    exact leadsWith_head_ne 'A' d _ _ (fun h => digit_ne_upperA d hd h.symm)
  have hup : leadsWith kwAppendixUpper (d :: t) = false := by
    rw [show kwAppendixUpper = 'A' :: str "PPENDIX" from rfl]
    exact leadsWith_head_ne 'A' d _ _ (fun h => digit_ne_upperA d hd h.symm)
  simp [hlow, hup]

/-- `matchToC` on a canonical decimal line: number `dN.dM`, depth 2, and
the page value of the final digit token. -/
theorem matchToC_decimal_canonical (dN dM : Str) (mid : List Str) (pg : Str)
    (hN : dN ≠ []) (hNc : ∀ c ∈ dN, isDigitC c = true)
    (hM : dM ≠ []) (hMc : ∀ c ∈ dM, isDigitC c = true)
    (hm : mid ≠ [])
    (hws : ∀ w ∈ mid, w ≠ [] ∧ ∀ c ∈ w, reSpace c = false)
    (h1 : pg ≠ []) (h2 : ∀ c ∈ pg, isDigitC c = true) :
    matchToC (dN ++ '.' :: dM ++ ' ' :: (joinWith [' '] mid ++ ' ' :: pg)) =
      some ⟨dN ++ '.' :: dM, trimSpace (joinWith [' '] mid),
        (digitsVal pg : Int), 2⟩ := by
  have happ : tocAppendixFind (dN ++ '.' :: dM ++ ' ' :: (joinWith [' '] mid ++ ' ' :: pg)) = none := by
    rcases dN with _ | ⟨n0, dN2⟩
    · exact absurd rfl hN
    exact tocAppendixFind_digit_head n0 _ (hNc n0 (by simp))
  have hcount : countChar '.' (dN ++ '.' :: dM) = 1 := by
    rw [countChar]
    simp only [List.filter_append, List.filter_cons, List.length_append]
    have hfN : dN.filter (fun d => d == '.') = [] := by
      rw [List.filter_eq_nil_iff]
      intro c hc
      simp [digit_ne_dot c (hNc c hc)]
    have hfM : dM.filter (fun d => d == '.') = [] := by
      rw [List.filter_eq_nil_iff]
      intro c hc
      simp [digit_ne_dot c (hMc c hc)]
    simp [hfN, hfM]
  rw [matchToC, happ, tocNumFind_canonical dN dM mid pg hN hNc hM hMc hm hws h1 h2]
  simp [hcount]

/-!
## Fields and join lemmas
-/

theorem joinWith_cons_ne (sep w : Str) (ws : List Str) (h : ws ≠ []) :
    joinWith sep (w :: ws) = w ++ sep ++ joinWith sep ws := by
  rcases ws with _ | ⟨w2, ws2⟩
  · exact absurd rfl h
  · exact joinWith_cons₂ sep w w2 ws2

theorem joinWith_append_last (sep : Str) : ∀ (ws : List Str) (z : Str), ws ≠ [] →
    joinWith sep (ws ++ [z]) = joinWith sep ws ++ sep ++ z
  | [], _, h => absurd rfl h
  | [w], z, _ => by
    rw [joinWith_one]
    show joinWith sep [w, z] = _
    rw [joinWith_cons₂, joinWith_one]
  | w :: w2 :: ws2, z, _ => by
    show joinWith sep (w :: ((w2 :: ws2) ++ [z])) = _
    rw [joinWith_cons_ne sep w _ (by simp), joinWith_append_last sep (w2 :: ws2) z (by simp),
      joinWith_cons₂]
    simp

theorem mem_joinWith_sp : ∀ (ws : List Str) (c : Char),
    c ∈ joinWith [' '] ws → c = ' ' ∨ ∃ w ∈ ws, c ∈ w
  | [], c, h => by simp [joinWith] at h
  | [w], c, h => by
    rw [joinWith_one] at h
    exact Or.inr ⟨w, by simp, h⟩
  | w :: w2 :: ws2, c, h => by
    rw [joinWith_cons₂] at h
    simp only [List.mem_append] at h
    rcases h with (h | h) | h
    · exact Or.inr ⟨w, by simp, h⟩
    · simp at h
      exact Or.inl h
    · rcases mem_joinWith_sp (w2 :: ws2) c h with h2 | ⟨w3, hw3, hc⟩
      · exact Or.inl h2
      · exact Or.inr ⟨w3, by simp [hw3], hc⟩

theorem fields_space_head (c : Char) (x : Str) (hc : goSpace c = true) :
    fields (c :: x) = fields x := by
  rw [fields, if_pos hc]

theorem fields_word (w x : Str) (hw : w ≠ [])
    (hwc : ∀ c ∈ w, goSpace c = false)
    (hx : x = [] ∨ ∃ c t, x = c :: t ∧ goSpace c = true) :
    fields (w ++ x) = w :: fields x := by
  rcases w with _ | ⟨a, w2⟩
  · exact absurd rfl hw
  have ha := hwc a (by simp)
  have hstop : x = [] ∨ ∃ c t, x = c :: t ∧ (fun d => !goSpace d) c = false := by
    rcases hx with h | ⟨c, t, rfl, hc⟩
    · exact Or.inl h
    · exact Or.inr ⟨c, t, rfl, by simp [hc]⟩
  have htw : (w2 ++ x).takeWhile (fun d => !goSpace d) = w2 :=
    takeWhile_append_stop _ w2 x (fun c hc => by simp [hwc c (by simp [hc])]) hstop
  have hdw : (w2 ++ x).dropWhile (fun d => !goSpace d) = x :=
    dropWhile_append_stop _ w2 x (fun c hc => by simp [hwc c (by simp [hc])]) hstop
  show fields (a :: (w2 ++ x)) = (a :: w2) :: fields x
  rw [fields, if_neg (by simp [ha]), htw, hdw]

theorem fields_replicate_sp (q : Nat) (x : Str) :
    fields (List.replicate q ' ' ++ x) = fields x := by
  induction q with
  | zero => simp
  | succ q2 ih =>
    rw [List.replicate_succ, List.cons_append, fields_space_head ' ' _ (by decide), ih]

theorem fields_join_words : ∀ (ws : List Str) (x : Str),
    (∀ w ∈ ws, w ≠ [] ∧ ∀ c ∈ w, goSpace c = false) →
    (x = [] ∨ ∃ t, x = ' ' :: t) →
    fields (joinWith [' '] ws ++ x) = ws ++ fields x
  | [], x, _, _ => by simp [joinWith]
  | [w], x, hws, hx => by
    rw [joinWith_one]
    refine fields_word w x (hws w (by simp)).1 (hws w (by simp)).2 ?_
    rcases hx with rfl | ⟨t, rfl⟩
    · exact Or.inl rfl
    · exact Or.inr ⟨' ', t, rfl, by decide⟩
  | w :: w2 :: ws2, x, hws, hx => by
    rw [joinWith_cons₂]
    have h1 : w ++ [' '] ++ joinWith [' '] (w2 :: ws2) ++ x =
        w ++ (' ' :: (joinWith [' '] (w2 :: ws2) ++ x)) := by simp
    rw [h1, fields_word w _ (hws w (by simp)).1 (hws w (by simp)).2
      (Or.inr ⟨' ', _, rfl, by decide⟩),
      fields_space_head ' ' _ (by decide),
      fields_join_words (w2 :: ws2) x (fun y hy => hws y (by simp [hy])) hx]
    simp

/-!
## Dot-run and spaced-dot scanning lemmas
-/

theorem dots_succ (n : Nat) : dots (n + 1) = '.' :: dots n := by
  rw [dots, dots, List.replicate_succ]

theorem dots106_eq : dots 106 = '.' :: dots 105 := dots_succ 105

theorem dots_add (a b : Nat) : dots (a + b) = dots a ++ dots b := by
  rw [dots, dots, dots, List.replicate_add]

theorem mem_dots (c : Char) (n : Nat) (h : c ∈ dots n) : c = '.' := by
  rw [dots] at h
  exact List.eq_of_mem_replicate h

theorem notLeads_dots106_small (j : Nat) (B : Str) (hj : j < 106) :
    leadsWith (dots 106) (dots j ++ ' ' :: B) = false := by
  have hsplit : dots 106 = dots j ++ dots (106 - j) := by
    rw [← dots_add]
    congr 1
    omega
  rw [hsplit, leadsWith_append_same]
  have h1 : 106 - j = (106 - j - 1) + 1 := by omega
  rw [h1, dots_succ]
  exact leadsWith_head_ne '.' ' ' _ _ (by decide)

theorem notLeads_dots106_single (c : Char) (t : Str) (hc : c ≠ '.') :
    leadsWith (dots 106) ('.' :: c :: t) = false := by
  have : ('.' : Char) :: c :: t = dots 1 ++ ' ' :: t ∨ True := Or.inr trivial
  rw [dots106_eq, leadsWith]
  simp only [beq_self_eq_true, Bool.true_and]
  rw [show (105 : Nat) = 104 + 1 from rfl, dots_succ]
  exact leadsWith_head_ne '.' c _ _ (fun h => hc h.symm)

theorem cs_dots106_numTok (dN dM : Str) (rest : Str)
    (hNc : ∀ c ∈ dN, isDigitC c = true)
    (hM : dM ≠ []) (hMc : ∀ c ∈ dM, isDigitC c = true) :
    containsSeq (dN ++ ('.' :: (dM ++ rest))) (dots 106) =
      containsSeq rest (dots 106) := by
  rcases dM with _ | ⟨m0, dM2⟩
  · exact absurd rfl hM
  simp only [List.append_assoc, List.cons_append]
  rw [dots106_eq]
  rw [containsSeq_seg_skip dN ('.' :: m0 :: (dM2 ++ rest)) '.' (dots 105)
    (fun c hc => digit_ne_dot c (hNc c hc))]
  rw [← dots106_eq]
  have hnl : leadsWith (dots 106) ('.' :: m0 :: (dM2 ++ rest)) = false :=
    notLeads_dots106_single m0 _ (digit_ne_dot m0 (hMc m0 (by simp)))
  rw [containsSeq_cons_skip _ _ _ hnl]
  rw [dots106_eq]
  rw [containsSeq_cons_skip m0 _ _ (leadsWith_head_ne '.' m0 _ _
    (fun h => digit_ne_dot m0 (hMc m0 (by simp)) h.symm))]
  rw [containsSeq_seg_skip dM2 rest '.' (dots 105)
    (fun c hc => digit_ne_dot c (hMc c (by simp [hc])))]

theorem cs_dots106_smallrun (B : Str) : ∀ (j : Nat), j < 106 →
    containsSeq (dots j ++ ' ' :: B) (dots 106) = containsSeq (' ' :: B) (dots 106)
  | 0, _ => by simp [dots]
  | j + 1, hj => by
    have hnl : leadsWith (dots 106) ('.' :: (dots j ++ ' ' :: B)) = false := by
      rw [← List.cons_append, ← dots_succ]
      exact notLeads_dots106_small (j+1) B hj
    rw [show dots (j+1) ++ ' ' :: B = '.' :: (dots j ++ ' ' :: B) from by
        rw [dots_succ, List.cons_append],
      containsSeq_cons_skip _ _ _ hnl]
    exact cs_dots106_smallrun B j (by omega)

theorem sp7_eq : spacedDots = ' ' :: '.' :: ' ' :: '.' :: ' ' :: '.' :: [' '] := rfl

theorem notLeads_sp7_nondot (c : Char) (t : Str) (hc : c ≠ '.') :
    leadsWith spacedDots (' ' :: c :: t) = false := by
  rw [sp7_eq, leadsWith]
  simp only [beq_self_eq_true, Bool.true_and]
  exact leadsWith_head_ne '.' c _ _ (fun h => hc h.symm)

theorem notLeads_sp7_dotdot (c : Char) (t : Str) (hc : c ≠ ' ') :
    leadsWith spacedDots (' ' :: '.' :: c :: t) = false := by
  rw [sp7_eq, leadsWith, leadsWith]
  simp only [beq_self_eq_true, Bool.true_and]
  exact leadsWith_head_ne ' ' c _ _ (fun h => hc h.symm)

theorem notLeads_sp7_isolated (c : Char) (t : Str) (hc : c ≠ '.') :
    leadsWith spacedDots (' ' :: '.' :: ' ' :: c :: t) = false := by
  rw [sp7_eq, leadsWith, leadsWith, leadsWith]
  simp only [beq_self_eq_true, Bool.true_and]
  exact leadsWith_head_ne '.' c _ _ (fun h => hc h.symm)

theorem notLeads_sp7_short : ∀ (s : Str), s.length < 7 → leadsWith spacedDots s = false := by
  intro s hs
  cases hl : leadsWith spacedDots s
  · rfl
  · have := leadsWith_length_le spacedDots s hl
    rw [sp7_eq] at this
    simp at this
    omega

theorem replaceAllNE_hit (o : Char) (os new rest : Str) :
    replaceAllNE (o :: (os ++ rest)) o os new = new ++ replaceAllNE rest o os new := by
  rw [replaceAllNE]
  have hl : leadsWith (o :: os) (o :: (os ++ rest)) = true := by
    rw [← List.cons_append]
    exact leadsWith_self_append (o :: os) rest
  rw [if_pos hl]
  have hd : (o :: (os ++ rest)).drop (o :: os).length = rest := by
    rw [← List.cons_append, List.drop_left]
  rw [hd]

theorem replaceAllNE_single_split (a b : Str) (x : Char) (new : Str)
    (ha : ∀ c ∈ a, c ≠ x) (hb : x ∉ b) :
    replaceAllNE (a ++ x :: b) x [] new = a ++ (new ++ b) := by
  rw [replaceAllNE_seg_skip a (x :: b) x [] new ha]
  have : (x : Char) :: b = x :: ([] ++ b) := by simp
  rw [this, replaceAllNE_hit x [] new b,
    replaceAllNE_of_not_contains b x [] new (containsSeq_single_of_not_mem b x hb)]

theorem replaceAllNE_single_noop (s : Str) (x : Char) (new : Str) (h : x ∉ s) :
    replaceAllNE s x [] new = s :=
  replaceAllNE_of_not_contains s x [] new (containsSeq_single_of_not_mem s x h)

/-- The action of the 106-dot replacement on a maximal dot run followed
by a space: every full 106-dot block becomes one space and the remainder
of the run survives. -/
theorem replaceAll_dotrun : ∀ (k : Nat) (B : Str),
    replaceAllNE (dots k ++ ' ' :: B) '.' (dots 105) [' '] =
      (List.replicate (k / 106) ' ' ++ dots (k % 106)) ++ ' ' :: replaceAllNE B '.' (dots 105) [' '] := by
  intro k
  induction k using Nat.strong_induction_on with
  | _ k ih =>
    intro B
    rcases Nat.lt_or_ge k 106 with hk | hk
    · rcases k with _ | k2
      · have hl : leadsWith ('.' :: dots 105) (' ' :: B) = false :=
          leadsWith_head_ne '.' ' ' _ _ (by decide)
        rw [show dots 0 ++ ' ' :: B = ' ' :: B from by simp [dots],
          replaceAllNE_skip_char ' ' B '.' (dots 105) [' '] hl]
        simp [dots]
      · have hsh : dots (k2 + 1) ++ ' ' :: B = '.' :: (dots k2 ++ ' ' :: B) := by
          rw [dots_succ, List.cons_append]
        have hl : leadsWith ('.' :: dots 105) ('.' :: (dots k2 ++ ' ' :: B)) = false := by
          rw [← dots106_eq, ← hsh]
          exact notLeads_dots106_small (k2 + 1) B hk
        rw [hsh, replaceAllNE_skip_char _ _ _ _ _ hl, ih k2 (by omega) B]
        have h1 : (k2 + 1) / 106 = 0 := Nat.div_eq_of_lt hk
        have h2 : (k2 + 1) % 106 = k2 + 1 := Nat.mod_eq_of_lt hk
        have h3 : k2 / 106 = 0 := Nat.div_eq_of_lt (by omega)
        have h4 : k2 % 106 = k2 := Nat.mod_eq_of_lt (by omega)
        rw [h1, h2, h3, h4]
        simp [dots_succ]
    · have hsh : dots k ++ ' ' :: B = '.' :: (dots 105 ++ (dots (k - 106) ++ ' ' :: B)) := by
        have : k = 106 + (k - 106) := by omega
        rw [this, dots_add, dots106_eq]
        simp
      rw [hsh, replaceAllNE_hit '.' (dots 105) [' '] (dots (k - 106) ++ ' ' :: B),
        ih (k - 106) (by omega) B]
      have h1 : k / 106 = (k - 106) / 106 + 1 := by
        rw [Nat.div_eq_sub_div (by omega) hk]
      rw [h1, Nat.mod_eq_sub_mod hk, List.replicate_succ]
      simp

theorem digit_ne_bullet (c : Char) (h : isDigitC c = true) : c ≠ '•' := by
  intro hc
  rw [hc] at h
  exact absurd h (by decide)

theorem alpha_ne_bullet (c : Char) (h : isAlphaC c = true) : c ≠ '•' := by
  intro hc
  rw [hc] at h
  exact absurd h (by decide)

theorem digit_ne_middot (c : Char) (h : isDigitC c = true) : c ≠ '·' := by
  intro hc
  rw [hc] at h
  exact absurd h (by decide)

theorem alpha_ne_middot (c : Char) (h : isAlphaC c = true) : c ≠ '·' := by
  intro hc
  rw [hc] at h
  exact absurd h (by decide)

theorem digit_ne_ellipsis (c : Char) (h : isDigitC c = true) : c ≠ '…' := by
  intro hc
  rw [hc] at h
  exact absurd h (by decide)

theorem alpha_ne_ellipsis (c : Char) (h : isAlphaC c = true) : c ≠ '…' := by
  intro hc
  rw [hc] at h
  exact absurd h (by decide)

/-- Characters of the base line alphabet (digits, ASCII letters, the
dot, the space). -/
def baseChar (c : Char) : Prop :=
  isDigitC c = true ∨ isAlphaC c = true ∨ c = '.' ∨ c = ' '

theorem baseChar_ne_bullet (c : Char) (h : baseChar c) : c ≠ '•' := by
  rcases h with h | h | rfl | rfl
  · exact digit_ne_bullet c h
  · exact alpha_ne_bullet c h
  · decide
  · decide

theorem baseChar_ne_middot (c : Char) (h : baseChar c) : c ≠ '·' := by
  rcases h with h | h | rfl | rfl
  · exact digit_ne_middot c h
  · exact alpha_ne_middot c h
  · decide
  · decide

theorem baseChar_ne_ellipsis (c : Char) (h : baseChar c) : c ≠ '…' := by
  rcases h with h | h | rfl | rfl
  · exact digit_ne_ellipsis c h
  · exact alpha_ne_ellipsis c h
  · decide
  · decide

/-- A space-run followed by the digit page token never holds an
occurrence of `" . . . "`. -/
theorem cs_sp7_spacerun : ∀ (m : Nat) (pg : Str), pg ≠ [] →
    (∀ c ∈ pg, isDigitC c = true) →
    containsSeq (List.replicate m ' ' ++ pg) spacedDots = false
  | 0, pg, _, hd => by
    simp only [List.replicate, List.nil_append]
    rw [show pg = pg ++ [] from by simp] at hd ⊢
    rw [sp7_eq]
    rw [containsSeq_seg_skip pg [] ' ' _ (fun c hc => digit_ne_space c (hd c (by simp [hc])))]
    rfl
  | m + 1, pg, hpg, hd => by
    rcases pg with _ | ⟨p0, pg2⟩
    · exact absurd rfl hpg
    have hx : ∃ c t, List.replicate m ' ' ++ p0 :: pg2 = c :: t ∧ c ≠ '.' := by
      rcases m with _ | m2
      · exact ⟨p0, pg2, by simp, digit_ne_dot p0 (hd p0 (by simp))⟩
      · exact ⟨' ', List.replicate m2 ' ' ++ p0 :: pg2, by rw [List.replicate_succ]; simp,
          by decide⟩
    rcases hx with ⟨c, t, hct, hc⟩
    rw [List.replicate_succ, List.cons_append, hct,
      containsSeq_cons_skip ' ' (c :: t) spacedDots (notLeads_sp7_nondot c t hc), ← hct]
    exact cs_sp7_spacerun m (p0 :: pg2) (by simp) hd

/-- Scanning `" . . . "` across space-joined words whose characters are
neither spaces nor dots reaches the trailing separator unchanged. -/
theorem cs_sp7_join_words : ∀ (ws : List Str) (rest : Str),
    (∀ w ∈ ws, w ≠ [] ∧ ∀ c ∈ w, c ≠ ' ' ∧ c ≠ '.') →
    containsSeq (joinWith [' '] ws ++ ' ' :: rest) spacedDots =
      containsSeq (' ' :: rest) spacedDots
  | [], rest, _ => by simp [joinWith]
  | [w], rest, hws => by
    rw [joinWith_one, sp7_eq]
    exact containsSeq_seg_skip w (' ' :: rest) ' ' _
      (fun c hc => ((hws w (by simp)).2 c hc).1)
  | w :: w2 :: ws2, rest, hws => by
    rw [joinWith_cons₂]
    have ha : w ++ [' '] ++ joinWith [' '] (w2 :: ws2) ++ ' ' :: rest =
        w ++ (' ' :: (joinWith [' '] (w2 :: ws2) ++ ' ' :: rest)) := by simp
    rw [ha, sp7_eq, containsSeq_seg_skip w _ ' ' _ (fun c hc => ((hws w (by simp)).2 c hc).1), ← sp7_eq]
    have hw2 := hws w2 (by simp)
    obtain ⟨b0, w22, hw20⟩ : ∃ b0 w22, w2 = b0 :: w22 := by
      rcases w2 with _ | ⟨b0, w22⟩
      · exact absurd rfl hw2.1
      · exact ⟨b0, w22, rfl⟩
    have hsh : ∃ t, joinWith [' '] (w2 :: ws2) ++ ' ' :: rest = b0 :: t := by
      rcases ws2 with _ | ⟨w3, ws3⟩
      · rw [joinWith_one, hw20]
        exact ⟨w22 ++ ' ' :: rest, by simp⟩
      · rw [joinWith_cons₂, hw20]
        exact ⟨w22 ++ [' '] ++ joinWith [' '] (w3 :: ws3) ++ ' ' :: rest, by simp⟩
    rcases hsh with ⟨t, ht⟩
    have hb0 : b0 ≠ '.' := (hw2.2 b0 (by rw [hw20]; simp)).2
    rw [ht, containsSeq_cons_skip ' ' (b0 :: t) spacedDots (notLeads_sp7_nondot b0 t hb0),
      ← ht]
    exact cs_sp7_join_words (w2 :: ws2) rest (fun y hy => hws y (by simp [hy]))

/-- All characters of the joined title words are letters or spaces. -/
theorem joinW_base (ws : List Str)
    (hws : ∀ w ∈ ws, w ≠ [] ∧ ∀ c ∈ w, isAlphaC c = true) :
    ∀ c ∈ joinWith [' '] ws, isAlphaC c = true ∨ c = ' ' := by
  intro c hc
  rcases mem_joinWith_sp ws c hc with rfl | ⟨w, hw, hcw⟩
  · exact Or.inr rfl
  · exact Or.inl ((hws w hw).2 c hcw)

/-- The 106-dot pass never fires on a line of base characters whose
only dot is the one inside the number token. -/
theorem cs_dots106_spacedline (dN dM W pgTail : Str)
    (hNc : ∀ c ∈ dN, isDigitC c = true)
    (hM : dM ≠ []) (hMc : ∀ c ∈ dM, isDigitC c = true)
    (hrest : ∀ c ∈ W ++ pgTail, c ≠ '.') :
    containsSeq (dN ++ ('.' :: (dM ++ (' ' :: (W ++ pgTail))))) (dots 106) = false := by
  rw [show dM ++ (' ' :: (W ++ pgTail)) = dM ++ (' ' :: (W ++ pgTail)) from rfl,
    cs_dots106_numTok dN dM (' ' :: (W ++ pgTail)) hNc hM hMc, dots106_eq]
  rw [show (' ' :: (W ++ pgTail) : Str) = (' ' :: (W ++ pgTail)) ++ [] from by simp]
  rw [containsSeq_seg_skip (' ' :: (W ++ pgTail)) [] '.' (dots 105) ?side]
  · rfl
  case side =>
    intro c hc
    rcases List.mem_cons.mp hc with rfl | hc2
    · decide
    · exact hrest c hc2

theorem dot_not_goSpace : goSpace '.' = false := by decide

theorem sp_goSpace : goSpace ' ' = true := by decide

/-- The spaced-dot pass never fires on a canonical line whose tail
after the title separator is already known to be clean. -/
theorem cs_sp7_line (dN dM : Str) (ws : List Str) (rest : Str)
    (hNc : ∀ c ∈ dN, isDigitC c = true)
    (hMc : ∀ c ∈ dM, isDigitC c = true)
    (hwsne : ws ≠ [])
    (hws : ∀ w ∈ ws, w ≠ [] ∧ ∀ c ∈ w, isAlphaC c = true)
    (hrest : containsSeq (' ' :: rest) spacedDots = false) :
    containsSeq (dN ++ ('.' :: (dM ++ (' ' :: (joinWith [' '] ws ++ ' ' :: rest)))))
      spacedDots = false := by
  rw [sp7_eq]
  rw [containsSeq_seg_skip dN _ ' ' _ (fun c hc => digit_ne_space c (hNc c hc))]
  rw [containsSeq_cons_skip '.' _ _ (leadsWith_head_ne ' ' '.' _ _ (by decide))]
  rw [containsSeq_seg_skip dM _ ' ' _ (fun c hc => digit_ne_space c (hMc c hc))]
  rw [← sp7_eq]
  obtain ⟨b0, t0, hbt⟩ : ∃ b0 t0, joinWith [' '] ws ++ ' ' :: rest = b0 :: t0 ∧
      isAlphaC b0 = true := by
    rcases ws with _ | ⟨w0, ws2⟩
    · exact absurd rfl hwsne
    obtain ⟨a0, w02, hw0⟩ : ∃ a0 w02, w0 = a0 :: w02 := by
      rcases w0 with _ | ⟨a0, w02⟩
      · exact absurd rfl (hws [] (by simp)).1
      · exact ⟨a0, w02, rfl⟩
    have ha0 : isAlphaC a0 = true := (hws w0 (by simp)).2 a0 (by rw [hw0]; simp)
    rcases ws2 with _ | ⟨w1, ws3⟩
    · rw [joinWith_one, hw0]
      exact ⟨a0, w02 ++ ' ' :: rest, by simp, ha0⟩
    · rw [joinWith_cons₂, hw0]
      exact ⟨a0, w02 ++ [' '] ++ joinWith [' '] (w1 :: ws3) ++ ' ' :: rest, by simp, ha0⟩
  rcases hbt with ⟨hbt, hb0⟩
  rw [hbt, containsSeq_cons_skip ' ' _ _ (notLeads_sp7_nondot b0 t0 (alpha_ne_dot b0 hb0)),
    ← hbt]
  rw [cs_sp7_join_words ws rest (fun w hw =>
    ⟨(hws w hw).1, fun c hc => ⟨alpha_ne_space c ((hws w hw).2 c hc),
      alpha_ne_dot c ((hws w hw).2 c hc)⟩⟩)]
  exact hrest

/-- The spaced-dot pass never fires on the collapsed dot-leader tail. -/
theorem cs_sp7_collapse : ∀ (q : Nat) (r : Nat) (pg : Str), pg ≠ [] →
    (∀ c ∈ pg, isDigitC c = true) →
    containsSeq (' ' :: (List.replicate q ' ' ++ (dots r ++ ' ' :: pg))) spacedDots = false
  | 0, r, pg, hpg, hd => by
    obtain ⟨p0, pg2, hp⟩ : ∃ p0 pg2, pg = p0 :: pg2 := by
      rcases pg with _ | ⟨p0, pg2⟩
      · exact absurd rfl hpg
      · exact ⟨p0, pg2, rfl⟩
    have hp0 : isDigitC p0 = true := hd p0 (by rw [hp]; simp)
    simp only [List.replicate, List.nil_append]
    rcases r with _ | r1
    · rw [show (dots 0 ++ ' ' :: pg : Str) = ' ' :: pg from by simp [dots]]
      rw [containsSeq_cons_skip ' ' _ _ (by
        rw [hp]
        exact notLeads_sp7_nondot ' ' (p0 :: pg2) (by decide))]
      rw [containsSeq_cons_skip ' ' _ _ (by
        rw [hp]
        exact notLeads_sp7_nondot p0 pg2 (digit_ne_dot p0 hp0))]
      rw [hp, show (p0 :: pg2 : Str) = (p0 :: pg2) ++ [] from by simp, sp7_eq,
        containsSeq_seg_skip (p0 :: pg2) [] ' ' _
          (fun c hc => digit_ne_space c (hd c (by rw [hp]; simpa using hc)))]
      rfl
    · rcases r1 with _ | r2
      · -- a single residual dot: " . " followed by a digit
        rw [show (dots 1 ++ ' ' :: pg : Str) = '.' :: ' ' :: pg from by
          rw [show (1 : Nat) = 0 + 1 from rfl, dots_succ]
          simp [dots]]
        rw [hp, containsSeq_cons_skip ' ' _ _
          (notLeads_sp7_isolated p0 pg2 (digit_ne_dot p0 hp0))]
        rw [containsSeq_cons_skip '.' _ _ (by
          rw [sp7_eq]
          exact leadsWith_head_ne ' ' '.' _ _ (by decide))]
        rw [containsSeq_cons_skip ' ' _ _ (notLeads_sp7_nondot p0 pg2 (digit_ne_dot p0 hp0))]
        rw [show (p0 :: pg2 : Str) = (p0 :: pg2) ++ [] from by simp, sp7_eq,
          containsSeq_seg_skip (p0 :: pg2) [] ' ' _
            (fun c hc => digit_ne_space c (hd c (by rw [hp]; simpa using hc)))]
        rfl
      · -- at least two residual dots
        rw [show (dots (r2 + 2) ++ ' ' :: pg : Str) = '.' :: '.' :: (dots r2 ++ ' ' :: pg) from by
          rw [dots_succ, dots_succ]
          simp]
        rw [containsSeq_cons_skip ' ' _ _ (notLeads_sp7_dotdot '.' _ (by decide))]
        rw [containsSeq_cons_skip '.' _ _ (by
          rw [sp7_eq]
          exact leadsWith_head_ne ' ' '.' _ _ (by decide))]
        rw [containsSeq_cons_skip '.' _ _ (by
          rw [sp7_eq]
          exact leadsWith_head_ne ' ' '.' _ _ (by decide))]
        rw [sp7_eq, containsSeq_seg_skip (dots r2) (' ' :: pg) ' ' _
          (fun c hc => by rw [mem_dots c r2 hc]; decide), ← sp7_eq]
        rw [containsSeq_cons_skip ' ' _ _ (by
          rw [hp]
          exact notLeads_sp7_nondot p0 pg2 (digit_ne_dot p0 hp0))]
        rw [hp, show (p0 :: pg2 : Str) = (p0 :: pg2) ++ [] from by simp, sp7_eq,
          containsSeq_seg_skip (p0 :: pg2) [] ' ' _
            (fun c hc => digit_ne_space c (hd c (by rw [hp]; simpa using hc)))]
        rfl
  | q + 1, r, pg, hpg, hd => by
    rw [List.replicate_succ, List.cons_append,
      containsSeq_cons_skip ' ' _ _ (notLeads_sp7_nondot ' ' _ (by decide))]
    exact cs_sp7_collapse q r pg hpg hd

/-- Fields of a canonical decimal line: the number token, the title
words, then whatever the tail holds. -/
theorem fields_decimal_line (dN dM : Str) (ws : List Str) (tail : Str)
    (hN : dN ≠ []) (hNc : ∀ c ∈ dN, isDigitC c = true)
    (hMc : ∀ c ∈ dM, isDigitC c = true)
    (hws : ∀ w ∈ ws, w ≠ [] ∧ ∀ c ∈ w, isAlphaC c = true)
    (htail : tail = [] ∨ ∃ t, tail = ' ' :: t) :
    fields (dN ++ ('.' :: (dM ++ (' ' :: (joinWith [' '] ws ++ tail))))) =
      (dN ++ '.' :: dM) :: (ws ++ fields tail) := by
  have hsh : dN ++ ('.' :: (dM ++ (' ' :: (joinWith [' '] ws ++ tail)))) =
      (dN ++ '.' :: dM) ++ (' ' :: (joinWith [' '] ws ++ tail)) := by simp
  rw [hsh, fields_word (dN ++ '.' :: dM) _ (by simp [hN]) ?tok (Or.inr ⟨' ', _, rfl, sp_goSpace⟩)]
  case tok =>
    intro c hc
    rcases List.mem_append.mp hc with hc | hc
    · exact digit_not_goSpace c (hNc c hc)
    · rcases List.mem_cons.mp hc with rfl | hc2
      · exact dot_not_goSpace
      · exact digit_not_goSpace c (hMc c hc2)
  rw [fields_space_head ' ' _ sp_goSpace,
    fields_join_words ws tail (fun w hw =>
      ⟨(hws w hw).1, fun c hc => alpha_not_goSpace c ((hws w hw).2 c hc)⟩) htail]

theorem fields_digit_word (pg : Str) (hpg : pg ≠ [])
    (hpgc : ∀ c ∈ pg, isDigitC c = true) : fields pg = [pg] := by
  rw [show pg = pg ++ [] from by simp,
    fields_word pg [] hpg (fun c hc => digit_not_goSpace c (hpgc c (by simpa using hc)))
      (Or.inl rfl)]
  rw [fields]
  simp

/-- Base-character inventory of a canonical spaced line. -/
theorem spacedline_base (dN dM : Str) (ws : List Str) (X : Str)
    (hNc : ∀ c ∈ dN, isDigitC c = true)
    (hMc : ∀ c ∈ dM, isDigitC c = true)
    (hws : ∀ w ∈ ws, w ≠ [] ∧ ∀ c ∈ w, isAlphaC c = true)
    (hX : ∀ c ∈ X, baseChar c) :
    ∀ c ∈ dN ++ ('.' :: (dM ++ (' ' :: (joinWith [' '] ws ++ X)))), baseChar c := by
  intro c hc
  simp only [List.mem_append, List.mem_cons] at hc
  rcases hc with hc | rfl | hc | rfl | hc | hc
  · exact Or.inl (hNc c hc)
  · exact Or.inr (Or.inr (Or.inl rfl))
  · exact Or.inl (hMc c hc)
  · exact Or.inr (Or.inr (Or.inr rfl))
  · rcases joinW_base ws hws c hc with h | rfl
    · exact Or.inr (Or.inl h)
    · exact Or.inr (Or.inr (Or.inr rfl))
  · exact hX c hc

theorem replaceAll_cons (s : Str) (o : Char) (os new : Str) :
    replaceAll s (o :: os) new = replaceAllNE s o os new := rfl

/-- Normalization of a bullet-leader decimal line: the bullet becomes
whitespace and the fields collapse to token-single-space form. -/
theorem norm_bullet (dN dM : Str) (ws : List Str) (pg : Str)
    (hN : dN ≠ []) (hNc : ∀ c ∈ dN, isDigitC c = true)
    (hM : dM ≠ []) (hMc : ∀ c ∈ dM, isDigitC c = true)
    (hwsne : ws ≠ [])
    (hws : ∀ w ∈ ws, w ≠ [] ∧ ∀ c ∈ w, isAlphaC c = true)
    (hpg : pg ≠ []) (hpgc : ∀ c ∈ pg, isDigitC c = true) :
    normalizeDotLeaders (mkDecimalLine dN dM ws .bullet pg) =
      joinWith [' '] ((dN ++ '.' :: dM) :: (ws ++ [pg])) := by
  have hL : mkDecimalLine dN dM ws .bullet pg =
      (dN ++ ('.' :: (dM ++ (' ' :: (joinWith [' '] ws ++ [' ']))))) ++ '•' :: (' ' :: pg) := by
    simp [mkDecimalLine, leaderStr]
  have hbase_a : ∀ c ∈ dN ++ ('.' :: (dM ++ (' ' :: (joinWith [' '] ws ++ [' '])))), baseChar c :=
    spacedline_base dN dM ws [' '] hNc hMc hws
      (fun c hc => by
        simp at hc
        exact hc ▸ Or.inr (Or.inr (Or.inr rfl)))
  have hs1 : replaceAll (mkDecimalLine dN dM ws .bullet pg) ['•'] [' '] =
      dN ++ ('.' :: (dM ++ (' ' :: (joinWith [' '] ws ++ ' ' :: ' ' :: ' ' :: pg)))) := by
    rw [replaceAll_cons, hL,
      replaceAllNE_single_split _ (' ' :: pg) '•' [' ']
        (fun c hc => baseChar_ne_bullet c (hbase_a c hc))
        (by
          intro hmem
          rcases List.mem_cons.mp hmem with h | h
          · exact absurd h.symm (by decide)
          · exact (digit_ne_bullet '•' (hpgc '•' h)) rfl)]
    simp
  have hSLbase : ∀ c ∈ dN ++ ('.' :: (dM ++ (' ' :: (joinWith [' '] ws ++ ' ' :: ' ' :: ' ' :: pg)))),
      baseChar c :=
    spacedline_base dN dM ws (' ' :: ' ' :: ' ' :: pg) hNc hMc hws
      (fun c hc => by
        rcases List.mem_cons.mp hc with rfl | hc
        · exact Or.inr (Or.inr (Or.inr rfl))
        rcases List.mem_cons.mp hc with rfl | hc
        · exact Or.inr (Or.inr (Or.inr rfl))
        rcases List.mem_cons.mp hc with rfl | hc
        · exact Or.inr (Or.inr (Or.inr rfl))
        · exact Or.inl (hpgc c hc))
  have hmid : replaceAllNE
      (dN ++ ('.' :: (dM ++ (' ' :: (joinWith [' '] ws ++ ' ' :: ' ' :: ' ' :: pg)))))
      '·' [] [' '] =
      dN ++ ('.' :: (dM ++ (' ' :: (joinWith [' '] ws ++ ' ' :: ' ' :: ' ' :: pg)))) :=
    replaceAllNE_single_noop _ '·' [' ']
      (fun hmem => (baseChar_ne_middot '·' (hSLbase '·' hmem)) rfl)
  have hell : replaceAllNE
      (dN ++ ('.' :: (dM ++ (' ' :: (joinWith [' '] ws ++ ' ' :: ' ' :: ' ' :: pg)))))
      '…' [] [' ', '.', '.', '.', ' '] =
      dN ++ ('.' :: (dM ++ (' ' :: (joinWith [' '] ws ++ ' ' :: ' ' :: ' ' :: pg)))) :=
    replaceAllNE_single_noop _ '…' _
      (fun hmem => (baseChar_ne_ellipsis '…' (hSLbase '…' hmem)) rfl)
  have hdots : replaceAllNE
      (dN ++ ('.' :: (dM ++ (' ' :: (joinWith [' '] ws ++ ' ' :: ' ' :: ' ' :: pg)))))
      '.' (dots 105) [' '] =
      dN ++ ('.' :: (dM ++ (' ' :: (joinWith [' '] ws ++ ' ' :: ' ' :: ' ' :: pg)))) := by
    refine replaceAllNE_of_not_contains _ '.' (dots 105) [' '] ?_
    rw [← dots106_eq]
    exact cs_dots106_spacedline dN dM (joinWith [' '] ws) (' ' :: ' ' :: ' ' :: pg) hNc hM hMc
      (fun c hc => by
        rcases List.mem_append.mp hc with hc | hc
        · rcases joinW_base ws hws c hc with h | rfl
          · exact alpha_ne_dot c h
          · decide
        · rcases List.mem_cons.mp hc with rfl | hc
          · decide
          · rcases List.mem_cons.mp hc with rfl | hc
            · decide
            · rcases List.mem_cons.mp hc with rfl | hc
              · decide
              · exact digit_ne_dot c (hpgc c hc))
  have hsp : replaceAllNE
      (dN ++ ('.' :: (dM ++ (' ' :: (joinWith [' '] ws ++ ' ' :: ' ' :: ' ' :: pg)))))
      ' ' ['.', ' ', '.', ' ', '.', ' '] [' '] =
      dN ++ ('.' :: (dM ++ (' ' :: (joinWith [' '] ws ++ ' ' :: ' ' :: ' ' :: pg)))) := by
    refine replaceAllNE_of_not_contains _ ' ' _ [' '] ?_
    rw [show (' ' :: ['.', ' ', '.', ' ', '.', ' '] : Str) = spacedDots from rfl]
    refine cs_sp7_line dN dM ws (' ' :: ' ' :: pg) hNc hMc hwsne hws ?_
    rw [show (' ' :: ' ' :: ' ' :: pg : Str) = List.replicate 3 ' ' ++ pg from by
      simp [List.replicate]]
    exact cs_sp7_spacerun 3 pg hpg hpgc
  rw [normalizeDotLeaders, hs1]
  rw [dots106_eq, sp7_eq]
  simp only [replaceAll_cons]
  rw [hmid, hell, hmid, hell, hdots, hsp]
  rw [fields_decimal_line dN dM ws (' ' :: ' ' :: ' ' :: pg) hN hNc hMc hws
    (Or.inr ⟨_, rfl⟩)]
  rw [fields_space_head ' ' _ sp_goSpace, fields_space_head ' ' _ sp_goSpace,
    fields_space_head ' ' _ sp_goSpace, fields_digit_word pg hpg hpgc]

/-- Normalization of a middle-dot-leader decimal line. -/
theorem norm_middot (dN dM : Str) (ws : List Str) (pg : Str)
    (hN : dN ≠ []) (hNc : ∀ c ∈ dN, isDigitC c = true)
    (hM : dM ≠ []) (hMc : ∀ c ∈ dM, isDigitC c = true)
    (hwsne : ws ≠ [])
    (hws : ∀ w ∈ ws, w ≠ [] ∧ ∀ c ∈ w, isAlphaC c = true)
    (hpg : pg ≠ []) (hpgc : ∀ c ∈ pg, isDigitC c = true) :
    normalizeDotLeaders (mkDecimalLine dN dM ws .middot pg) =
      joinWith [' '] ((dN ++ '.' :: dM) :: (ws ++ [pg])) := by
  have hL : mkDecimalLine dN dM ws .middot pg =
      (dN ++ ('.' :: (dM ++ (' ' :: (joinWith [' '] ws ++ [' ']))))) ++ '·' :: (' ' :: pg) := by
    simp [mkDecimalLine, leaderStr]
  have hbase_a : ∀ c ∈ dN ++ ('.' :: (dM ++ (' ' :: (joinWith [' '] ws ++ [' '])))), baseChar c :=
    spacedline_base dN dM ws [' '] hNc hMc hws
      (fun c hc => by
        simp at hc
        exact hc ▸ Or.inr (Or.inr (Or.inr rfl)))
  have hL0base : ∀ c ∈ mkDecimalLine dN dM ws .middot pg, baseChar c ∨ c = '·' := by
    intro c hc
    rw [hL] at hc
    rcases List.mem_append.mp hc with hc | hc
    · exact Or.inl (hbase_a c hc)
    · rcases List.mem_cons.mp hc with rfl | hc
      · exact Or.inr rfl
      · rcases List.mem_cons.mp hc with rfl | hc
        · exact Or.inl (Or.inr (Or.inr (Or.inr rfl)))
        · exact Or.inl (Or.inl (hpgc c hc))
  have hs1 : replaceAllNE (mkDecimalLine dN dM ws .middot pg) '•' [] [' '] =
      mkDecimalLine dN dM ws .middot pg := by
    refine replaceAllNE_single_noop _ '•' [' '] ?_
    intro hmem
    rcases hL0base '•' hmem with h | h
    · exact (baseChar_ne_bullet '•' h) rfl
    · exact absurd h (by decide)
  have hs2 : replaceAllNE (mkDecimalLine dN dM ws .middot pg) '·' [] [' '] =
      dN ++ ('.' :: (dM ++ (' ' :: (joinWith [' '] ws ++ ' ' :: ' ' :: ' ' :: pg)))) := by
    rw [hL, replaceAllNE_single_split _ (' ' :: pg) '·' [' ']
      (fun c hc => baseChar_ne_middot c (hbase_a c hc))
      (by
        intro hmem
        rcases List.mem_cons.mp hmem with h | h
        · exact absurd h.symm (by decide)
        · exact (digit_ne_middot '·' (hpgc '·' h)) rfl)]
    simp
  have hSLbase : ∀ c ∈ dN ++ ('.' :: (dM ++ (' ' :: (joinWith [' '] ws ++ ' ' :: ' ' :: ' ' :: pg)))),
      baseChar c :=
    spacedline_base dN dM ws (' ' :: ' ' :: ' ' :: pg) hNc hMc hws
      (fun c hc => by
        rcases List.mem_cons.mp hc with rfl | hc
        · exact Or.inr (Or.inr (Or.inr rfl))
        rcases List.mem_cons.mp hc with rfl | hc
        · exact Or.inr (Or.inr (Or.inr rfl))
        rcases List.mem_cons.mp hc with rfl | hc
        · exact Or.inr (Or.inr (Or.inr rfl))
        · exact Or.inl (hpgc c hc))
  have hell : replaceAllNE
      (dN ++ ('.' :: (dM ++ (' ' :: (joinWith [' '] ws ++ ' ' :: ' ' :: ' ' :: pg)))))
      '…' [] [' ', '.', '.', '.', ' '] =
      dN ++ ('.' :: (dM ++ (' ' :: (joinWith [' '] ws ++ ' ' :: ' ' :: ' ' :: pg)))) :=
    replaceAllNE_single_noop _ '…' _
      (fun hmem => (baseChar_ne_ellipsis '…' (hSLbase '…' hmem)) rfl)
  have hmid : replaceAllNE
      (dN ++ ('.' :: (dM ++ (' ' :: (joinWith [' '] ws ++ ' ' :: ' ' :: ' ' :: pg)))))
      '·' [] [' '] =
      dN ++ ('.' :: (dM ++ (' ' :: (joinWith [' '] ws ++ ' ' :: ' ' :: ' ' :: pg)))) :=
    replaceAllNE_single_noop _ '·' [' ']
      (fun hmem => (baseChar_ne_middot '·' (hSLbase '·' hmem)) rfl)
  have hdots : replaceAllNE
      (dN ++ ('.' :: (dM ++ (' ' :: (joinWith [' '] ws ++ ' ' :: ' ' :: ' ' :: pg)))))
      '.' (dots 105) [' '] =
      dN ++ ('.' :: (dM ++ (' ' :: (joinWith [' '] ws ++ ' ' :: ' ' :: ' ' :: pg)))) := by
    refine replaceAllNE_of_not_contains _ '.' (dots 105) [' '] ?_
    rw [← dots106_eq]
    exact cs_dots106_spacedline dN dM (joinWith [' '] ws) (' ' :: ' ' :: ' ' :: pg) hNc hM hMc
      (fun c hc => by
        rcases List.mem_append.mp hc with hc | hc
        · rcases joinW_base ws hws c hc with h | rfl
          · exact alpha_ne_dot c h
          · decide
        · rcases List.mem_cons.mp hc with rfl | hc
          · decide
          · rcases List.mem_cons.mp hc with rfl | hc
            · decide
            · rcases List.mem_cons.mp hc with rfl | hc
              · decide
              · exact digit_ne_dot c (hpgc c hc))
  have hsp : replaceAllNE
      (dN ++ ('.' :: (dM ++ (' ' :: (joinWith [' '] ws ++ ' ' :: ' ' :: ' ' :: pg)))))
      ' ' ['.', ' ', '.', ' ', '.', ' '] [' '] =
      dN ++ ('.' :: (dM ++ (' ' :: (joinWith [' '] ws ++ ' ' :: ' ' :: ' ' :: pg)))) := by
    refine replaceAllNE_of_not_contains _ ' ' _ [' '] ?_
    rw [show (' ' :: ['.', ' ', '.', ' ', '.', ' '] : Str) = spacedDots from rfl]
    refine cs_sp7_line dN dM ws (' ' :: ' ' :: pg) hNc hMc hwsne hws ?_
    rw [show (' ' :: ' ' :: ' ' :: pg : Str) = List.replicate 3 ' ' ++ pg from by
      simp [List.replicate]]
    exact cs_sp7_spacerun 3 pg hpg hpgc
  rw [normalizeDotLeaders]
  rw [dots106_eq, sp7_eq]
  simp only [replaceAll_cons]
  rw [hs1, hs2, hell, hmid, hell, hdots, hsp]
  rw [fields_decimal_line dN dM ws (' ' :: ' ' :: ' ' :: pg) hN hNc hMc hws
    (Or.inr ⟨_, rfl⟩)]
  rw [fields_space_head ' ' _ sp_goSpace, fields_space_head ' ' _ sp_goSpace,
    fields_space_head ' ' _ sp_goSpace, fields_digit_word pg hpg hpgc]

/-- Normalization of an ellipsis-leader decimal line: the glyph becomes
the literal three-dot token (not a single space). -/
theorem norm_ellipsis (dN dM : Str) (ws : List Str) (pg : Str)
    (hN : dN ≠ []) (hNc : ∀ c ∈ dN, isDigitC c = true)
    (hM : dM ≠ []) (hMc : ∀ c ∈ dM, isDigitC c = true)
    (hwsne : ws ≠ [])
    (hws : ∀ w ∈ ws, w ≠ [] ∧ ∀ c ∈ w, isAlphaC c = true)
    (hpg : pg ≠ []) (hpgc : ∀ c ∈ pg, isDigitC c = true) :
    normalizeDotLeaders (mkDecimalLine dN dM ws .ellipsis pg) =
      joinWith [' '] ((dN ++ '.' :: dM) :: (ws ++ [['.', '.', '.'], pg])) := by
  have hL : mkDecimalLine dN dM ws .ellipsis pg =
      (dN ++ ('.' :: (dM ++ (' ' :: (joinWith [' '] ws ++ [' ']))))) ++ '…' :: (' ' :: pg) := by
    simp [mkDecimalLine, leaderStr]
  have hbase_a : ∀ c ∈ dN ++ ('.' :: (dM ++ (' ' :: (joinWith [' '] ws ++ [' '])))), baseChar c :=
    spacedline_base dN dM ws [' '] hNc hMc hws
      (fun c hc => by
        simp at hc
        exact hc ▸ Or.inr (Or.inr (Or.inr rfl)))
  have hL0base : ∀ c ∈ mkDecimalLine dN dM ws .ellipsis pg, baseChar c ∨ c = '…' := by
    intro c hc
    rw [hL] at hc
    rcases List.mem_append.mp hc with hc | hc
    · exact Or.inl (hbase_a c hc)
    · rcases List.mem_cons.mp hc with rfl | hc
      · exact Or.inr rfl
      · rcases List.mem_cons.mp hc with rfl | hc
        · exact Or.inl (Or.inr (Or.inr (Or.inr rfl)))
        · exact Or.inl (Or.inl (hpgc c hc))
  have hs1 : replaceAllNE (mkDecimalLine dN dM ws .ellipsis pg) '•' [] [' '] =
      mkDecimalLine dN dM ws .ellipsis pg := by
    refine replaceAllNE_single_noop _ '•' [' '] ?_
    intro hmem
    rcases hL0base '•' hmem with h | h
    · exact (baseChar_ne_bullet '•' h) rfl
    · exact absurd h (by decide)
  have hs2 : replaceAllNE (mkDecimalLine dN dM ws .ellipsis pg) '·' [] [' '] =
      mkDecimalLine dN dM ws .ellipsis pg := by
    refine replaceAllNE_single_noop _ '·' [' '] ?_
    intro hmem
    rcases hL0base '·' hmem with h | h
    · exact (baseChar_ne_middot '·' h) rfl
    · exact absurd h (by decide)
  have hs3 : replaceAllNE (mkDecimalLine dN dM ws .ellipsis pg) '…' [] [' ', '.', '.', '.', ' '] =
      dN ++ ('.' :: (dM ++ (' ' :: (joinWith [' '] ws ++
        ' ' :: ' ' :: '.' :: '.' :: '.' :: ' ' :: ' ' :: pg)))) := by
    rw [hL, replaceAllNE_single_split _ (' ' :: pg) '…' [' ', '.', '.', '.', ' ']
      (fun c hc => baseChar_ne_ellipsis c (hbase_a c hc))
      (by
        intro hmem
        rcases List.mem_cons.mp hmem with h | h
        · exact absurd h.symm (by decide)
        · exact (digit_ne_ellipsis '…' (hpgc '…' h)) rfl)]
    simp
  have hSLbase : ∀ c ∈ dN ++ ('.' :: (dM ++ (' ' :: (joinWith [' '] ws ++
      ' ' :: ' ' :: '.' :: '.' :: '.' :: ' ' :: ' ' :: pg)))), baseChar c :=
    spacedline_base dN dM ws (' ' :: ' ' :: '.' :: '.' :: '.' :: ' ' :: ' ' :: pg) hNc hMc hws
      (fun c hc => by
        rcases List.mem_cons.mp hc with rfl | hc
        · exact Or.inr (Or.inr (Or.inr rfl))
        rcases List.mem_cons.mp hc with rfl | hc
        · exact Or.inr (Or.inr (Or.inr rfl))
        rcases List.mem_cons.mp hc with rfl | hc
        · exact Or.inr (Or.inr (Or.inl rfl))
        rcases List.mem_cons.mp hc with rfl | hc
        · exact Or.inr (Or.inr (Or.inl rfl))
        rcases List.mem_cons.mp hc with rfl | hc
        · exact Or.inr (Or.inr (Or.inl rfl))
        rcases List.mem_cons.mp hc with rfl | hc
        · exact Or.inr (Or.inr (Or.inr rfl))
        rcases List.mem_cons.mp hc with rfl | hc
        · exact Or.inr (Or.inr (Or.inr rfl))
        · exact Or.inl (hpgc c hc))
  have hmid : replaceAllNE
      (dN ++ ('.' :: (dM ++ (' ' :: (joinWith [' '] ws ++
        ' ' :: ' ' :: '.' :: '.' :: '.' :: ' ' :: ' ' :: pg)))))
      '·' [] [' '] =
      dN ++ ('.' :: (dM ++ (' ' :: (joinWith [' '] ws ++
        ' ' :: ' ' :: '.' :: '.' :: '.' :: ' ' :: ' ' :: pg)))) :=
    replaceAllNE_single_noop _ '·' [' ']
      (fun hmem => (baseChar_ne_middot '·' (hSLbase '·' hmem)) rfl)
  have hell : replaceAllNE
      (dN ++ ('.' :: (dM ++ (' ' :: (joinWith [' '] ws ++
        ' ' :: ' ' :: '.' :: '.' :: '.' :: ' ' :: ' ' :: pg)))))
      '…' [] [' ', '.', '.', '.', ' '] =
      dN ++ ('.' :: (dM ++ (' ' :: (joinWith [' '] ws ++
        ' ' :: ' ' :: '.' :: '.' :: '.' :: ' ' :: ' ' :: pg)))) :=
    replaceAllNE_single_noop _ '…' _
      (fun hmem => (baseChar_ne_ellipsis '…' (hSLbase '…' hmem)) rfl)
  have hdots : replaceAllNE
      (dN ++ ('.' :: (dM ++ (' ' :: (joinWith [' '] ws ++
        ' ' :: ' ' :: '.' :: '.' :: '.' :: ' ' :: ' ' :: pg)))))
      '.' (dots 105) [' '] =
      dN ++ ('.' :: (dM ++ (' ' :: (joinWith [' '] ws ++
        ' ' :: ' ' :: '.' :: '.' :: '.' :: ' ' :: ' ' :: pg)))) := by
    refine replaceAllNE_of_not_contains _ '.' (dots 105) [' '] ?_
    rw [← dots106_eq]
    rw [show dM ++ (' ' :: (joinWith [' '] ws ++
        ' ' :: ' ' :: '.' :: '.' :: '.' :: ' ' :: ' ' :: pg)) =
        dM ++ (' ' :: (joinWith [' '] ws ++
        ' ' :: ' ' :: '.' :: '.' :: '.' :: ' ' :: ' ' :: pg)) from rfl,
      cs_dots106_numTok dN dM _ hNc hM hMc]
    rw [show (' ' :: (joinWith [' '] ws ++
        ' ' :: ' ' :: '.' :: '.' :: '.' :: ' ' :: ' ' :: pg) : Str) =
        (' ' :: joinWith [' '] ws ++ [' ', ' ']) ++
          ('.' :: '.' :: '.' :: (' ' :: (' ' :: pg))) from by simp]
    rw [dots106_eq, containsSeq_seg_skip (' ' :: joinWith [' '] ws ++ [' ', ' '])
      ('.' :: '.' :: '.' :: (' ' :: (' ' :: pg))) '.' (dots 105) ?wchars, ← dots106_eq]
    case wchars =>
      intro c hc
      rcases List.mem_cons.mp hc with rfl | hc
      · decide
      rcases List.mem_append.mp hc with hc | hc
      · rcases joinW_base ws hws c hc with h | rfl
        · exact alpha_ne_dot c h
        · decide
      · rcases List.mem_cons.mp hc with rfl | hc
        · decide
        · simp at hc
          exact hc ▸ (by decide)
    rw [show ('.' :: '.' :: '.' :: (' ' :: (' ' :: pg)) : Str) =
        dots 3 ++ ' ' :: (' ' :: pg) from by
      rw [show (3 : Nat) = 2 + 1 from rfl, dots_succ, show (2 : Nat) = 1 + 1 from rfl,
        dots_succ, show (1 : Nat) = 0 + 1 from rfl, dots_succ]
      simp [dots]]
    rw [cs_dots106_smallrun (' ' :: pg) 3 (by omega)]
    rw [dots106_eq]
    rw [containsSeq_cons_skip ' ' _ _ (leadsWith_head_ne '.' ' ' _ _ (by decide))]
    rw [containsSeq_cons_skip ' ' _ _ (leadsWith_head_ne '.' ' ' _ _ (by decide))]
    rw [show (pg : Str) = pg ++ [] from by simp, containsSeq_seg_skip pg [] '.' (dots 105)
      (fun c hc => digit_ne_dot c (hpgc c (by simpa using hc)))]
    rfl
  have hsp : replaceAllNE
      (dN ++ ('.' :: (dM ++ (' ' :: (joinWith [' '] ws ++
        ' ' :: ' ' :: '.' :: '.' :: '.' :: ' ' :: ' ' :: pg)))))
      ' ' ['.', ' ', '.', ' ', '.', ' '] [' '] =
      dN ++ ('.' :: (dM ++ (' ' :: (joinWith [' '] ws ++
        ' ' :: ' ' :: '.' :: '.' :: '.' :: ' ' :: ' ' :: pg)))) := by
    refine replaceAllNE_of_not_contains _ ' ' _ [' '] ?_
    rw [show (' ' :: ['.', ' ', '.', ' ', '.', ' '] : Str) = spacedDots from rfl]
    refine cs_sp7_line dN dM ws (' ' :: '.' :: '.' :: '.' :: ' ' :: ' ' :: pg) hNc hMc hwsne hws ?_
    rw [containsSeq_cons_skip ' ' _ _ (notLeads_sp7_nondot ' ' _ (by decide))]
    rw [containsSeq_cons_skip ' ' _ _ (notLeads_sp7_dotdot '.' _ (by decide))]
    rw [containsSeq_cons_skip '.' _ _ (by
      rw [sp7_eq]
      exact leadsWith_head_ne ' ' '.' _ _ (by decide))]
    rw [containsSeq_cons_skip '.' _ _ (by
      rw [sp7_eq]
      exact leadsWith_head_ne ' ' '.' _ _ (by decide))]
    rw [containsSeq_cons_skip '.' _ _ (by
      rw [sp7_eq]
      exact leadsWith_head_ne ' ' '.' _ _ (by decide))]
    rw [show (' ' :: ' ' :: pg : Str) = List.replicate 2 ' ' ++ pg from by
      simp [List.replicate]]
    exact cs_sp7_spacerun 2 pg hpg hpgc
  rw [normalizeDotLeaders]
  rw [dots106_eq, sp7_eq]
  simp only [replaceAll_cons]
  rw [hs1, hs2, hs3, hmid, hell, hdots, hsp]
  rw [fields_decimal_line dN dM ws (' ' :: ' ' :: '.' :: '.' :: '.' :: ' ' :: ' ' :: pg)
    hN hNc hMc hws (Or.inr ⟨_, rfl⟩)]
  rw [fields_space_head ' ' _ sp_goSpace, fields_space_head ' ' _ sp_goSpace]
  rw [show ('.' :: '.' :: '.' :: ' ' :: ' ' :: pg : Str) =
      ['.', '.', '.'] ++ (' ' :: (' ' :: pg)) from by simp]
  rw [fields_word ['.', '.', '.'] _ (by simp) (fun c hc => by
      simp at hc
      exact hc ▸ dot_not_goSpace)
    (Or.inr ⟨' ', _, rfl, sp_goSpace⟩)]
  rw [fields_space_head ' ' _ sp_goSpace, fields_space_head ' ' _ sp_goSpace,
    fields_digit_word pg hpg hpgc]

/-- Normalization of a literal dot-run leader: each full 106-dot block
collapses to whitespace and any shorter remainder survives as a token. -/
theorem norm_dotrun (k : Nat) (dN dM : Str) (ws : List Str) (pg : Str)
    (hN : dN ≠ []) (hNc : ∀ c ∈ dN, isDigitC c = true)
    (hM : dM ≠ []) (hMc : ∀ c ∈ dM, isDigitC c = true)
    (hwsne : ws ≠ [])
    (hws : ∀ w ∈ ws, w ≠ [] ∧ ∀ c ∈ w, isAlphaC c = true)
    (hpg : pg ≠ []) (hpgc : ∀ c ∈ pg, isDigitC c = true) :
    normalizeDotLeaders (mkDecimalLine dN dM ws (.dotRun k) pg) =
      joinWith [' '] ((dN ++ '.' :: dM) ::
        (ws ++ (if k % 106 = 0 then [] else [dots (k % 106)]) ++ [pg])) := by
  have hL : mkDecimalLine dN dM ws (.dotRun k) pg =
      dN ++ ('.' :: (dM ++ (' ' :: (joinWith [' '] ws ++
        (' ' :: (dots k ++ ' ' :: pg)))))) := by
    simp [mkDecimalLine, leaderStr]
  have hLbase : ∀ c ∈ dN ++ ('.' :: (dM ++ (' ' :: (joinWith [' '] ws ++
      (' ' :: (dots k ++ ' ' :: pg)))))), baseChar c :=
    spacedline_base dN dM ws (' ' :: (dots k ++ ' ' :: pg)) hNc hMc hws
      (fun c hc => by
        rcases List.mem_cons.mp hc with rfl | hc
        · exact Or.inr (Or.inr (Or.inr rfl))
        rcases List.mem_append.mp hc with hc | hc
        · exact Or.inr (Or.inr (Or.inl (mem_dots c k hc)))
        rcases List.mem_cons.mp hc with rfl | hc
        · exact Or.inr (Or.inr (Or.inr rfl))
        · exact Or.inl (hpgc c hc))
  obtain ⟨m0, dM2, hdM⟩ : ∃ m0 dM2, dM = m0 :: dM2 := by
    rcases dM with _ | ⟨m0, dM2⟩
    · exact absurd rfl hM
    · exact ⟨m0, dM2, rfl⟩
  have hs1 : replaceAllNE (mkDecimalLine dN dM ws (.dotRun k) pg) '•' [] [' '] =
      mkDecimalLine dN dM ws (.dotRun k) pg :=
    replaceAllNE_single_noop _ '•' [' ']
      (fun hmem => (baseChar_ne_bullet '•' (by rw [hL] at hmem; exact hLbase '•' hmem)) rfl)
  have hs2 : replaceAllNE (mkDecimalLine dN dM ws (.dotRun k) pg) '·' [] [' '] =
      mkDecimalLine dN dM ws (.dotRun k) pg :=
    replaceAllNE_single_noop _ '·' [' ']
      (fun hmem => (baseChar_ne_middot '·' (by rw [hL] at hmem; exact hLbase '·' hmem)) rfl)
  have hs3 : replaceAllNE (mkDecimalLine dN dM ws (.dotRun k) pg) '…' []
      [' ', '.', '.', '.', ' '] = mkDecimalLine dN dM ws (.dotRun k) pg :=
    replaceAllNE_single_noop _ '…' _
      (fun hmem => (baseChar_ne_ellipsis '…' (by rw [hL] at hmem; exact hLbase '…' hmem)) rfl)
  have hdots : replaceAllNE (mkDecimalLine dN dM ws (.dotRun k) pg) '.' (dots 105) [' '] =
      dN ++ ('.' :: (dM ++ (' ' :: (joinWith [' '] ws ++
        (' ' :: ((List.replicate (k / 106) ' ' ++ dots (k % 106)) ++ ' ' :: pg)))))) := by
    rw [hL, hdM]
    rw [replaceAllNE_seg_skip dN _ '.' (dots 105) [' ']
      (fun c hc => digit_ne_dot c (hNc c hc))]
    rw [replaceAllNE_skip_char '.' _ '.' (dots 105) [' '] (by
      rw [← dots106_eq]
      rw [show (m0 :: dM2 ++ (' ' :: (joinWith [' '] ws ++ (' ' :: (dots k ++ ' ' :: pg)))) : Str) =
        m0 :: (dM2 ++ (' ' :: (joinWith [' '] ws ++ (' ' :: (dots k ++ ' ' :: pg))))) from by simp]
      exact notLeads_dots106_single m0 _ (digit_ne_dot m0 (hMc m0 (by rw [hdM]; simp))))]
    rw [show (m0 :: dM2 ++ (' ' :: (joinWith [' '] ws ++ (' ' :: (dots k ++ ' ' :: pg)))) : Str) =
      ((m0 :: dM2) ++ (' ' :: (joinWith [' '] ws ++ [' ']))) ++ (dots k ++ ' ' :: pg) from by simp]
    rw [replaceAllNE_seg_skip _ _ '.' (dots 105) [' '] (by
      intro c hc
      rcases List.mem_append.mp hc with hc | hc
      · exact digit_ne_dot c (hMc c (by rw [hdM]; exact hc))
      rcases List.mem_cons.mp hc with rfl | hc
      · decide
      rcases List.mem_append.mp hc with hc | hc
      · rcases joinW_base ws hws c hc with h | rfl
        · exact alpha_ne_dot c h
        · decide
      · simp at hc
        exact hc ▸ (by decide))]
    rw [replaceAll_dotrun k pg]
    rw [replaceAllNE_of_not_contains pg '.' (dots 105) [' '] (by
      rw [show pg = pg ++ [] from by simp, containsSeq_seg_skip pg [] '.' (dots 105)
        (fun c hc => digit_ne_dot c (hpgc c (by simpa using hc)))]
      rfl)]
    simp
  have hsp : replaceAllNE
      (dN ++ ('.' :: (dM ++ (' ' :: (joinWith [' '] ws ++
        (' ' :: ((List.replicate (k / 106) ' ' ++ dots (k % 106)) ++ ' ' :: pg)))))))
      ' ' ['.', ' ', '.', ' ', '.', ' '] [' '] =
      dN ++ ('.' :: (dM ++ (' ' :: (joinWith [' '] ws ++
        (' ' :: ((List.replicate (k / 106) ' ' ++ dots (k % 106)) ++ ' ' :: pg)))))) := by
    refine replaceAllNE_of_not_contains _ ' ' _ [' '] ?_
    rw [show (' ' :: ['.', ' ', '.', ' ', '.', ' '] : Str) = spacedDots from rfl]
    refine cs_sp7_line dN dM ws ((List.replicate (k / 106) ' ' ++ dots (k % 106)) ++ ' ' :: pg)
      hNc hMc hwsne hws ?_
    rw [show (' ' :: ((List.replicate (k / 106) ' ' ++ dots (k % 106)) ++ ' ' :: pg) : Str) =
      ' ' :: (List.replicate (k / 106) ' ' ++ (dots (k % 106) ++ ' ' :: pg)) from by simp]
    exact cs_sp7_collapse (k / 106) (k % 106) pg hpg hpgc
  rw [normalizeDotLeaders]
  rw [dots106_eq, sp7_eq]
  simp only [replaceAll_cons]
  rw [hs1, hs2, hs3, hs2, hs3, hdots, hsp]
  rw [fields_decimal_line dN dM ws
    (' ' :: ((List.replicate (k / 106) ' ' ++ dots (k % 106)) ++ ' ' :: pg))
    hN hNc hMc hws (Or.inr ⟨_, rfl⟩)]
  rw [fields_space_head ' ' _ sp_goSpace]
  rw [show ((List.replicate (k / 106) ' ' ++ dots (k % 106)) ++ ' ' :: pg : Str) =
    List.replicate (k / 106) ' ' ++ (dots (k % 106) ++ ' ' :: pg) from by simp]
  rw [fields_replicate_sp (k / 106) _]
  rcases Nat.eq_zero_or_pos (k % 106) with hk | hk
  · rw [hk]
    rw [show (dots 0 ++ ' ' :: pg : Str) = ' ' :: pg from by simp [dots]]
    rw [fields_space_head ' ' _ sp_goSpace, fields_digit_word pg hpg hpgc]
    simp
  · rw [fields_word (dots (k % 106)) (' ' :: pg) (by
        rw [show dots (k % 106) = List.replicate (k % 106) '.' from rfl]
        simp only [ne_eq, List.replicate_eq_nil_iff]
        omega)
      (fun c hc => by rw [mem_dots c _ hc]; exact dot_not_goSpace)
      (Or.inr ⟨' ', pg, rfl, sp_goSpace⟩)]
    rw [fields_space_head ' ' _ sp_goSpace, fields_digit_word pg hpg hpgc]
    have : ¬ (k % 106 = 0) := by omega
    simp [this]

theorem joinWith_tail_split : ∀ (mid : List Str) (pg : Str), mid ≠ [] →
    joinWith [' '] (mid ++ [pg]) = joinWith [' '] mid ++ ' ' :: pg
  | [m], pg, _ => by
    rw [show ([m] ++ [pg] : List Str) = [m, pg] from rfl, joinWith_cons₂,
      joinWith_one, joinWith_one]
    simp
  | m :: m2 :: rest, pg, _ => by
    rw [show ((m :: m2 :: rest) ++ [pg] : List Str) = m :: ((m2 :: rest) ++ [pg]) from rfl,
      show (m :: ((m2 :: rest) ++ [pg]) : List Str) = m :: m2 :: (rest ++ [pg]) from rfl,
      joinWith_cons₂, show (m2 :: (rest ++ [pg]) : List Str) = (m2 :: rest) ++ [pg] from rfl,
      joinWith_tail_split (m2 :: rest) pg (by simp), joinWith_cons₂]
    simp

/-- Splitting a space-joined token list at its final (page) element. -/
theorem joinWith_split (tok : Str) (mid : List Str) (pg : Str) (hm : mid ≠ []) :
    joinWith [' '] (tok :: (mid ++ [pg])) = tok ++ ' ' :: (joinWith [' '] mid ++ ' ' :: pg) := by
  rcases mid with _ | ⟨m, rest⟩
  · exact absurd rfl hm
  rw [show (tok :: ((m :: rest) ++ [pg]) : List Str) = tok :: m :: (rest ++ [pg]) from rfl,
    joinWith_cons₂, show (m :: (rest ++ [pg]) : List Str) = (m :: rest) ++ [pg] from rfl,
    joinWith_tail_split (m :: rest) pg (by simp)]
  simp

/-- C5: for every valid decimal entry line `N.M title LEADER PAGE`, under
any of the four leader styles, the Entry Matcher recovers the number
token `N.M`, depth 2, and the page value exactly. -/
theorem entry_matcher_decimal_exact (dN dM : Str) (ws : List Str)
    (ld : LeaderStyle) (pg : Str)
    (hN : dN ≠ []) (hNc : ∀ c ∈ dN, isDigitC c = true)
    (hM : dM ≠ []) (hMc : ∀ c ∈ dM, isDigitC c = true)
    (hwsne : ws ≠ [])
    (hws : ∀ w ∈ ws, w ≠ [] ∧ ∀ c ∈ w, isAlphaC c = true)
    (hpg : pg ≠ []) (hpgc : ∀ c ∈ pg, isDigitC c = true) :
    ∃ t, matchToC (normalizeDotLeaders (mkDecimalLine dN dM ws ld pg)) =
      some ⟨dN ++ '.' :: dM, t, (digitsVal pg : Int), 2⟩ := by
  have hmidws : ∀ w ∈ ws, w ≠ [] ∧ ∀ c ∈ w, reSpace c = false :=
    fun w hw => ⟨(hws w hw).1, fun c hc => alpha_not_reSpace c ((hws w hw).2 c hc)⟩
  cases ld with
  | bullet =>
    rw [norm_bullet dN dM ws pg hN hNc hM hMc hwsne hws hpg hpgc,
      joinWith_split _ ws pg hwsne]
    exact ⟨_, matchToC_decimal_canonical dN dM ws pg hN hNc hM hMc hwsne hmidws hpg hpgc⟩
  | middot =>
    rw [norm_middot dN dM ws pg hN hNc hM hMc hwsne hws hpg hpgc,
      joinWith_split _ ws pg hwsne]
    exact ⟨_, matchToC_decimal_canonical dN dM ws pg hN hNc hM hMc hwsne hmidws hpg hpgc⟩
  | ellipsis =>
    rw [norm_ellipsis dN dM ws pg hN hNc hM hMc hwsne hws hpg hpgc,
      show (ws ++ [['.', '.', '.'], pg] : List Str) = (ws ++ [['.', '.', '.']]) ++ [pg] from by
        simp,
      joinWith_split _ (ws ++ [['.', '.', '.']]) pg (by simp)]
    refine ⟨_, matchToC_decimal_canonical dN dM (ws ++ [['.', '.', '.']]) pg hN hNc hM hMc
      (by simp) ?_ hpg hpgc⟩
    intro w hw
    rcases List.mem_append.mp hw with hw | hw
    · exact hmidws w hw
    · simp at hw
      subst hw
      exact ⟨by simp, by decide⟩
  | dotRun k =>
    rw [norm_dotrun k dN dM ws pg hN hNc hM hMc hwsne hws hpg hpgc,
      joinWith_split _ (ws ++ (if k % 106 = 0 then [] else [dots (k % 106)])) pg (by
        rcases ws with _ | ⟨w0, ws2⟩
        · exact absurd rfl hwsne
        · simp)]
    refine ⟨_, matchToC_decimal_canonical dN dM
      (ws ++ (if k % 106 = 0 then [] else [dots (k % 106)])) pg hN hNc hM hMc
      (by
        rcases ws with _ | ⟨w0, ws2⟩
        · exact absurd rfl hwsne
        · simp) ?_ hpg hpgc⟩
    intro w hw
    rcases List.mem_append.mp hw with hw | hw
    · exact hmidws w hw
    · rcases Nat.eq_zero_or_pos (k % 106) with hk | hk
      · rw [if_pos hk] at hw
        simp at hw
      · rw [if_neg (by omega)] at hw
        simp at hw
        subst hw
        refine ⟨by
          rw [show dots (k % 106) = List.replicate (k % 106) '.' from rfl]
          simp only [ne_eq, List.replicate_eq_nil_iff]
          omega, ?_⟩
        intro c hc
        rw [mem_dots c _ hc]
        decide

theorem entry_matcher_decimal_exact_witness :
    ∃ t, matchToC (normalizeDotLeaders
        (mkDecimalLine ['1'] ['2'] [['I', 'n', 't', 'r', 'o']] (.dotRun 110) ['4', '2'])) =
      some ⟨['1', '.', '2'], t, (digitsVal ['4', '2'] : Int), 2⟩ :=
  entry_matcher_decimal_exact ['1'] ['2'] [['I', 'n', 't', 'r', 'o']] (.dotRun 110) ['4', '2']
    (by decide) (by decide) (by decide) (by decide) (by decide) (by decide) (by decide) (by decide)

theorem upper_not_reSpace (c : Char) (h : isUpperC c = true) : reSpace c = false := by
  simp only [isUpperC, Bool.and_eq_true, decide_eq_true_eq] at h
  simp only [reSpace, Bool.or_eq_false_iff, decide_eq_false_iff_not]
  omega

/-- Greedy `(?:\.\d+)*` over the canonical dotted digit groups stops at
the following space. -/
theorem numSegsGo_groups : ∀ (groups : List Str) (rest : Str),
    (∀ g ∈ groups, g ≠ [] ∧ ∀ c ∈ g, isDigitC c = true) →
    numSegsGo ((groups.map fun g => '.' :: g).flatten ++ ' ' :: rest) =
      ((groups.map fun g => '.' :: g).flatten, ' ' :: rest)
  | [], rest, _ => by
    simp only [List.map_nil, List.flatten_nil, List.nil_append]
    rw [numSegsGo]
    intro r hr
    simp at hr
  | g :: gs, rest, hg => by
    have hgne : g ≠ [] := (hg g (by simp)).1
    have hgd : ∀ c ∈ g, isDigitC c = true := (hg g (by simp)).2
    have hX : (gs.map fun g2 => '.' :: g2).flatten ++ ' ' :: rest = [] ∨
        ∃ c t, (gs.map fun g2 => '.' :: g2).flatten ++ ' ' :: rest = c :: t ∧
          isDigitC c = false := by
      rcases gs with _ | ⟨g2, gs2⟩
      · exact Or.inr ⟨' ', rest, by simp, by decide⟩
      · exact Or.inr ⟨'.', g2 ++ ((gs2.map fun g3 => '.' :: g3).flatten ++ ' ' :: rest),
          by simp, by decide⟩
    have ht := takeWhile_digits_of g ((gs.map fun g2 => '.' :: g2).flatten ++ ' ' :: rest)
      hgd hX
    rw [show ((g :: gs).map fun g2 => '.' :: g2).flatten ++ ' ' :: rest =
      '.' :: (g ++ ((gs.map fun g2 => '.' :: g2).flatten ++ ' ' :: rest)) from by simp]
    rw [numSegsGo]
    simp only [ht.1, ht.2]
    rcases g with _ | ⟨g0, gtl⟩
    · exact absurd rfl hgne
    simp only [List.isEmpty_cons]
    rw [numSegsGo_groups gs rest (fun g2 hg2 => hg g2 (by simp [hg2]))]
    simp

/-- The alpha token parser on the canonical appendix token. -/
theorem alphaToken_tok (L : Char) (groups : List Str) (rest : Str)
    (hL : isUpperC L = true)
    (hg : ∀ g ∈ groups, g ≠ [] ∧ ∀ c ∈ g, isDigitC c = true) :
    alphaToken (appendixTok L groups ++ ' ' :: rest) =
      some (appendixTok L groups, ' ' :: rest) := by
  rw [show appendixTok L groups ++ ' ' :: rest =
    L :: ((groups.map fun g => '.' :: g).flatten ++ ' ' :: rest) from by
      rw [appendixTok]; simp]
  rw [alphaToken]
  simp only [hL, if_true]
  rw [numSegsGo_groups groups rest hg]
  rw [appendixTok]

/-- `tocAppendixRe` on a canonical appendix line: the keyword is
consumed, the captured number token excludes it. -/
theorem tocAppendixFind_canonical (L : Char) (groups : List Str) (ws : List Str) (pg : Str)
    (hL : isUpperC L = true)
    (hg : ∀ g ∈ groups, g ≠ [] ∧ ∀ c ∈ g, isDigitC c = true)
    (hm : ws ≠ [])
    (hws : ∀ w ∈ ws, w ≠ [] ∧ ∀ c ∈ w, reSpace c = false)
    (hpg : pg ≠ []) (hpgc : ∀ c ∈ pg, isDigitC c = true) :
    tocAppendixFind (mkAppendixLine L groups ws pg) =
      some (appendixTok L groups, joinWith [' '] ws, pg) := by
  have hn : mkAppendixLine L groups ws pg =
      'A' :: 'p' :: 'p' :: 'e' :: 'n' :: 'd' :: 'i' :: 'x' ::
        (' ' :: (appendixTok L groups ++ (' ' :: (joinWith [' '] ws ++ ' ' :: pg)))) := by
    rw [mkAppendixLine, show str "Appendix " =
      ['A', 'p', 'p', 'e', 'n', 'd', 'i', 'x', ' '] from rfl]
    simp
  have hdw : (mkAppendixLine L groups ws pg).dropWhile reSpace =
      mkAppendixLine L groups ws pg := by
    rw [hn]
    exact dropWhile_stops_first reSpace 'A' _ (by decide)
  have hlow : leadsWith kwAppendixLower (mkAppendixLine L groups ws pg) = true := by
    rw [hn, show kwAppendixLower = ['A', 'p', 'p', 'e', 'n', 'd', 'i', 'x'] from rfl,
      show ('A' :: 'p' :: 'p' :: 'e' :: 'n' :: 'd' :: 'i' :: 'x' ::
        (' ' :: (appendixTok L groups ++ (' ' :: (joinWith [' '] ws ++ ' ' :: pg)))) : Str) =
        ['A', 'p', 'p', 'e', 'n', 'd', 'i', 'x'] ++
        (' ' :: (appendixTok L groups ++ (' ' :: (joinWith [' '] ws ++ ' ' :: pg)))) from by
        simp]
    exact leadsWith_self_append _ _
  have hdrop : (mkAppendixLine L groups ws pg).drop 8 =
      ' ' :: (appendixTok L groups ++ (' ' :: (joinWith [' '] ws ++ ' ' :: pg))) := by
    rw [hn]
    rfl
  rw [tocAppendixFind]
  simp only [hdw, hlow, if_true, hdrop]
  have htw : ((' ' :: (appendixTok L groups ++ (' ' :: (joinWith [' '] ws ++ ' ' :: pg)))
      : Str).takeWhile reSpace).isEmpty = false := by
    rw [List.takeWhile_cons_of_pos (by decide)]
    simp
  rw [htw]
  simp only [Bool.false_eq_true, if_false]
  have hdw2 : (' ' :: (appendixTok L groups ++ (' ' :: (joinWith [' '] ws ++ ' ' :: pg)))
      : Str).dropWhile reSpace =
      appendixTok L groups ++ (' ' :: (joinWith [' '] ws ++ ' ' :: pg)) := by
    rw [List.dropWhile_cons_of_pos (by decide)]
    rw [show appendixTok L groups ++ (' ' :: (joinWith [' '] ws ++ ' ' :: pg)) =
      L :: ((groups.map fun g => '.' :: g).flatten ++ (' ' :: (joinWith [' '] ws ++ ' ' :: pg)))
      from by rw [appendixTok]; simp]
    exact dropWhile_stops_first reSpace L _ (upper_not_reSpace L hL)
  rw [hdw2]
  rw [show appendixTok L groups ++ (' ' :: (joinWith [' '] ws ++ ' ' :: pg)) =
    appendixTok L groups ++ ' ' :: (joinWith [' '] ws ++ ' ' :: pg) from rfl,
    alphaToken_tok L groups _ hL hg]
  simp only [matchTail_tokens ws pg hm hws hpg hpgc]

/-- The bare alphabetic pattern fails on an appendix line: after
capturing the `A` of `Appendix`, the mandatory space run is missing. -/
theorem tocAlphaFind_appendix_none (L : Char) (groups : List Str) (ws : List Str) (pg : Str) :
    tocAlphaFind (mkAppendixLine L groups ws pg) = none := by
  have hn : mkAppendixLine L groups ws pg =
      'A' :: 'p' :: 'p' :: 'e' :: 'n' :: 'd' :: 'i' :: 'x' ::
        (' ' :: (appendixTok L groups ++ (' ' :: (joinWith [' '] ws ++ ' ' :: pg)))) := by
    rw [mkAppendixLine, show str "Appendix " =
      ['A', 'p', 'p', 'e', 'n', 'd', 'i', 'x', ' '] from rfl]
    simp
  rw [tocAlphaFind, hn]
  rw [dropWhile_stops_first reSpace 'A' _ (by decide)]
  rw [alphaToken]
  simp only [show isUpperC 'A' = true from by decide, if_true]
  rw [show numSegsGo ('p' :: 'p' :: 'e' :: 'n' :: 'd' :: 'i' :: 'x' ::
      (' ' :: (appendixTok L groups ++ (' ' :: (joinWith [' '] ws ++ ' ' :: pg))))) =
      ([], 'p' :: 'p' :: 'e' :: 'n' :: 'd' :: 'i' :: 'x' ::
      (' ' :: (appendixTok L groups ++ (' ' :: (joinWith [' '] ws ++ ' ' :: pg))))) from by
    rw [numSegsGo]
    intro r hr
    simp at hr]
  rw [matchTail, List.takeWhile_cons_of_neg (by decide)]
  rw [show (([] : Str).length) = 0 from rfl, matchTailK]

/-- Each dotted digit group contributes exactly one dot to the token. -/
theorem countChar_appendixTok (L : Char) (groups : List Str)
    (hL : isUpperC L = true)
    (hg : ∀ g ∈ groups, g ≠ [] ∧ ∀ c ∈ g, isDigitC c = true) :
    countChar '.' (appendixTok L groups) = groups.length := by
  rw [appendixTok, countChar]
  rw [List.filter_cons_of_neg (by
    simp only [beq_iff_eq]
    intro h
    rw [h] at hL
    exact absurd hL (by decide))]
  induction groups with
  | nil => rfl
  | cons g gs ih =>
    rw [List.map_cons, List.flatten_cons, List.filter_append, List.length_append]
    rw [List.filter_cons_of_pos (by simp)]
    rw [List.filter_eq_nil_iff.mpr (fun c hc => by
      simp only [beq_iff_eq]
      exact digit_ne_dot c ((hg g (by simp)).2 c hc))]
    rw [ih (fun g2 hg2 => hg g2 (by simp [hg2]))]
    simp only [List.length_cons, List.length_nil]
    omega

/-- C6: an `Appendix L title P` line classifies via the appendix
pattern, which is attempted first; the returned number token is the bare
letter token without the word `Appendix`, and the bare alphabetic
pattern never fires on such a line. -/
theorem matchToC_appendix_precedence (L : Char) (groups : List Str) (ws : List Str) (pg : Str)
    (hL : isUpperC L = true)
    (hg : ∀ g ∈ groups, g ≠ [] ∧ ∀ c ∈ g, isDigitC c = true)
    (hm : ws ≠ [])
    (hws : ∀ w ∈ ws, w ≠ [] ∧ ∀ c ∈ w, reSpace c = false)
    (hpg : pg ≠ []) (hpgc : ∀ c ∈ pg, isDigitC c = true) :
    tocAppendixFind (mkAppendixLine L groups ws pg) =
      some (appendixTok L groups, joinWith [' '] ws, pg) ∧
    tocAlphaFind (mkAppendixLine L groups ws pg) = none ∧
    matchToC (mkAppendixLine L groups ws pg) =
      some ⟨appendixTok L groups, trimSpace (joinWith [' '] ws),
        (digitsVal pg : Int), (groups.length : Int) + 1⟩ := by
  refine ⟨tocAppendixFind_canonical L groups ws pg hL hg hm hws hpg hpgc,
    tocAlphaFind_appendix_none L groups ws pg, ?_⟩
  rw [matchToC, tocAppendixFind_canonical L groups ws pg hL hg hm hws hpg hpgc]
  simp only [countChar_appendixTok L groups hL hg]

theorem matchToC_appendix_precedence_witness :
    tocAppendixFind (mkAppendixLine 'B' [['3']] [['G', 'l', 'o', 's', 's', 'a', 'r', 'y']]
        ['1', '2']) =
      some (appendixTok 'B' [['3']], joinWith [' '] [['G', 'l', 'o', 's', 's', 'a', 'r', 'y']],
        ['1', '2']) ∧
    tocAlphaFind (mkAppendixLine 'B' [['3']] [['G', 'l', 'o', 's', 's', 'a', 'r', 'y']]
        ['1', '2']) = none ∧
    matchToC (mkAppendixLine 'B' [['3']] [['G', 'l', 'o', 's', 's', 'a', 'r', 'y']]
        ['1', '2']) =
      some ⟨appendixTok 'B' [['3']],
        trimSpace (joinWith [' '] [['G', 'l', 'o', 's', 's', 'a', 'r', 'y']]),
        (digitsVal ['1', '2'] : Int), ((1 : Nat) : Int) + 1⟩ :=
  matchToC_appendix_precedence 'B' [['3']] [['G', 'l', 'o', 's', 's', 'a', 'r', 'y']] ['1', '2']
    (by decide) (by decide) (by decide) (by decide) (by decide) (by decide)

/-- Characters of a replacement result come from the input or from the
replacement text. -/
theorem mem_replaceAllNE (c : Char) : ∀ (n : Nat) (s : Str), s.length ≤ n →
    ∀ (o : Char) (os new : Str), c ∈ replaceAllNE s o os new → c ∈ s ∨ c ∈ new := by
  intro n
  induction n with
  | zero =>
    intro s hs o os new hc
    rcases s with _ | ⟨a, t⟩
    · rw [replaceAllNE] at hc
      simp at hc
    · simp at hs
  | succ n ih =>
    intro s hs o os new hc
    rcases s with _ | ⟨a, t⟩
    · rw [replaceAllNE] at hc
      simp at hc
    rw [replaceAllNE] at hc
    by_cases hl : leadsWith (o :: os) (a :: t) = true
    · rw [if_pos hl] at hc
      rcases List.mem_append.mp hc with hc | hc
      · exact Or.inr hc
      · rcases ih ((a :: t).drop (o :: os).length) (by
            simp only [List.length_drop, List.length_cons] at *
            omega) o os new hc with h | h
        · exact Or.inl (List.mem_of_mem_drop h)
        · exact Or.inr h
    · rw [if_neg hl] at hc
      rcases List.mem_cons.mp hc with rfl | hc
      · exact Or.inl (by simp)
      · rcases ih t (by simp at hs; omega) o os new hc with h | h
        · exact Or.inl (by simp [h])
        · exact Or.inr h

/-- Replacing a single character removes it when the replacement text
avoids it. -/
theorem not_mem_replaceAllNE_single (x : Char) (new : Str) (hx : x ∉ new) :
    ∀ (n : Nat) (s : Str), s.length ≤ n → x ∉ replaceAllNE s x [] new := by
  intro n
  induction n with
  | zero =>
    intro s hs hc
    rcases s with _ | ⟨a, t⟩
    · rw [replaceAllNE] at hc
      simp at hc
    · simp at hs
  | succ n ih =>
    intro s hs hc
    rcases s with _ | ⟨a, t⟩
    · rw [replaceAllNE] at hc
      simp at hc
    rw [replaceAllNE] at hc
    by_cases hl : leadsWith [x] (a :: t) = true
    · rw [if_pos hl] at hc
      rcases List.mem_append.mp hc with hc | hc
      · exact hx hc
      · exact ih ((a :: t).drop 1) (by simp at hs ⊢; omega) hc
    · rw [if_neg hl] at hc
      rcases List.mem_cons.mp hc with hq | hc
      · rw [leadsWith] at hl
        simp only [Bool.and_eq_true, beq_iff_eq] at hl
        exact hl ⟨hq, rfl⟩
      · exact ih t (by simp at hs; omega) hc

/-- Every field is a nonempty run of non-whitespace characters of the
input. -/
theorem fields_chars : ∀ (n : Nat) (s : Str), s.length ≤ n →
    ∀ w ∈ fields s, w ≠ [] ∧ ∀ c ∈ w, goSpace c = false ∧ c ∈ s := by
  intro n
  induction n with
  | zero =>
    intro s hs w hw
    rcases s with _ | ⟨a, t⟩
    · rw [fields] at hw
      simp at hw
    · simp at hs
  | succ n ih =>
    intro s hs w hw
    rcases s with _ | ⟨a, t⟩
    · rw [fields] at hw
      simp at hw
    rw [fields] at hw
    by_cases ha : goSpace a = true
    · rw [if_pos ha] at hw
      have := ih t (by simp at hs; omega) w hw
      exact ⟨this.1, fun c hc => ⟨(this.2 c hc).1, by simp [(this.2 c hc).2]⟩⟩
    · rw [if_neg ha] at hw
      rcases List.mem_cons.mp hw with rfl | hw
      · refine ⟨by simp, ?_⟩
        intro c hc
        rcases List.mem_cons.mp hc with rfl | hc
        · exact ⟨by simpa using ha, by simp⟩
        · have hp := List.mem_takeWhile_imp hc
          refine ⟨by simpa using hp, ?_⟩
          have : c ∈ t := (List.takeWhile_prefix _).subset hc
          simp [this]
      · have hlen : (t.dropWhile fun d => !goSpace d).length ≤ n := by
          have := dropWhile_length_le (fun d => !goSpace d) t
          simp at hs
          omega
        have := ih _ hlen w hw
        refine ⟨this.1, fun c hc => ⟨(this.2 c hc).1, ?_⟩⟩
        have : c ∈ t := (List.dropWhile_suffix _).subset (this.2 c hc).2
        simp [this]

/-- Space-joined nonempty non-space words never hold two adjacent
spaces. -/
theorem cs_dsp_join : ∀ (ws : List Str),
    (∀ w ∈ ws, w ≠ [] ∧ ∀ c ∈ w, goSpace c = false) →
    containsSeq (joinWith [' '] ws) [' ', ' '] = false
  | [], _ => rfl
  | [w], hws => by
    rw [joinWith_one, show w = w ++ [] from by simp,
      containsSeq_seg_skip w [] ' ' [' '] (fun c hc => by
        intro h
        have := (hws w (by simp)).2 c (by simpa using hc)
        rw [h] at this
        exact absurd this (by decide))]
    rfl
  | w :: w2 :: ws2, hws => by
    rw [joinWith_cons₂]
    obtain ⟨b0, t0, hbt⟩ : ∃ b0 t0, joinWith [' '] (w2 :: ws2) = b0 :: t0 ∧
        goSpace b0 = false := by
      obtain ⟨a0, w22, hw20⟩ : ∃ a0 w22, w2 = a0 :: w22 := by
        rcases w2 with _ | ⟨a0, w22⟩
        · exact absurd rfl (hws [] (by simp)).1
        · exact ⟨a0, w22, rfl⟩
      have ha0 : goSpace a0 = false := (hws w2 (by simp)).2 a0 (by rw [hw20]; simp)
      rcases ws2 with _ | ⟨w3, ws3⟩
      · rw [joinWith_one, hw20]
        exact ⟨a0, w22, rfl, ha0⟩
      · rw [joinWith_cons₂, hw20]
        exact ⟨a0, w22 ++ [' '] ++ joinWith [' '] (w3 :: ws3), by simp, ha0⟩
    rcases hbt with ⟨hbt, hb0⟩
    rw [show w ++ [' '] ++ joinWith [' '] (w2 :: ws2) =
      w ++ (' ' :: joinWith [' '] (w2 :: ws2)) from by simp]
    rw [containsSeq_seg_skip w _ ' ' [' '] (fun c hc => by
      intro h
      have := (hws w (by simp)).2 c hc
      rw [h] at this
      exact absurd this (by decide))]
    rw [containsSeq_cons_skip ' ' _ _ (by
      rw [hbt, leadsWith]
      simp only [beq_self_eq_true, Bool.true_and]
      refine leadsWith_head_ne ' ' b0 [] t0 ?_
      intro h
      rw [← h] at hb0
      exact absurd hb0 (by decide))]
    exact cs_dsp_join (w2 :: ws2) (fun y hy => hws y (by simp [hy]))


/-- A string with non-space endpoints is its own trim. -/
theorem trimSpace_of_ends (s : Str)
    (hh : ∃ a t, s = a :: t ∧ goSpace a = false)
    (hl : ∃ i z, s = i ++ [z] ∧ goSpace z = false) : trimSpace s = s := by
  rcases hh with ⟨a, t, rfl, ha⟩
  rcases hl with ⟨i, z, hiz, hz⟩
  rw [trimSpace, dropWhile_stops_first goSpace a t ha]
  rw [hiz, show (i ++ [z] : Str).reverse = z :: i.reverse from by simp]
  rw [dropWhile_stops_first goSpace z _ hz]
  simp

/-- Space-joined nonempty non-space words start with a non-space
character. -/
theorem joinWith_head : ∀ (ws : List Str), ws ≠ [] →
    (∀ w ∈ ws, w ≠ [] ∧ ∀ c ∈ w, goSpace c = false) →
    ∃ a t, joinWith [' '] ws = a :: t ∧ goSpace a = false
  | [], h, _ => absurd rfl h
  | [w], _, hws => by
    obtain ⟨a0, w2, hw⟩ : ∃ a0 w2, w = a0 :: w2 := by
      rcases w with _ | ⟨a0, w2⟩
      · exact absurd rfl (hws [] (by simp)).1
      · exact ⟨a0, w2, rfl⟩
    exact ⟨a0, w2, by rw [joinWith_one, hw], (hws w (by simp)).2 a0 (by rw [hw]; simp)⟩
  | w :: w2 :: ws2, _, hws => by
    obtain ⟨a0, w02, hw0⟩ : ∃ a0 w02, w = a0 :: w02 := by
      rcases w with _ | ⟨a0, w02⟩
      · exact absurd rfl (hws [] (by simp)).1
      · exact ⟨a0, w02, rfl⟩
    exact ⟨a0, w02 ++ ' ' :: joinWith [' '] (w2 :: ws2),
      by rw [joinWith_cons₂, hw0]; simp,
      (hws w (by simp)).2 a0 (by rw [hw0]; simp)⟩

/-- Space-joined nonempty non-space words end with a non-space
character. -/
theorem joinWith_last : ∀ (ws : List Str), ws ≠ [] →
    (∀ w ∈ ws, w ≠ [] ∧ ∀ c ∈ w, goSpace c = false) →
    ∃ i z, joinWith [' '] ws = i ++ [z] ∧ goSpace z = false
  | [], h, _ => absurd rfl h
  | [w], _, hws => by
    rcases w.eq_nil_or_concat with rfl | ⟨i, z, rfl⟩
    · exact absurd rfl (hws [] (by simp)).1
    · exact ⟨i, z, by rw [joinWith_one]; simp, (hws (i.concat z) (by simp)).2 z (by simp)⟩
  | w :: w2 :: ws2, _, hws => by
    rcases joinWith_last (w2 :: ws2) (by simp) (fun y hy => hws y (by simp [hy])) with
      ⟨i, z, hj, hz⟩
    exact ⟨w ++ ' ' :: i, z, by rw [joinWith_cons₂, hj]; simp, hz⟩

/-- C7 (amended): the Line Normalizer removes every bullet, middle-dot
and ellipsis glyph, collapses all whitespace to single plain spaces, and
trims both ends. -/
theorem normalizeDotLeaders_output_clean (s : Str) :
    '•' ∉ normalizeDotLeaders s ∧ '·' ∉ normalizeDotLeaders s ∧
    '…' ∉ normalizeDotLeaders s ∧
    containsSeq (normalizeDotLeaders s) [' ', ' '] = false ∧
    trimSpace (normalizeDotLeaders s) = normalizeDotLeaders s ∧
    (∀ c ∈ normalizeDotLeaders s, goSpace c = true → c = ' ') := by
  rw [normalizeDotLeaders, dots106_eq, sp7_eq]
  simp only [replaceAll_cons]
  set s1 := replaceAllNE s '•' [] [' '] with hs1
  set s2 := replaceAllNE s1 '·' [] [' '] with hs2
  set s3 := replaceAllNE s2 '…' [] [' ', '.', '.', '.', ' '] with hs3
  set s4 := replaceAllNE s3 '·' [] [' '] with hs4
  set s5 := replaceAllNE s4 '…' [] [' ', '.', '.', '.', ' '] with hs5
  set s6 := replaceAllNE s5 '.' (dots 105) [' '] with hs6
  set s7 := replaceAllNE s6 ' ' ['.', ' ', '.', ' ', '.', ' '] [' '] with hs7
  have hm7 : ∀ c, c ∈ s7 → c ∈ s6 ∨ c = ' ' := by
    intro c hc
    rcases mem_replaceAllNE c s6.length s6 le_rfl ' ' _ _ (hs7 ▸ hc) with h | h
    · exact Or.inl h
    · simp at h
      exact Or.inr h
  have hm6 : ∀ c, c ∈ s6 → c ∈ s5 ∨ c = ' ' := by
    intro c hc
    rcases mem_replaceAllNE c s5.length s5 le_rfl '.' _ _ (hs6 ▸ hc) with h | h
    · exact Or.inl h
    · simp at h
      exact Or.inr h
  have hm5 : ∀ c, c ∈ s5 → c ∈ s4 ∨ c = ' ' ∨ c = '.' := by
    intro c hc
    rcases mem_replaceAllNE c s4.length s4 le_rfl '…' _ _ (hs5 ▸ hc) with h | h
    · exact Or.inl h
    · simp at h
      rcases h with h | h | h
      · exact Or.inr (Or.inl h)
      · exact Or.inr (Or.inr h)
      · exact Or.inr (Or.inl h)
  have hm4 : ∀ c, c ∈ s4 → c ∈ s3 ∨ c = ' ' := by
    intro c hc
    rcases mem_replaceAllNE c s3.length s3 le_rfl '·' _ _ (hs4 ▸ hc) with h | h
    · exact Or.inl h
    · simp at h
      exact Or.inr h
  have hm3 : ∀ c, c ∈ s3 → c ∈ s2 ∨ c = ' ' ∨ c = '.' := by
    intro c hc
    rcases mem_replaceAllNE c s2.length s2 le_rfl '…' _ _ (hs3 ▸ hc) with h | h
    · exact Or.inl h
    · simp at h
      rcases h with h | h | h
      · exact Or.inr (Or.inl h)
      · exact Or.inr (Or.inr h)
      · exact Or.inr (Or.inl h)
  have hm2 : ∀ c, c ∈ s2 → c ∈ s1 ∨ c = ' ' := by
    intro c hc
    rcases mem_replaceAllNE c s1.length s1 le_rfl '·' _ _ (hs2 ▸ hc) with h | h
    · exact Or.inl h
    · simp at h
      exact Or.inr h
  have hbul : '•' ∉ s7 := by
    intro hc
    have h1 : '•' ∉ s1 := not_mem_replaceAllNE_single '•' [' '] (by decide) s.length s le_rfl
    rcases hm7 '•' hc with hc | hc
    on_goal 2 => exact absurd hc (by decide)
    rcases hm6 '•' hc with hc | hc
    on_goal 2 => exact absurd hc (by decide)
    rcases hm5 '•' hc with hc | hc | hc
    on_goal 2 => exact absurd hc (by decide)
    on_goal 2 => exact absurd hc (by decide)
    rcases hm4 '•' hc with hc | hc
    on_goal 2 => exact absurd hc (by decide)
    rcases hm3 '•' hc with hc | hc | hc
    on_goal 2 => exact absurd hc (by decide)
    on_goal 2 => exact absurd hc (by decide)
    rcases hm2 '•' hc with hc | hc
    on_goal 2 => exact absurd hc (by decide)
    exact h1 hc
  have hmid : '·' ∉ s7 := by
    intro hc
    have h4 : '·' ∉ s4 := not_mem_replaceAllNE_single '·' [' '] (by decide) s3.length s3 le_rfl
    rcases hm7 '·' hc with hc | hc
    on_goal 2 => exact absurd hc (by decide)
    rcases hm6 '·' hc with hc | hc
    on_goal 2 => exact absurd hc (by decide)
    rcases hm5 '·' hc with hc | hc | hc
    on_goal 2 => exact absurd hc (by decide)
    on_goal 2 => exact absurd hc (by decide)
    exact h4 (hs4 ▸ hc)
  have hell : '…' ∉ s7 := by
    intro hc
    have h5 : '…' ∉ s5 :=
      not_mem_replaceAllNE_single '…' [' ', '.', '.', '.', ' '] (by decide) s4.length s4 le_rfl
    rcases hm7 '…' hc with hc | hc
    on_goal 2 => exact absurd hc (by decide)
    rcases hm6 '…' hc with hc | hc
    on_goal 2 => exact absurd hc (by decide)
    exact h5 (hs5 ▸ hc)
  have hF := fields_chars s7.length s7 le_rfl
  have hws' : ∀ w ∈ fields s7, w ≠ [] ∧ ∀ c ∈ w, goSpace c = false :=
    fun w hw => ⟨(hF w hw).1, fun c hc => ((hF w hw).2 c hc).1⟩
  have hmemr : ∀ c, c ∈ joinWith [' '] (fields s7) → c = ' ' ∨ c ∈ s7 := by
    intro c hc
    rcases mem_joinWith_sp (fields s7) c hc with h | ⟨w, hw, hcw⟩
    · exact Or.inl h
    · exact Or.inr ((hF w hw).2 c hcw).2
  refine ⟨?_, ?_, ?_, cs_dsp_join (fields s7) hws', ?_, ?_⟩
  · intro hc
    rcases hmemr '•' hc with h | h
    · exact absurd h (by decide)
    · exact hbul h
  · intro hc
    rcases hmemr '·' hc with h | h
    · exact absurd h (by decide)
    · exact hmid h
  · intro hc
    rcases hmemr '…' hc with h | h
    · exact absurd h (by decide)
    · exact hell h
  · rcases hFs : fields s7 with _ | ⟨w, ws2⟩
    · rfl
    · rw [← hFs]
      exact trimSpace_of_ends _
        (joinWith_head (fields s7) (by rw [hFs]; simp) hws')
        (joinWith_last (fields s7) (by rw [hFs]; simp) hws')
  · intro c hc hg
    rcases mem_joinWith_sp (fields s7) c hc with h | ⟨w, hw, hcw⟩
    · exact h
    · have := ((hF w hw).2 c hcw).1
      rw [hg] at this
      exact absurd this (by decide)

/-- C7 is refuted on a 105-dot leader: the normalizer only knows the
exact 106-dot literal, so the whole run survives into the output. -/
theorem normalizeDotLeaders_dotrun_counterexample :
    ∃ r, normalizeDotLeaders
        (mkDecimalLine ['1'] ['2'] [['I', 'n', 't', 'r', 'o']] (.dotRun 105) ['4']) = r ∧
      containsSeq r (dots 105) = true := by
  refine ⟨_, norm_dotrun 105 ['1'] ['2'] [['I', 'n', 't', 'r', 'o']] ['4']
    (by decide) (by decide) (by decide) (by decide) (by decide) (by decide)
    (by decide) (by decide), ?_⟩
  decide

/-!
## Fuel-indexed evaluation twins

The recursive scanners above are defined by well-founded recursion, so
their applications to closed inputs are best evaluated through
structurally recursive twins indexed by a fuel bound, proved equal to
the originals whenever the fuel covers the input.
-/

/-- Fuel-indexed `replaceAllNE`. -/
def replaceAllNEF : Nat → Str → Char → Str → Str → Str
  | _, [], _, _, _ => []
  | 0, s, _, _, _ => s
  | n + 1, c :: t, o, os, new =>
    if leadsWith (o :: os) (c :: t) then
      new ++ replaceAllNEF n ((c :: t).drop (o :: os).length) o os new
    else c :: replaceAllNEF n t o os new

theorem replaceAllNE_eq_fuel : ∀ (n : Nat) (s : Str) (o : Char) (os new : Str),
    s.length ≤ n → replaceAllNE s o os new = replaceAllNEF n s o os new := by
  intro n
  induction n with
  | zero =>
    intro s o os new hs
    rcases s with _ | ⟨c, t⟩
    · rw [replaceAllNE, replaceAllNEF]
    · simp at hs
  | succ n ih =>
    intro s o os new hs
    rcases s with _ | ⟨c, t⟩
    · rw [replaceAllNE, replaceAllNEF]
    rw [replaceAllNE, replaceAllNEF]
    by_cases hl : leadsWith (o :: os) (c :: t) = true
    · rw [if_pos hl, if_pos hl, ih _ o os new (by
        simp only [List.length_drop, List.length_cons] at *
        omega)]
    · rw [if_neg hl, if_neg hl, ih t o os new (by simp at hs; omega)]

/-- Fuel-indexed `fields`. -/
def fieldsF : Nat → Str → List Str
  | _, [] => []
  | 0, s => [s]
  | n + 1, c :: t =>
    if goSpace c then fieldsF n t
    else (c :: t.takeWhile (fun d => !goSpace d)) :: fieldsF n (t.dropWhile (fun d => !goSpace d))

theorem fields_eq_fuel : ∀ (n : Nat) (s : Str), s.length ≤ n →
    fields s = fieldsF n s := by
  intro n
  induction n with
  | zero =>
    intro s hs
    rcases s with _ | ⟨c, t⟩
    · rw [fields, fieldsF]
    · simp at hs
  | succ n ih =>
    intro s hs
    rcases s with _ | ⟨c, t⟩
    · rw [fields, fieldsF]
    rw [fields, fieldsF]
    by_cases hc : goSpace c = true
    · rw [if_pos hc, if_pos hc, ih t (by simp at hs; omega)]
    · rw [if_neg hc, if_neg hc, ih (t.dropWhile (fun d => !goSpace d)) (by
        have := dropWhile_length_le (fun d => !goSpace d) t
        simp at hs
        omega)]

/-- Fuel-indexed `splitRuns`. -/
def splitRunsF : Nat → Str → List Str
  | _, [] => [[]]
  | 0, s => [s]
  | n + 1, c :: t =>
    if reSpace c && !(t.takeWhile reSpace).isEmpty then
      [] :: splitRunsF n (t.dropWhile reSpace)
    else
      match splitRunsF n t with
      | [] => [[c]]
      | w :: ws => (c :: w) :: ws

theorem splitRuns_eq_fuel : ∀ (n : Nat) (s : Str), s.length ≤ n →
    splitRuns s = splitRunsF n s := by
  intro n
  induction n with
  | zero =>
    intro s hs
    rcases s with _ | ⟨c, t⟩
    · rw [splitRuns, splitRunsF]
    · simp at hs
  | succ n ih =>
    intro s hs
    rcases s with _ | ⟨c, t⟩
    · rw [splitRuns, splitRunsF]
    rw [splitRuns, splitRunsF]
    by_cases hc : (reSpace c && !(t.takeWhile reSpace).isEmpty) = true
    · rw [if_pos hc, if_pos hc, ih (t.dropWhile reSpace) (by
        have := dropWhile_length_le reSpace t
        simp at hs
        omega)]
    · rw [if_neg hc, if_neg hc, ih t (by simp at hs; omega)]

/-- Fuel-indexed normalizer pipeline. -/
def normalizeDotLeadersF (n : Nat) (s : Str) : Str :=
  let s1 := replaceAllNEF n s '•' [] [' ']
  let s2 := replaceAllNEF n s1 '·' [] [' ']
  let s3 := replaceAllNEF n s2 '…' [] [' ', '.', '.', '.', ' ']
  let s4 := replaceAllNEF n s3 '·' [] [' ']
  let s5 := replaceAllNEF n s4 '…' [] [' ', '.', '.', '.', ' ']
  let s6 := replaceAllNEF n s5 '.' (dots 105) [' ']
  let s7 := replaceAllNEF n s6 ' ' ['.', ' ', '.', ' ', '.', ' '] [' ']
  joinWith [' '] (fieldsF n s7)

/-- The fuel covers every stage of the normalizer pipeline. -/
def normFuelOK (n : Nat) (s : Str) : Bool :=
  let s1 := replaceAllNEF n s '•' [] [' ']
  let s2 := replaceAllNEF n s1 '·' [] [' ']
  let s3 := replaceAllNEF n s2 '…' [] [' ', '.', '.', '.', ' ']
  let s4 := replaceAllNEF n s3 '·' [] [' ']
  let s5 := replaceAllNEF n s4 '…' [] [' ', '.', '.', '.', ' ']
  let s6 := replaceAllNEF n s5 '.' (dots 105) [' ']
  let s7 := replaceAllNEF n s6 ' ' ['.', ' ', '.', ' ', '.', ' '] [' ']
  decide (s.length ≤ n) && decide (s1.length ≤ n) && decide (s2.length ≤ n) &&
    decide (s3.length ≤ n) && decide (s4.length ≤ n) && decide (s5.length ≤ n) &&
    decide (s6.length ≤ n) && decide (s7.length ≤ n)

theorem normalizeDotLeaders_eq_fuel (n : Nat) (s : Str) (h : normFuelOK n s = true) :
    normalizeDotLeaders s = normalizeDotLeadersF n s := by
  rw [normFuelOK] at h
  simp only [Bool.and_eq_true, decide_eq_true_eq] at h
  obtain ⟨⟨⟨⟨⟨⟨⟨h0, h1⟩, h2⟩, h3⟩, h4⟩, h5⟩, h6⟩, h7⟩ := h
  rw [normalizeDotLeaders, normalizeDotLeadersF, dots106_eq, sp7_eq]
  simp only [replaceAll_cons]
  rw [replaceAllNE_eq_fuel n s '•' [] [' '] h0]
  rw [replaceAllNE_eq_fuel n _ '·' [] [' '] h1]
  rw [replaceAllNE_eq_fuel n _ '…' [] [' ', '.', '.', '.', ' '] h2]
  rw [replaceAllNE_eq_fuel n _ '·' [] [' '] h3]
  rw [replaceAllNE_eq_fuel n _ '…' [] [' ', '.', '.', '.', ' '] h4]
  rw [replaceAllNE_eq_fuel n _ '.' (dots 105) [' '] h5]
  rw [replaceAllNE_eq_fuel n _ ' ' ['.', ' ', '.', ' ', '.', ' '] [' '] h6]
  rw [fields_eq_fuel n _ h7]

theorem trimRightSp_length_le (s : Str) : (trimRightSp s).length ≤ s.length := by
  rw [trimRightSp]
  have := dropWhile_length_le (fun c => c == ' ') s.reverse
  simp at this ⊢
  omega

theorem trimSpace_length_le (s : Str) : (trimSpace s).length ≤ s.length := by
  rw [trimSpace]
  have h1 := dropWhile_length_le goSpace s
  have h2 := dropWhile_length_le goSpace (s.dropWhile goSpace).reverse
  simp at h1 h2 ⊢
  omega

/-- Fuel-indexed `attachLoop`. -/
def attachLoopF : Nat → List GoSection → List GoSection → Nat →
    List GoSection × List GoSection
  | 0, nodes, roots, _ => (nodes, roots)
  | n + 1, nodes, roots, i =>
    if i < nodes.length then
      let s := nodes.getD i dummySec
      match scanBack nodes s i with
      | none => attachLoopF n nodes (roots ++ [s]) (i + 1)
      | some (j, p) => attachLoopF n (nodes.set j (p.withChild s)) roots (i + 1)
    else (nodes, roots)

theorem attachLoop_eq_fuel : ∀ (n : Nat) (nodes roots : List GoSection) (i : Nat),
    nodes.length - i ≤ n → attachLoop nodes roots i = attachLoopF n nodes roots i := by
  intro n
  induction n with
  | zero =>
    intro nodes roots i hn
    rw [attachLoop, attachLoopF, dif_neg (by omega)]
  | succ n ih =>
    intro nodes roots i hn
    rw [attachLoop, attachLoopF]
    by_cases hi : i < nodes.length
    · rw [dif_pos hi, if_pos hi]
      have hget : nodes.getD i dummySec = nodes.get ⟨i, hi⟩ := by
        rw [List.getD_eq_getElem nodes dummySec hi]
        simp
      rw [hget]
      show (match scanBack nodes (nodes.get ⟨i, hi⟩) i with
        | none => attachLoop nodes (roots ++ [nodes.get ⟨i, hi⟩]) (i + 1)
        | some (j, p) =>
          attachLoop (nodes.set j (p.withChild (nodes.get ⟨i, hi⟩))) roots (i + 1)) =
        (match scanBack nodes (nodes.get ⟨i, hi⟩) i with
        | none => attachLoopF n nodes (roots ++ [nodes.get ⟨i, hi⟩]) (i + 1)
        | some (j, p) =>
          attachLoopF n (nodes.set j (p.withChild (nodes.get ⟨i, hi⟩))) roots (i + 1))
      rcases hsb : scanBack nodes (nodes.get ⟨i, hi⟩) i with _ | ⟨j, p⟩
      · exact ih nodes (roots ++ [nodes.get ⟨i, hi⟩]) (i + 1) (by omega)
      · refine ih _ roots (i + 1) (by
          simp only [List.length_set]
          omega)
    · rw [dif_neg hi, if_neg hi]

/-- Fuel-indexed `tocStartScan`. -/
def tocStartScanF : Nat → List Str → Nat → Nat → Option Nat
  | 0, _, _, _ => none
  | n + 1, pages, bound, i =>
    if i < pages.length ∧ i < bound then
      if headerMatch (pages.getD i []) || matchToCLines (pages.getD i []) then some i
      else tocStartScanF n pages bound (i + 1)
    else none

theorem tocStartScan_eq_fuel : ∀ (n : Nat) (pages : List Str) (bound i : Nat),
    bound - i ≤ n → tocStartScan pages bound i = tocStartScanF n pages bound i := by
  intro n
  induction n with
  | zero =>
    intro pages bound i hn
    rw [tocStartScan, tocStartScanF, dif_neg (by omega)]
  | succ n ih =>
    intro pages bound i hn
    rw [tocStartScan, tocStartScanF]
    by_cases hi : i < pages.length ∧ i < bound
    · rw [dif_pos hi, if_pos hi]
      have hget : pages.getD i [] = pages.get ⟨i, hi.1⟩ := by
        rw [List.getD_eq_getElem pages [] hi.1]
        simp
      rw [hget]
      by_cases hh : (headerMatch (pages.get ⟨i, hi.1⟩) ||
          matchToCLines (pages.get ⟨i, hi.1⟩)) = true
      · rw [if_pos hh, if_pos hh]
      · rw [if_neg hh, if_neg hh]
        exact ih pages bound (i + 1) (by omega)
    · rw [dif_neg hi, if_neg hi]

/-- Fuel-indexed `isToCLine`. -/
def isToCLineF (n : Nat) (s : Str) : Bool :=
  let m := normalizeDotLeadersF n s
  (tocAppendixFind m).isSome || (tocNumFind m).isSome ||
    (tocAlphaFind m).isSome || (tocRomanFind m).isSome

theorem isToCLine_eq_fuel (n : Nat) (s : Str) (h : normFuelOK n s = true) :
    isToCLine s = isToCLineF n s := by
  rw [isToCLine, isToCLineF, normalizeDotLeaders_eq_fuel n s h]

theorem filterMap_congr_mem {α β : Type} : ∀ (l : List α) (f g : α → Option β),
    (∀ a ∈ l, f a = g a) → l.filterMap f = l.filterMap g
  | [], _, _, _ => rfl
  | a :: t, f, g, h => by
    rw [List.filterMap_cons, List.filterMap_cons, h a (by simp),
      filterMap_congr_mem t f g (fun b hb => h b (by simp [hb]))]

/-- Fuel-indexed `pageContrib`. -/
def pageContribF (n : Nat) (p : Str) : List Str :=
  (splitOnNL p).filterMap fun ln =>
    let t := trimSpace ln
    if t.isEmpty then none
    else if isToCLineF n t then some t else none

/-- The fuel covers the normalizer on every trimmed line of the page. -/
def pageContribOK (n : Nat) (p : Str) : Bool :=
  (splitOnNL p).all fun ln => normFuelOK n (trimSpace ln)

theorem pageContrib_eq_fuel (n : Nat) (p : Str) (h : pageContribOK n p = true) :
    pageContrib p = pageContribF n p := by
  rw [pageContrib, pageContribF]
  refine filterMap_congr_mem _ _ _ ?_
  intro ln hln
  rw [pageContribOK, List.all_eq_true] at h
  simp only [isToCLine_eq_fuel n (trimSpace ln) (h ln hln)]

/-- Fuel-indexed `tocExtend` (the first fuel feeds the per-page
normalizer, the second bounds the loop). -/
def tocExtendF (n : Nat) : Nat → List Str → Nat → Nat → List Str
  | 0, _, _, _ => []
  | m + 1, pages, i, limit =>
    if i < pages.length ∧ i ≤ limit then
      let c := pageContribF n (pages.getD i [])
      if c.isEmpty then [] else c ++ tocExtendF n m pages (i + 1) limit
    else []

theorem tocExtend_eq_fuel (n : Nat) : ∀ (m : Nat) (pages : List Str) (i limit : Nat),
    limit + 1 - i ≤ m → (∀ p ∈ pages, pageContribOK n p = true) →
    tocExtend pages i limit = tocExtendF n m pages i limit := by
  intro m
  induction m with
  | zero =>
    intro pages i limit hm hp
    rw [tocExtend, tocExtendF, dif_neg (by omega)]
  | succ m ih =>
    intro pages i limit hm hp
    rw [tocExtend, tocExtendF]
    by_cases hi : i < pages.length ∧ i ≤ limit
    · rw [dif_pos hi, if_pos hi]
      have hget : pages.getD i [] = pages.get ⟨i, hi.1⟩ := by
        rw [List.getD_eq_getElem pages [] hi.1]
        simp
      rw [hget,
        ← pageContrib_eq_fuel n _ (hp (pages.get ⟨i, hi.1⟩) (pages.get_mem _ _))]
      by_cases hc : (pageContrib (pages.get ⟨i, hi.1⟩)).isEmpty = true
      · rw [if_pos hc, if_pos hc]
      · rw [if_neg hc, if_neg hc, ih pages (i + 1) limit (by omega) hp]
    · rw [dif_neg hi, if_neg hi]

/-- C1: refuted — hierarchy assembly loses a section.  On the chain
`1`, `1.1`, `1.1.1` the returned forest flattens to two sections, not
three: `attachChildren` updates value copies, so the grandchild attached
to the stale copy of `1.1` never reaches the rebuilt root. -/
theorem buildHierarchy_loses_section :
    exH3.length = 3 ∧ (flattenMany (buildHierarchy exH3)).length = 2 := by
  have hA : attachLoop exH3 [] 0 = attachLoopF 5 exH3 [] 0 :=
    attachLoop_eq_fuel 5 exH3 [] 0 (by decide)
  refine ⟨by decide, ?_⟩
  rw [buildHierarchy, attachChildren, hA]
  decide

/-- C2: refuted — the grandchild `1.1.1` has its direct parent `1.1`
immediately before it (lower depth, dotted-prefix number), yet it is
reachable nowhere in the forest returned by `buildHierarchy`. -/
theorem buildHierarchy_grandchild_unreachable :
    (exH3.getD 1 dummySec).depth < (exH3.getD 2 dummySec).depth ∧
    leadsWith ((exH3.getD 1 dummySec).number ++ ['.'])
      ((exH3.getD 2 dummySec).number) = true ∧
    ((flattenMany (buildHierarchy exH3)).map GoSection.number).contains
      (str "1.1.1") = false ∧
    (exH3.map GoSection.number).contains (str "1.1.1") = true := by
  have hA : attachLoop exH3 [] 0 = attachLoopF 5 exH3 [] 0 :=
    attachLoop_eq_fuel 5 exH3 [] 0 (by decide)
  refine ⟨by decide, by decide, ?_, by decide⟩
  rw [buildHierarchy, attachChildren, hA]
  decide

/-- C3 refuted: with a page tie and a depth-dropped entry, consecutive
output sections do not satisfy `endPage(i) = startPage(i+1) - 1`. -/
theorem buildSections_adjacency_counterexample :
    pagesAsc exE = true ∧
    ((buildSections exE 1).map fun s => (s.start, s.stop)) =
      [(4, 4), (4, 4), (9, 9)] ∧
    ¬ ((buildSections exE 1).getD 1 dummySec).stop =
        ((buildSections exE 1).getD 2 dummySec).start - 1 := by
  refine ⟨by decide, by decide, by decide⟩

/-- The adjacency property of claim C3, as an executable predicate. -/
def adjOK : List GoSection → Bool
  | [] => true
  | [s] => s.stop == s.start
  | s :: s2 :: rest => (s.stop == s2.start - 1) && adjOK (s2 :: rest)

theorem buildLoop_cons_head : ∀ (e : TocEntry) (rest : List TocEntry) (md : Int),
    e.depth ≤ md → ∃ X tl, buildLoop (e :: rest) md = mkSection e X :: tl
  | e, [], md, hd => by
    rw [buildLoop, if_neg (by omega)]
    exact ⟨e.page, [], rfl⟩
  | e, r :: rs, md, hd => by
    rw [buildLoop, if_neg (by omega)]
    exact ⟨_, _, rfl⟩

theorem mkSection_start (e : TocEntry) (X : Int) : (mkSection e X).start = e.page := rfl

theorem mkSection_stop (e : TocEntry) (X : Int) : (mkSection e X).stop = X := rfl

theorem buildLoop_adjOK : ∀ (l : List TocEntry) (md : Int),
    pagesStrictAsc l = true → (∀ e ∈ l, e.depth ≤ md) →
    adjOK (buildLoop l md) = true
  | [], _, _, _ => rfl
  | [e], md, _, hd => by
    rw [buildLoop, if_neg (by have := hd e (by simp); omega), adjOK]
    simp [mkSection_start, mkSection_stop]
  | e :: e2 :: rest, md, hasc, hd => by
    have hstrict : e.page < e2.page := by
      rw [pagesStrictAsc] at hasc
      simp only [Bool.and_eq_true, decide_eq_true_eq] at hasc
      exact hasc.1
    have hasc2 : pagesStrictAsc (e2 :: rest) = true := by
      rw [pagesStrictAsc] at hasc
      simp only [Bool.and_eq_true] at hasc
      exact hasc.2
    rw [buildLoop, if_neg (by have := hd e (by simp); omega),
      if_neg (by omega)]
    obtain ⟨X, tl, htl⟩ := buildLoop_cons_head e2 rest md (hd e2 (by simp))
    have hrec := buildLoop_adjOK (e2 :: rest) md hasc2 (fun x hx => hd x (by simp [hx]))
    rw [htl] at hrec ⊢
    rw [List.singleton_append, adjOK]
    simp only [mkSection_start, mkSection_stop, Bool.and_eq_true, beq_iff_eq]
    exact ⟨trivial, hrec⟩

/-- C3 (amended): under strictly ascending pages and no depth-dropped
entries, consecutive sections abut (`endPage(i) = startPage(i+1) - 1`)
and the final section has `endPage = startPage`. -/
theorem buildSections_adjacent_amended (entries : List TocEntry) (md : Int)
    (hasc : pagesStrictAsc entries = true)
    (hdep : ∀ e ∈ entries, e.depth ≤ effDepth md) :
    adjOK (buildSections entries md) = true := by
  rw [buildSections]
  rw [show (if md ≤ 0 then (10 : Int) else md) = effDepth md from rfl]
  exact buildLoop_adjOK entries (effDepth md) hasc hdep

/-- A strictly ascending entry list for the adjacency witness. -/
def exE3 : List TocEntry :=
  [⟨str "1", str "Safety", 4, 1⟩, ⟨str "1.1", str "General", 6, 2⟩,
   ⟨str "2", str "Install", 9, 1⟩]

theorem buildSections_adjacent_amended_witness :
    adjOK (buildSections exE3 2) = true :=
  buildSections_adjacent_amended exE3 2 (by decide) (by decide)

theorem buildLoop_eq_spec : ∀ (l : List TocEntry) (md : Int),
    buildLoop l md = (withNext l).filterMap fun p =>
      if p.1.depth ≤ md then some (mkSection p.1 (specEndPage p.1 p.2)) else none
  | [], _ => rfl
  | [e], md => by
    rw [buildLoop, withNext, List.filterMap_cons, List.filterMap_nil]
    by_cases hd : e.depth ≤ md
    · rw [if_neg (by omega), if_pos hd, specEndPage]
    · rw [if_pos (by omega), if_neg hd]
  | e :: e2 :: rest, md => by
    rw [buildLoop, withNext, List.filterMap_cons]
    rw [buildLoop_eq_spec (e2 :: rest) md]
    by_cases hd : e.depth ≤ md
    · rw [if_neg (by omega), if_pos hd, specEndPage]
      have hend : (if e2.page - 1 < e.page then e.page else e2.page - 1) =
          (if e2.page - 1 ≥ e.page then e2.page - 1 else e.page) := by
        split_ifs <;> omega
      rw [hend]
      simp
    · rw [if_pos (by omega), if_neg hd]
      simp

theorem buildLoop_start_le_stop : ∀ (l : List TocEntry) (md : Int),
    ∀ s ∈ buildLoop l md, s.start ≤ s.stop
  | [], _, s, hs => by simp [buildLoop] at hs
  | [e], md, s, hs => by
    rw [buildLoop] at hs
    split_ifs at hs
    · simp at hs
    · simp at hs
      rw [hs, mkSection_start, mkSection_stop]
  | e :: e2 :: rest, md, s, hs => by
    rw [buildLoop] at hs
    rcases List.mem_append.mp hs with hs | hs
    · split_ifs at hs with h1 h2
      · simp at hs
      · simp at hs
        rw [hs, mkSection_start, mkSection_stop]
      · simp at hs
        rw [hs, mkSection_start, mkSection_stop]
        omega
    · exact buildLoop_start_le_stop (e2 :: rest) md s hs

/-- C4: for `maxDepth ≥ 1` and page-sorted entries, `buildSections`
computes exactly the specification's end pages (next entry's page minus
one, clamped up to the entry's own page; own page for the last entry),
and `startPage ≤ endPage` throughout. -/
theorem buildSections_refines_spec (entries : List TocEntry) (md : Int)
    (hmd : 1 ≤ md) (hasc : pagesAsc entries = true) :
    buildSections entries md = buildSectionsSpec entries md ∧
    ∀ s ∈ buildSections entries md, s.start ≤ s.stop := by
  rw [buildSections, if_neg (by omega)]
  exact ⟨buildLoop_eq_spec entries md, buildLoop_start_le_stop entries md⟩

theorem buildSections_refines_spec_witness :
    buildSections exE2 2 = buildSectionsSpec exE2 2 ∧
    ∀ s ∈ buildSections exE2 2, s.start ≤ s.stop :=
  buildSections_refines_spec exE2 2 (by decide) (by decide)

theorem buildLoop_ne_nil : ∀ (l : List TocEntry) (md : Int),
    (∃ e ∈ l, e.depth ≤ md) → buildLoop l md ≠ []
  | [], _, h, _ => by simp at h
  | [e], md, h, hc => by
    obtain ⟨e2, he2, hd⟩ := h
    simp at he2
    subst he2
    rw [buildLoop, if_neg (by omega)] at hc
    simp at hc
  | e :: e2 :: rest, md, h, hc => by
    rw [buildLoop] at hc
    by_cases hd : e.depth ≤ md
    · rw [if_neg (by omega)] at hc
      simp at hc
    · rw [if_pos (by omega), List.nil_append] at hc
      obtain ⟨x, hx, hxd⟩ := h
      rcases List.mem_cons.mp hx with rfl | hx
      · exact hd hxd
      · exact buildLoop_ne_nil (e2 :: rest) md ⟨x, hx, hxd⟩ hc

/-- C10: a non-positive `maxDepth` behaves exactly as `maxDepth = 10`:
the section lists coincide, and an entry list containing some entry of
depth at most 10 never produces an empty result. -/
theorem buildSections_nonpos_maxDepth (entries : List TocEntry) (md : Int)
    (hmd : md ≤ 0) :
    buildSections entries md = buildSections entries 10 ∧
    ((∃ e ∈ entries, e.depth ≤ 10) → buildSections entries md ≠ []) := by
  have h1 : buildSections entries md = buildLoop entries 10 := by
    rw [buildSections, if_pos hmd]
  have h2 : buildSections entries 10 = buildLoop entries 10 := by
    rw [buildSections, if_neg (by omega)]
  exact ⟨h1.trans h2.symm, fun hex => h1 ▸ buildLoop_ne_nil entries 10 hex⟩

theorem buildSections_nonpos_maxDepth_witness :
    buildSections exE2 0 = buildSections exE2 10 ∧
    ((∃ e ∈ exE2, e.depth ≤ 10) → buildSections exE2 0 ≠ []) :=
  buildSections_nonpos_maxDepth exE2 0 (by decide)


/-- The extension loop never reads past a page that contributes no
lines: pages beyond the first gap can be discarded without changing the
result. -/
theorem tocExtend_stop (pages : List Str) (limit k : Nat)
    (hgap : pageContrib (pages.getD k []) = []) :
    ∀ (m i : Nat), limit + 1 - i ≤ m → i ≤ k →
    tocExtend pages i limit = tocExtend (pages.take k) i limit := by
  intro m
  induction m with
  | zero =>
    intro i hm _
    have h1 : tocExtend pages i limit = [] := by
      rw [tocExtend, dif_neg (fun h => absurd h.2 (by omega))]
    have h2 : tocExtend (pages.take k) i limit = [] := by
      rw [tocExtend, dif_neg (fun h => absurd h.2 (by omega))]
    rw [h1, h2]
  | succ m ih =>
    intro i hm hik
    rcases Nat.lt_or_ge i k with hlt | hge
    · by_cases hc : i < pages.length ∧ i ≤ limit
      · have hc2 : i < (pages.take k).length ∧ i ≤ limit :=
          ⟨by simp only [List.length_take]; omega, hc.2⟩
        have hgets : (pages.take k).get ⟨i, hc2.1⟩ = pages.get ⟨i, hc.1⟩ := by
          simp [List.getElem_take]
        have h1 : tocExtend pages i limit =
            (if (pageContrib (pages.get ⟨i, hc.1⟩)).isEmpty then []
             else pageContrib (pages.get ⟨i, hc.1⟩) ++ tocExtend pages (i + 1) limit) := by
          rw [tocExtend, dif_pos hc]
        have h2 : tocExtend (pages.take k) i limit =
            (if (pageContrib (pages.get ⟨i, hc.1⟩)).isEmpty then []
             else pageContrib (pages.get ⟨i, hc.1⟩) ++
               tocExtend (pages.take k) (i + 1) limit) := by
          rw [tocExtend, dif_pos hc2, hgets]
        rw [h1, h2]
        by_cases hce : (pageContrib (pages.get ⟨i, hc.1⟩)).isEmpty = true
        · rw [if_pos hce, if_pos hce]
        · rw [if_neg hce, if_neg hce, ih (i + 1) (by omega) (by omega)]
      · have hc2 : ¬ (i < (pages.take k).length ∧ i ≤ limit) := by
          intro hand
          refine hc ⟨?_, hand.2⟩
          have := hand.1
          simp only [List.length_take] at this
          omega
        have h1 : tocExtend pages i limit = [] := by
          rw [tocExtend, dif_neg hc]
        have h2 : tocExtend (pages.take k) i limit = [] := by
          rw [tocExtend, dif_neg hc2]
        rw [h1, h2]
    · have hik' : i = k := by omega
      subst hik'
      have hc2 : ¬ (i < (pages.take i).length ∧ i ≤ limit) := by
        intro hand
        have := hand.1
        simp only [List.length_take] at this
        omega
      have h2 : tocExtend (pages.take i) i limit = [] := by
        rw [tocExtend, dif_neg hc2]
      rw [h2]
      by_cases hc : i < pages.length ∧ i ≤ limit
      · have hg : pageContrib (pages.get ⟨i, hc.1⟩) = [] := by
          rw [← hgap, List.getD_eq_getElem pages [] hc.1]
          simp
        rw [tocExtend, dif_pos hc, hg]
        simp
      · rw [tocExtend, dif_neg hc]

/-- C8 (amended): once the simple detector has produced base lines, the
extension phase collects only from pages strictly before the first page
in range that contributes nothing — the base lines themselves may still
come from any heading page in the first-six window. -/
theorem findToCMultiPage_extension_stops (pages : List Str) (n : Int) (k : Nat)
    (hne : findToCBlock pages ≠ [])
    (hk1 : tocStartIdx pages n < k) (hk2 : k ≤ tocLimit pages n)
    (hgap : pageContrib (pages.getD k []) = []) :
    findToCMultiPage pages n =
      findToCBlock pages ++
        tocExtend (pages.take k) (tocStartIdx pages n + 1) (tocLimit pages n) := by
  have hie : (findToCBlock pages).isEmpty = false := by
    rcases h : findToCBlock pages with _ | ⟨a, t⟩
    · exact absurd h hne
    · rfl
  rw [findToCMultiPage, hie]
  simp only [Bool.false_eq_true, if_false]
  rw [show (if n ≤ 0 then (8 : Nat) else n.toNat) = effBudget n from rfl]
  rw [show (tocStartScan pages (effBudget n) 0).getD 0 = tocStartIdx pages n from rfl]
  rw [show tocStartIdx pages n + max 2 (effBudget n / 2) = tocLimit pages n from rfl]
  exact congrArg (findToCBlock pages ++ ·)
    (tocExtend_stop pages (tocLimit pages n) k hgap (tocLimit pages n + 1)
      (tocStartIdx pages n + 1) (by omega) (by omega))

theorem findToCMultiPage_extension_stops_witness :
    findToCMultiPage exPages 8 =
      findToCBlock exPages ++
        tocExtend (exPages.take 1) (tocStartIdx exPages 8 + 1) (tocLimit exPages 8) :=
  findToCMultiPage_extension_stops exPages 8 1 (by decide)
    (by
      rw [tocStartIdx, tocStartScan_eq_fuel 9 exPages (effBudget 8) 0 (by decide)]
      decide)
    (by
      rw [tocLimit]
      have := Nat.le_max_left 2 (effBudget 8 / 2)
      omega)
    (by
      rw [pageContrib_eq_fuel 300 _ (by decide)]
      decide)

/-- C8 refuted: with heading pages at indices 0 and 4, page 1 in the
extension range contributes nothing, yet the returned list still holds
the page-4 line `2 Setup 9`, which no page up to the gap carries. -/
theorem findToCMultiPage_gap_counterexample :
    tocStartIdx exPages 8 = 0 ∧
    pageContrib (exPages.getD 1 []) = [] ∧
    str "2 Setup 9" ∈ findToCMultiPage exPages 8 ∧
    str "2 Setup 9" ∈ splitOnNL (exPages.getD 4 []) ∧
    (∀ j < 4, str "2 Setup 9" ∉ splitOnNL (exPages.getD j [])) := by
  have hstart : tocStartIdx exPages 8 = 0 := by
    rw [tocStartIdx, tocStartScan_eq_fuel 9 exPages (effBudget 8) 0 (by decide)]
    decide
  have hgap : pageContrib (exPages.getD 1 []) = [] := by
    rw [pageContrib_eq_fuel 300 _ (by decide)]
    decide
  have hext : tocExtend exPages 1 4 = [] := by
    rw [tocExtend_eq_fuel 300 5 exPages 1 4 (by omega) (by decide)]
    decide
  have hie : (findToCBlock exPages).isEmpty = false := by decide
  have hval : findToCMultiPage exPages 8 = [str "1 Intro 5", str "2 Setup 9"] := by
    rw [findToCMultiPage, hie]
    simp only [Bool.false_eq_true, if_false]
    rw [show (if (8 : Int) ≤ 0 then (8 : Nat) else (8 : Int).toNat) = 8 from rfl]
    rw [tocStartScan_eq_fuel 9 exPages 8 0 (by decide)]
    rw [show (tocStartScanF 9 exPages 8 0).getD 0 = 0 from by decide]
    rw [show (0 : Nat) + 1 = 1 from rfl, show (0 : Nat) + max 2 (8 / 2) = 4 from by decide]
    rw [hext]
    decide
  refine ⟨hstart, hgap, ?_, by decide, by decide⟩
  rw [hval]
  decide

/-- Fuel-indexed `collectBlock` (`n` feeds the field splitter, the
second fuel bounds the loop). -/
def collectBlockF (n : Nat) : Nat → List Str → Nat → Nat → List (List Str) →
    List (List Str) × Nat × Nat
  | 0, _, _, colsCount, block => (block, colsCount, 0)
  | m + 1, lines, i, colsCount, block =>
    if i < lines.length then
      let ln := trimRightSp (lines.getD i [])
      if ln.isEmpty then (block, colsCount, 0)
      else
        let parts := splitRunsF n (trimSpace ln)
        if parts.length < 2 then (block, colsCount, 0)
        else
          let cc := if colsCount = 0 then parts.length else colsCount
          if parts.length ≠ cc then (block, cc, 0)
          else
            let block2 := block ++ [parts]
            if block2.length > 50 then (block2, cc, 0)
            else
              let r := collectBlockF n m lines (i + 1) cc block2
              (r.1, r.2.1, r.2.2 + 1)
    else (block, colsCount, 0)

theorem collectBlock_eq_fuel (n : Nat) : ∀ (m : Nat) (lines : List Str)
    (i cc : Nat) (block : List (List Str)),
    lines.length - i ≤ m → (∀ l ∈ lines, l.length ≤ n) →
    collectBlock lines i cc block = collectBlockF n m lines i cc block := by
  intro m
  induction m with
  | zero =>
    intro lines i cc block hm _
    rw [collectBlock, dif_neg (by omega), collectBlockF]
  | succ m ih =>
    intro lines i cc block hm hl
    rw [collectBlock, collectBlockF]
    by_cases hi : i < lines.length
    · rw [dif_pos hi, if_pos hi]
      have hget : lines.getD i [] = lines.get ⟨i, hi⟩ := by
        rw [List.getD_eq_getElem lines [] hi]
        simp
      rw [hget]
      simp only []
      have hsplit : splitBy2Spaces (trimRightSp (lines.get ⟨i, hi⟩)) =
          splitRunsF n (trimSpace (trimRightSp (lines.get ⟨i, hi⟩))) := by
        rw [splitBy2Spaces, splitRuns_eq_fuel n _ (by
          have h1 := trimSpace_length_le (trimRightSp (lines.get ⟨i, hi⟩))
          have h2 := trimRightSp_length_le (lines.get ⟨i, hi⟩)
          have h3 := hl (lines.get ⟨i, hi⟩) (lines.get_mem _ _)
          omega)]
      rw [hsplit]
      by_cases h1 : (trimRightSp (lines.get ⟨i, hi⟩)).isEmpty = true
      · rw [if_pos h1, if_pos h1]
      rw [if_neg h1, if_neg h1]
      by_cases h2 : (splitRunsF n (trimSpace (trimRightSp (lines.get ⟨i, hi⟩)))).length < 2
      · rw [if_pos h2, if_pos h2]
      rw [if_neg h2, if_neg h2]
      by_cases h3 : (splitRunsF n (trimSpace (trimRightSp (lines.get ⟨i, hi⟩)))).length ≠
          (if cc = 0 then (splitRunsF n (trimSpace (trimRightSp (lines.get ⟨i, hi⟩)))).length
           else cc)
      · rw [if_pos h3, if_pos h3]
      rw [if_neg h3, if_neg h3]
      by_cases h4 : (block ++ [splitRunsF n (trimSpace (trimRightSp (lines.get ⟨i, hi⟩)))]).length > 50
      · rw [if_pos h4, if_pos h4]
      rw [if_neg h4, if_neg h4]
      rw [ih lines (i + 1) _ _ (by omega) hl]
    · rw [dif_neg hi, if_neg hi]

/-- Fuel-indexed `ttLoop`. -/
def ttLoopF (n : Nat) : Nat → List Str → Nat → List Str
  | 0, _, _ => []
  | m + 1, lines, i =>
    if i < lines.length then
      let r := collectBlockF n (m + 1) lines i 0 []
      let block := r.1
      let cols := r.2.1
      let i2 := i + r.2.2
      if 2 ≤ block.length ∧ 2 ≤ cols then
        let rendered :=
          renderRow (block.headD []) :: renderSep cols :: (block.drop 1).map renderRow
        if i2 < lines.length then
          if (trimSpace (lines.getD i2 [])).isEmpty then
            rendered ++ [[]] ++ ttLoopF n m lines (i2 + 1)
          else rendered ++ ttLoopF n m lines i2
        else rendered ++ ttLoopF n m lines i2
      else
        List.take (min (i2 + 1) lines.length - i) (lines.drop i) ++
          ttLoopF n m lines (i2 + 1)
    else []

theorem ttLoop_eq_fuel (n : Nat) : ∀ (m : Nat) (lines : List Str) (i : Nat),
    lines.length - i ≤ m → (∀ l ∈ lines, l.length ≤ n) →
    ttLoop lines i = ttLoopF n m lines i := by
  intro m
  induction m with
  | zero =>
    intro lines i hm _
    rw [ttLoop, dif_neg (by omega), ttLoopF]
  | succ m ih =>
    intro lines i hm hl
    rw [ttLoop, ttLoopF]
    by_cases hi : i < lines.length
    · rw [dif_pos hi, if_pos hi]
      simp only []
      rw [← collectBlock_eq_fuel n (m + 1) lines i 0 [] (by omega) hl]
      by_cases hb : 2 ≤ (collectBlock lines i 0 []).1.length ∧
          2 ≤ (collectBlock lines i 0 []).2.1
      · rw [dif_pos hb, if_pos hb]
        have hcp : 1 ≤ (collectBlock lines i 0 []).2.2 :=
          collectBlock_consumed_pos lines i 0 hb.1
        by_cases h2 : i + (collectBlock lines i 0 []).2.2 < lines.length
        · rw [dif_pos h2, if_pos h2]
          have hget : lines.getD (i + (collectBlock lines i 0 []).2.2) [] =
              lines.get ⟨i + (collectBlock lines i 0 []).2.2, h2⟩ := by
            rw [List.getD_eq_getElem lines [] h2]
            simp
          rw [hget]
          by_cases he : (trimSpace
              (lines.get ⟨i + (collectBlock lines i 0 []).2.2, h2⟩)).isEmpty = true
          · rw [if_pos he, if_pos he,
              ih lines (i + (collectBlock lines i 0 []).2.2 + 1) (by omega) hl]
          · rw [if_neg he, if_neg he,
              ih lines (i + (collectBlock lines i 0 []).2.2) (by omega) hl]
        · rw [dif_neg h2, if_neg h2,
            ih lines (i + (collectBlock lines i 0 []).2.2) (by omega) hl]
      · rw [dif_neg hb, if_neg hb,
          ih lines (i + (collectBlock lines i 0 []).2.2 + 1) (by omega) hl]
    · rw [dif_neg hi, if_neg hi]

theorem collectBlock_extends : ∀ (k : Nat) (lines : List Str) (i cc : Nat)
    (block : List (List Str)), lines.length - i ≤ k →
    ∃ ext, (collectBlock lines i cc block).1 = block ++ ext := by
  intro k
  induction k with
  | zero =>
    intro lines i cc block hm
    rw [collectBlock, dif_neg (by omega)]
    exact ⟨[], by simp⟩
  | succ k ih =>
    intro lines i cc block hm
    rw [collectBlock]
    by_cases hi : i < lines.length
    · rw [dif_pos hi]
      simp only []
      generalize splitBy2Spaces (trimRightSp (lines.get ⟨i, hi⟩)) = parts
      generalize (if cc = 0 then parts.length else cc) = cc2
      split_ifs with h1 h2 h4 h5
      · exact ⟨[], by simp⟩
      · exact ⟨[], by simp⟩
      · exact ⟨[], by simp⟩
      · exact ⟨[parts], rfl⟩
      · obtain ⟨ext, hext⟩ := ih lines (i + 1) cc2 (block ++ [parts]) (by omega)
        refine ⟨[parts] ++ ext, ?_⟩
        show (collectBlock lines (i + 1) cc2 (block ++ [parts])).1 = block ++ ([parts] ++ ext)
        rw [hext]
        simp
    · rw [dif_neg hi]
      exact ⟨[], by simp⟩

theorem collectBlock_head (lines : List Str) (i cc : Nat)
    (h2 : 2 ≤ (collectBlock lines i cc []).1.length) :
    i < lines.length ∧
    (collectBlock lines i cc []).1.headD [] =
      splitBy2Spaces (trimRightSp (lines.getD i [])) := by
  by_cases hi : i < lines.length
  · refine ⟨hi, ?_⟩
    have hget : lines.getD i [] = lines.get ⟨i, hi⟩ := by
      rw [List.getD_eq_getElem lines [] hi]
      simp
    rw [hget]
    rw [collectBlock, dif_pos hi] at h2 ⊢
    simp only [] at h2 ⊢
    revert h2
    generalize hp : splitBy2Spaces (trimRightSp (lines.get ⟨i, hi⟩)) = parts
    generalize (if cc = 0 then parts.length else cc) = cc2
    intro h2
    split_ifs at h2 ⊢ with ha hb hc hd
    · simp at h2
    · simp at h2
    · simp at h2
    · rfl
    · obtain ⟨ext, hext⟩ := collectBlock_extends lines.length lines (i + 1) cc2
        [parts] (by omega)
      show (collectBlock lines (i + 1) cc2 ([] ++ [parts])).1.headD [] = parts
      rw [List.nil_append, hext]
      rfl
  · rw [collectBlock, dif_neg hi] at h2
    simp at h2

/-- C9: the three aligned lines render as a Markdown table — header row
from the first line, then a separator row, then the data rows — and in
general the first line of any qualifying block becomes the header row. -/
theorem transformTables_table_scenario :
    transformTables exTablePage = exTableOut ∧
    ∀ (lines : List Str) (i : Nat),
      2 ≤ (collectBlock lines i 0 []).1.length →
      2 ≤ (collectBlock lines i 0 []).2.1 →
      ∃ rest, ttLoop lines i =
        renderRow (splitBy2Spaces (trimRightSp (lines.getD i []))) ::
          renderSep (collectBlock lines i 0 []).2.1 :: rest := by
  constructor
  · rw [transformTables]
    rw [ttLoop_eq_fuel 30 4 (splitOnNL exTablePage) 0 (by decide) (by decide)]
    decide
  · intro lines i hb1 hb2
    obtain ⟨hi, hhead⟩ := collectBlock_head lines i 0 hb1
    rw [ttLoop, dif_pos hi]
    simp only []
    rw [dif_pos ⟨hb1, hb2⟩]
    split_ifs with h2 h3
    · exact ⟨((collectBlock lines i 0 []).1.drop 1).map renderRow ++
        ([[]] ++ ttLoop lines (i + (collectBlock lines i 0 []).2.2 + 1)),
        by rw [← hhead]; simp⟩
    · exact ⟨((collectBlock lines i 0 []).1.drop 1).map renderRow ++
        ttLoop lines (i + (collectBlock lines i 0 []).2.2),
        by rw [← hhead]; simp⟩
    · exact ⟨((collectBlock lines i 0 []).1.drop 1).map renderRow ++
        ttLoop lines (i + (collectBlock lines i 0 []).2.2),
        by rw [← hhead]; simp⟩

theorem transformTables_table_scenario_witness :
    transformTables exTablePage = exTableOut ∧
    ∃ rest, ttLoop (splitOnNL exTablePage) 0 =
      renderRow (splitBy2Spaces (trimRightSp ((splitOnNL exTablePage).getD 0 []))) ::
        renderSep (collectBlock (splitOnNL exTablePage) 0 0 []).2.1 :: rest :=
  ⟨transformTables_table_scenario.1,
    transformTables_table_scenario.2 (splitOnNL exTablePage) 0
      (by
        rw [collectBlock_eq_fuel 30 4 (splitOnNL exTablePage) 0 0 [] (by decide) (by decide)]
        decide)
      (by
        rw [collectBlock_eq_fuel 30 4 (splitOnNL exTablePage) 0 0 [] (by decide) (by decide)]
        decide)⟩
